import Mathlib

/-!
# Mix1Solver (Genius TCAD, `src/solver/mix1/mix1.cc`)

A shallow embedding of the damping policies, the BDF2 order test, the
local-truncation-error estimate, the convergence norms, the divergence recovery
and the scaling and first-assembly steps of the residual and Jacobian assembly
of `Mix1Solver`, and of the complex cells of `FVM_PML_NodeData`
(`include/solution/fvm_node_data_pml.h`).

Conventions of the embedding.

* `PetscScalar` / `PetscReal` / `double` are modelled by an arbitrary linearly
  ordered field `α` (exact arithmetic).  All definitions are computable for a
  computable `α` such as `ℚ`; theorems are proved for every such field, hence
  also over `ℝ`.  The transcendental `log` and `sqrt` are passed as parameters.
* A PETSc array obtained by `VecGetArray` is a total function `Nat → α`
  (`LocalArray`).  `xx[i] = v` is `Function.update xx i v`.
* The SPMD run is a list of processes.  Each process sees the regions of
  `_system` with its own on-processor nodes, and its own local arrays.
  `Parallel::max` / `Parallel::sum` combine one value per process.
* `unsigned int` counters wrap modulo `2 ^ 32`.
* `genius_error()` is the error branch of `Except`.
* Calls to regions, boundary conditions, the circuit and the base class, whose
  bodies are not part of the sources at hand, are recorded in a list of calls;
  their effect on the data is a parameter of the routine that makes them.
-/

set_option linter.unusedSectionVars false

namespace Genius

/-! ## Data model -/

/-- Modelled from the spec: the declaration of the enum `SimulationRegionType` is not part of
the sources at hand.  The five enumerators used by `mix1.cc` are kept by name; every other
enumerator value (the `default:` branches of the source) is `OtherRegion tag`. -/
inductive SimulationRegionType where
  | SemiconductorRegion
  | InsulatorRegion
  | ElectrodeRegion
  | MetalRegion
  | VacuumRegion
  | OtherRegion (tag : Nat)
  deriving DecidableEq, Repr

open SimulationRegionType

/-- The part of `FVM_NodeData` read by `BDF2_positive_defined`: carrier densities of the
current and of the last time step. -/
structure FVM_NodeData (α : Type) where
  n : α
  p : α
  n_last : α
  p_last : α

/-- An `FVM_Node` as far as the solver uses it: its offset in the local arrays and its data. -/
structure FVM_Node (α : Type) where
  local_offset : Nat
  node_data : FVM_NodeData α

/-- A `SimulationRegion` as one process sees it: `type()` and the range
`on_processor_nodes_begin() .. on_processor_nodes_end()`. -/
structure SimulationRegion (α : Type) where
  type : SimulationRegionType
  on_processor_nodes : List (FVM_Node α)

/-- The call `region->n_on_processor_node()`. -/
def SimulationRegion.n_on_processor_node {α : Type} (region : SimulationRegion α) : Nat :=
  region.on_processor_nodes.length

/-- The member `_system` as one process sees it: `region(0) .. region(n_regions()-1)`. -/
abbrev SimulationSystem (α : Type) := List (SimulationRegion α)

/-- A local array (`PetscScalar *` from `VecGetArray`). -/
abbrev LocalArray (α : Type) := Nat → α

/-- Number of contiguous slots a node occupies in the solution vector (data model of the
solver: three for a semiconductor node, one for every other role). -/
def slot_count : SimulationRegionType → Nat
  | SemiconductorRegion => 3
  | _ => 1

/-- The slots `local_offset, ..., local_offset + slot_count - 1` of a node of a region of
type `ty`. -/
def node_slots {α : Type} (ty : SimulationRegionType) (nd : FVM_Node α) : List Nat :=
  (List.range (slot_count ty)).map (fun k => nd.local_offset + k)

/-- All on-processor nodes of a process, each tagged with the type of its region, in the
order in which the region loops of the solver visit them. -/
def tagged_nodes {α : Type} (sys : SimulationSystem α) :
    List (SimulationRegionType × FVM_Node α) :=
  sys.flatMap (fun region => region.on_processor_nodes.map (fun nd => (region.type, nd)))

/-- All slots owned by the nodes of a process. -/
def all_slots {α : Type} (sys : SimulationSystem α) : List Nat :=
  (tagged_nodes sys).flatMap (fun tn => node_slots tn.1 tn.2)

/-- Layout invariant of the solution vector: no slot belongs to two nodes (nor twice to
one node). -/
def WellFormed {α : Type} (sys : SimulationSystem α) : Prop :=
  (all_slots sys).Nodup

instance {α : Type} (sys : SimulationSystem α) : Decidable (WellFormed sys) :=
  inferInstanceAs (Decidable (all_slots sys).Nodup)

/-- The constants of namespace `PhysicalUnit` used by `mix1.cc` (their values are not part of
the sources at hand, so they are parameters). -/
structure PhysicalUnit (α : Type) where
  cm : α
  kb : α
  e : α
  A : α

section Solver

variable {α : Type} [LinearOrderedField α]

/-! ## `Parallel::` reductions -/

/-- The reduction `Parallel::sum` on `unsigned int`: one summand per process, wrapping. -/
def Parallel_sum_uint (xs : List Nat) : Nat :=
  xs.foldl (fun s c => (s + c) % 2 ^ 32) 0

/-- The reduction `Parallel::max`: the largest of the values of the processes. -/
def Parallel_max : List α → α
  | [] => 0
  | x :: xs => xs.foldl max x

/-! ## `Mix1Solver::BDF2_positive_defined` -/

/-- Body of the node loop of `BDF2_positive_defined`: two tests, each `failure_count++`. -/
def BDF2_node_step (a b : α) (failure_count : Nat) (fvm_node : FVM_Node α) : Nat :=
  let node_data := fvm_node.node_data
  let c1 := if a * node_data.n < b * node_data.n_last then (failure_count + 1) % 2 ^ 32
            else failure_count
  if a * node_data.p < b * node_data.p_last then (c1 + 1) % 2 ^ 32 else c1

/-- The region loop of `BDF2_positive_defined` on one process: the local `failure_count`
before `Parallel::sum`. -/
def BDF2_local_failure_count (dt dt_last : α) (sys : SimulationSystem α) : Nat :=
  let r := dt_last / (dt_last + dt)
  let a := 1 / (r * (1 - r))
  let b := (1 - r) / r
  sys.foldl (fun failure_count region =>
    if region.type = SemiconductorRegion then
      region.on_processor_nodes.foldl (BDF2_node_step a b) failure_count
    else failure_count) 0

/-- `Mix1Solver::BDF2_positive_defined`: `Parallel::sum(failure_count)` and then
`return failure_count != 0`. -/
def BDF2_positive_defined (dt dt_last : α) (procs : List (SimulationSystem α)) : Bool :=
  Parallel_sum_uint (procs.map (BDF2_local_failure_count dt dt_last)) != 0

/-- A node of a semiconductor region violates the BDF2 positivity test
`a*n >= b*n_last` and `a*p >= b*p_last`. -/
def BDF2_violates (dt dt_last : α) (fvm_node : FVM_Node α) : Prop :=
  let r := dt_last / (dt_last + dt)
  let a := 1 / (r * (1 - r))
  let b := (1 - r) / r
  a * fvm_node.node_data.n < b * fvm_node.node_data.n_last ∨
    a * fvm_node.node_data.p < b * fvm_node.node_data.p_last

/-! ## Newton damping: `potential_damping`, `bank_rose_damping`, `positive_density_damping` -/

/-- What one process passes to a damping routine: its view of `_system` and the local arrays
of `x` (previous iterate), `y` (search direction and length) and `w` (candidate iterate). -/
structure ProcessArgs (α : Type) where
  system : SimulationSystem α
  xx : LocalArray α
  yy : LocalArray α
  ww : LocalArray α

/-- Result of a damping routine: the candidate array of every process and the two flags
`*changed_y`, `*changed_w` (the arrays of `x` and `y` are only read). -/
structure DampingOutcome (α : Type) where
  ww : List (LocalArray α)
  changed_y : Bool
  changed_w : Bool

/-- The constant `onePerCMC = 1.0*std::pow(cm,-3)`. -/
def onePerCMC (u : PhysicalUnit α) : α :=
  1 * u.cm ^ (-3 : ℤ)

/-- Body of the node loop of the `dV_max` search in `potential_damping`; the state is
`(dV_max, ww)`. -/
def dV_search_node (floor : α) (yy : LocalArray α) (st : α × LocalArray α)
    (fvm_node : FVM_Node α) : α × LocalArray α :=
  let local_offset := fvm_node.local_offset
  let dV_max := max st.1 |yy local_offset|
  let ww1 := if st.2 (local_offset + 1) < floor then
      Function.update st.2 (local_offset + 1) floor else st.2
  let ww2 := if ww1 (local_offset + 2) < floor then
      Function.update ww1 (local_offset + 2) floor else ww1
  (dV_max, ww2)

/-- The first region loop of `potential_damping` on one process (regions that are not
semiconductor are skipped by `continue`), starting from `dV_max = 0.0`. -/
def dV_search (floor : α) (p : ProcessArgs α) : α × LocalArray α :=
  p.system.foldl (fun st region =>
    if region.type ≠ SemiconductorRegion then st
    else region.on_processor_nodes.foldl (dV_search_node floor p.yy) st) (0, p.ww)

/-- The value of `dV_max` after `Parallel::max( dV_max )`. -/
def potential_dV_max (u : PhysicalUnit α) (procs : List (ProcessArgs α)) : α :=
  Parallel_max (procs.map (fun p => (dV_search (onePerCMC u) p).1))

/-- The value `Vut = kb*T_external/e * SolverSpecify::potential_update`. -/
def thermal_voltage (u : PhysicalUnit α) (T_external potential_update : α) : α :=
  u.kb * T_external / u.e * potential_update

/-- The logarithmic damping factor `f = log(1+dV_max/Vut)/(dV_max/Vut)`. -/
def damping_factor (log : α → α) (dV_max Vut : α) : α :=
  log (1 + dV_max / Vut) / (dV_max / Vut)

/-- Body of the node loop of the damping loop of `potential_damping`. -/
def damp_node (f : α) (xx yy : LocalArray α) (ww : LocalArray α) (fvm_node : FVM_Node α) :
    LocalArray α :=
  let local_offset := fvm_node.local_offset
  Function.update ww (local_offset + 0) (xx (local_offset + 0) - f * yy (local_offset + 0))

/-- The second region loop of `potential_damping` on one process (all regions: the test of the
region type is commented out in the source). -/
def damp_all (f : α) (p : ProcessArgs α) (ww : LocalArray α) : LocalArray α :=
  p.system.foldl (fun ww region =>
    region.on_processor_nodes.foldl (damp_node f p.xx p.yy) ww) ww

/-- What `potential_damping` leaves in the candidate array of one process, given the reduced
`dV_max`. -/
def potential_damping_local (u : PhysicalUnit α) (log : α → α) (T_external potential_update : α)
    (dV_max : α) (p : ProcessArgs α) : LocalArray α :=
  let ww := (dV_search (onePerCMC u) p).2
  if dV_max > 1 / 1000000 then
    let Vut := thermal_voltage u T_external potential_update
    let f := damping_factor log dV_max Vut
    damp_all f p ww
  else ww

/-- `Mix1Solver::potential_damping`. -/
def potential_damping (u : PhysicalUnit α) (log : α → α) (T_external potential_update : α)
    (procs : List (ProcessArgs α)) : DampingOutcome α :=
  let dV_max := potential_dV_max u procs
  { ww := procs.map (potential_damping_local u log T_external potential_update dV_max),
    changed_y := false,
    changed_w := true }

/-- `Mix1Solver::bank_rose_damping`: both flags false, candidate untouched. -/
def bank_rose_damping (procs : List (ProcessArgs α)) : DampingOutcome α :=
  { ww := procs.map (fun p => p.ww), changed_y := false, changed_w := false }

/-- Modelled from the spec: `std::sign` is declared in a header that is not part of the sources
at hand.  The solver only calls it where `fabs(y) > 1.0`, i.e. on non-zero arguments, where it
is `1` for a positive and `-1` for a negative argument. -/
def sign (x : α) : α :=
  if 0 < x then 1 else if x < 0 then -1 else 0

/-- Conversion to a 32 bit `int` (two's complement wrap). -/
def wrap_int32 (z : Int) : Int :=
  (z + 2 ^ 31) % 2 ^ 32 - 2 ^ 31

/-- The reduction `Parallel::sum` on `int` (used for the 0/1 flags and the entry counts). -/
def Parallel_sum_int (xs : List Int) : Int :=
  xs.foldl (fun s c => wrap_int32 (s + c)) 0

/-- Body of the node loop of `positive_density_damping`; the state is `(ww, changed_flag)`. -/
def positive_density_node (floor : α) (xx yy : LocalArray α) (st : LocalArray α × Int)
    (fvm_node : FVM_Node α) : LocalArray α × Int :=
  let local_offset := fvm_node.local_offset
  let st1 : LocalArray α × Int := if |yy local_offset| > 1 then
      (Function.update st.1 local_offset (xx local_offset - sign (yy local_offset) * 1), 1)
    else st
  let st2 : LocalArray α × Int := if st1.1 (local_offset + 1) < floor then
      (Function.update st1.1 (local_offset + 1) floor, 1)
    else st1
  if st2.1 (local_offset + 2) < floor then
    (Function.update st2.1 (local_offset + 2) floor, 1)
  else st2

/-- The region loop of `positive_density_damping` on one process: the candidate array and the
local `changed_flag` before `Parallel::sum`. -/
def positive_density_local (floor : α) (p : ProcessArgs α) : LocalArray α × Int :=
  p.system.foldl (fun st region =>
    if region.type ≠ SemiconductorRegion then st
    else region.on_processor_nodes.foldl (positive_density_node floor p.xx p.yy) st) (p.ww, 0)

/-- The value of `changed_flag` after `Parallel::sum( changed_flag )`. -/
def positive_density_changed_flag (u : PhysicalUnit α) (procs : List (ProcessArgs α)) : Int :=
  Parallel_sum_int (procs.map (fun p => (positive_density_local (onePerCMC u) p).2))

/-- `Mix1Solver::positive_density_damping`.  `changed_y0` and `changed_w0` are the values
behind the pointers `changed_y`, `changed_w` on entry: the routine writes them only inside
`if(changed_flag)`. -/
def positive_density_damping (u : PhysicalUnit α) (changed_y0 changed_w0 : Bool)
    (procs : List (ProcessArgs α)) : DampingOutcome α :=
  let ww := procs.map (fun p => (positive_density_local (onePerCMC u) p).1)
  if positive_density_changed_flag u procs ≠ 0 then
    { ww := ww, changed_y := false, changed_w := true }
  else
    { ww := ww, changed_y := changed_y0, changed_w := changed_w0 }

/-! ## `Mix1Solver::LTE_norm` -/

/-- Modelled from the spec: the enum of `SolverSpecify::TS_type` is declared outside the sources
at hand.  `LTE_norm` tests it against `BDF1` and `BDF2` only; any other value is
`OtherScheme`. -/
inductive TemporalScheme where
  | BDF1
  | BDF2
  | OtherScheme
  deriving DecidableEq, Repr

/-- The globals of namespace `SolverSpecify` read by `LTE_norm`. -/
structure SolverSpecify (α : Type) where
  dt : α
  dt_last : α
  dt_last_last : α
  TS_rtol : α
  TS_atol : α
  TS_type : TemporalScheme
  BDF2_LowerOrder : Bool

/-- The solver members read by `LTE_norm`, as one process holds them: its view of `_system`,
the local length of the vectors, the accepted solution `x` and the history vectors. -/
structure Mix1Process (α : Type) where
  system : SimulationSystem α
  n_local : Nat
  x : LocalArray α
  x_n : LocalArray α
  x_n1 : LocalArray α
  x_n2 : LocalArray α

/-- The PETSc call `VecZeroEntries`. -/
def VecZeroEntries : LocalArray α := fun _ => 0

/-- The PETSc call `VecAXPY(y, a, x)`: `y = y + a*x`. -/
def VecAXPY (y : LocalArray α) (a : α) (x : LocalArray α) : LocalArray α :=
  fun i => y i + a * x i

/-- The predictor `xp` and the LTE vector before normalisation, as `LTE_norm` builds them
on one process. -/
def LTE_predict (ss : SolverSpecify α) (p : Mix1Process α) : LocalArray α × LocalArray α :=
  let hn := ss.dt
  let hn1 := ss.dt_last
  let hn2 := ss.dt_last_last
  let xp : LocalArray α := VecZeroEntries
  let LTE : LocalArray α := VecZeroEntries
  if ss.TS_type = TemporalScheme.BDF1 then
    let xp := VecAXPY xp (1 + hn / hn1) p.x_n
    let xp := VecAXPY xp (-hn / hn1) p.x_n1
    let LTE := VecAXPY LTE (hn / (hn + hn1)) p.x
    let LTE := VecAXPY LTE (-hn / (hn + hn1)) xp
    (xp, LTE)
  else if ss.TS_type = TemporalScheme.BDF2 then
    if ss.BDF2_LowerOrder then
      let xp := VecAXPY xp (1 + hn / hn1) p.x_n
      let xp := VecAXPY xp (-hn / hn1) p.x_n1
      let LTE := VecAXPY LTE (hn / (hn + hn1)) p.x
      let LTE := VecAXPY LTE (-hn / (hn + hn1)) xp
      (xp, LTE)
    else
      let cn := 1 + hn * (hn + 2 * hn1 + hn2) / (hn1 * (hn1 + hn2))
      let cn1 := -hn * (hn + hn1 + hn2) / (hn1 * hn2)
      let cn2 := hn * (hn + hn1) / (hn2 * (hn1 + hn2))
      let xp := VecAXPY xp cn p.x_n
      let xp := VecAXPY xp cn1 p.x_n1
      let xp := VecAXPY xp cn2 p.x_n2
      let LTE := VecAXPY LTE (hn / (hn + hn1 + hn2)) p.x
      let LTE := VecAXPY LTE (-hn / (hn + hn1 + hn2)) xp
      (xp, LTE)
  else (xp, LTE)

/-- Body of the node loop of `LTE_norm` in a semiconductor region. -/
def LTE_semiconductor_node (eps_r eps_a : α) (xx : LocalArray α) (ll : LocalArray α)
    (fvm_node : FVM_Node α) : LocalArray α :=
  let local_offset := fvm_node.local_offset
  let ll0 := Function.update ll (local_offset + 0) 0
  let ll1 := Function.update ll0 (local_offset + 1)
    (ll0 (local_offset + 1) / (eps_r * xx (local_offset + 1) + eps_a))
  Function.update ll1 (local_offset + 2)
    (ll1 (local_offset + 2) / (eps_r * xx (local_offset + 2) + eps_a))

/-- Body of the node loop of `LTE_norm` in an insulator, electrode or metal region. -/
def LTE_single_slot_node (ll : LocalArray α) (fvm_node : FVM_Node α) : LocalArray α :=
  Function.update ll fvm_node.local_offset 0

/-- One pass of the body of the region loop of `LTE_norm` (the `switch` on the region type);
the state is `(ll, N)`, and `default: genius_error()` is the error. -/
def LTE_region (eps_r eps_a : α) (xx : LocalArray α) (st : LocalArray α × Int)
    (region : SimulationRegion α) : Except Unit (LocalArray α × Int) :=
  match region.type with
  | SemiconductorRegion =>
    Except.ok (region.on_processor_nodes.foldl (LTE_semiconductor_node eps_r eps_a xx) st.1,
      wrap_int32 (st.2 + 2 * (region.n_on_processor_node : Int)))
  | InsulatorRegion | ElectrodeRegion | MetalRegion =>
    Except.ok (region.on_processor_nodes.foldl LTE_single_slot_node st.1, st.2)
  | VacuumRegion => Except.ok st
  | OtherRegion _ => Except.error ()

/-- The region loop of `LTE_norm`. -/
def LTE_regions (eps_r eps_a : α) (xx : LocalArray α) :
    List (SimulationRegion α) → LocalArray α × Int → Except Unit (LocalArray α × Int)
  | [], st => Except.ok st
  | region :: rest, st =>
    match LTE_region eps_r eps_a xx st region with
    | Except.ok st1 => LTE_regions eps_r eps_a xx rest st1
    | Except.error err => Except.error err

/-- The normalised LTE array `ll` and the local count `N` of one process. -/
def LTE_local (ss : SolverSpecify α) (p : Mix1Process α) : Except Unit (LocalArray α × Int) :=
  LTE_regions ss.TS_rtol ss.TS_atol p.x p.system ((LTE_predict ss p).2, 0)

/-- All processes run to the end of the region loop, or the run ends in `genius_error`. -/
def all_processes {β : Type} : List (Except Unit β) → Except Unit (List β)
  | [] => Except.ok []
  | Except.ok b :: rest =>
    match all_processes rest with
    | Except.ok bs => Except.ok (b :: bs)
    | Except.error err => Except.error err
  | Except.error err :: _ => Except.error err

/-- Sum of the squares of the first `n_local` entries of a local array. -/
def local_sum_squares (n_local : Nat) (ll : LocalArray α) : α :=
  ((List.range n_local).map (fun i => ll i * ll i)).sum

/-- The call `VecNorm(LTE, NORM_2, &r)` over the distributed vector: `sqrt` of the sum over
all processes of the local sums of squares. -/
def VecNorm_2 (sqrt : α → α) (parts : List (Nat × LocalArray α)) : α :=
  sqrt ((parts.map (fun q => local_sum_squares q.1 q.2)).sum)

/-- `Mix1Solver::LTE_norm`. -/
def LTE_norm (sqrt : α → α) (ss : SolverSpecify α) (procs : List (Mix1Process α)) :
    Except Unit α :=
  match all_processes (procs.map (LTE_local ss)) with
  | Except.error err => Except.error err
  | Except.ok locals =>
    let r := VecNorm_2 sqrt (List.zipWith (fun p st => (p.n_local, st.1)) procs locals)
    let N := Parallel_sum_int (locals.map Prod.snd)
    if N > 0 then Except.ok (r / sqrt (N : α)) else Except.ok 1

/-! ## Auxiliary notions for the statements -/

/-- The on-processor nodes of the semiconductor regions of a process, in loop order. -/
def semiconductor_nodes (sys : SimulationSystem α) : List (FVM_Node α) :=
  sys.flatMap (fun region =>
    if region.type = SemiconductorRegion then region.on_processor_nodes else [])

/-- The electron and hole slots (`local_offset+1`, `local_offset+2`) of the on-processor
semiconductor nodes of a process. -/
def density_slots (sys : SimulationSystem α) : List Nat :=
  (semiconductor_nodes sys).flatMap (fun nd => [nd.local_offset + 1, nd.local_offset + 2])

/-- A clamp of `positive_density_damping` fires at a node for the candidate `ww`: the
potential step exceeds 1, or a density is below the floor. -/
def clamp_fires (floor : α) (yy ww : LocalArray α) (fvm_node : FVM_Node α) : Prop :=
  |yy fvm_node.local_offset| > 1 ∨ ww (fvm_node.local_offset + 1) < floor ∨
    ww (fvm_node.local_offset + 2) < floor

instance (floor : α) (yy ww : LocalArray α) (fvm_node : FVM_Node α) :
    Decidable (clamp_fires floor yy ww fvm_node) := by
  unfold clamp_fires
  exact inferInstance

instance (dt dt_last : α) (fvm_node : FVM_Node α) :
    Decidable (BDF2_violates dt dt_last fvm_node) := by
  unfold BDF2_violates
  exact inferInstance

/-- The body of the node loop of `LTE_norm` selected by the type of the region of the node
(nothing for a vacuum region). -/
def LTE_tagged_step (eps_r eps_a : α) (xx : LocalArray α) (ll : LocalArray α)
    (tn : SimulationRegionType × FVM_Node α) : LocalArray α :=
  match tn.1 with
  | SemiconductorRegion => LTE_semiconductor_node eps_r eps_a xx ll tn.2
  | InsulatorRegion | ElectrodeRegion | MetalRegion => LTE_single_slot_node ll tn.2
  | _ => ll

/-- Number of failed tests of `BDF2_positive_defined` at one node (0, 1 or 2). -/
def BDF2_node_failures (a b : α) (fvm_node : FVM_Node α) : Nat :=
  (if a * fvm_node.node_data.n < b * fvm_node.node_data.n_last then 1 else 0) +
    (if a * fvm_node.node_data.p < b * fvm_node.node_data.p_last then 1 else 0)

/-- Example for `BDF2_positive_defined`: one process, one semiconductor region, one node with
`n = p = 1` and `n_last = p_last = 0`. -/
def bdf2_safe_system : List (SimulationSystem ℚ) :=
  [[{ type := SemiconductorRegion,
      on_processor_nodes := [{ local_offset := 0,
                               node_data := { n := 1, p := 1, n_last := 0, p_last := 0 } }] }]]

/-- The unit system in which every constant of `PhysicalUnit` is 1 (so the density floor
`onePerCMC` is 1). -/
def unit_one : PhysicalUnit ℚ :=
  { cm := 1, kb := 1, e := 1, A := 1 }

/-- Example for the damping routines: a process with one semiconductor node at offset 0;
previous iterate, step and candidate are all zero. -/
def zero_step_process : ProcessArgs ℚ :=
  { system := [{ type := SemiconductorRegion,
                 on_processor_nodes :=
                   [{ local_offset := 0,
                      node_data := { n := 1, p := 1, n_last := 1, p_last := 1 } }] }],
    xx := fun _ => 0,
    yy := fun _ => 0,
    ww := fun _ => 0 }

/-- The run with `zero_step_process` as its only process. -/
def damping_zero_step : List (ProcessArgs ℚ) := [zero_step_process]

/-- Example for the damping routines: a process with a semiconductor node at offset 0
(slots 0, 1, 2) and an insulator node at offset 3.  The potential step is 1 at the
semiconductor node and 5 at the insulator node; the candidate is `previous - step`, with
densities 7 above the floor. -/
def two_regions_process : ProcessArgs ℚ :=
  { system := [{ type := SemiconductorRegion,
                 on_processor_nodes :=
                   [{ local_offset := 0,
                      node_data := { n := 1, p := 1, n_last := 1, p_last := 1 } }] },
               { type := InsulatorRegion,
                 on_processor_nodes :=
                   [{ local_offset := 3,
                      node_data := { n := 0, p := 0, n_last := 0, p_last := 0 } }] }],
    xx := fun s => if s = 1 ∨ s = 2 then 7 else 0,
    yy := fun s => if s = 0 then 1 else if s = 3 then 5 else 0,
    ww := fun s => (if s = 1 ∨ s = 2 then 7 else 0) - (if s = 0 then 1 else if s = 3 then 5 else 0) }

/-- The run with `two_regions_process` as its only process. -/
def damping_two_regions : List (ProcessArgs ℚ) := [two_regions_process]

/-- Example settings for `LTE_norm`: first order, `dt = dt_last = dt_last_last = 1`,
`TS_rtol = 1`, `TS_atol = 3`. -/
def lte_settings : SolverSpecify ℚ :=
  { dt := 1, dt_last := 1, dt_last_last := 1, TS_rtol := 1, TS_atol := 3,
    TS_type := TemporalScheme.BDF1, BDF2_LowerOrder := false }

/-- Example for `LTE_norm`: a process without semiconductor region (an insulator node at
offset 0 and an empty vacuum region). -/
def insulator_process : Mix1Process ℚ :=
  { system := [{ type := InsulatorRegion,
                 on_processor_nodes :=
                   [{ local_offset := 0,
                      node_data := { n := 0, p := 0, n_last := 0, p_last := 0 } }] },
               { type := VacuumRegion, on_processor_nodes := [] }],
    n_local := 1,
    x := fun _ => 2,
    x_n := fun _ => 1,
    x_n1 := fun _ => 1,
    x_n2 := fun _ => 1 }

/-- Example for `LTE_norm`: a process with a semiconductor node at offset 0 and an insulator
node at offset 3; the accepted solution is -1 in the electron slot 1 and 1 elsewhere, the
history vectors are zero. -/
def negative_density_process : Mix1Process ℚ :=
  { system := [{ type := SemiconductorRegion,
                 on_processor_nodes :=
                   [{ local_offset := 0,
                      node_data := { n := 1, p := 1, n_last := 1, p_last := 1 } }] },
               { type := InsulatorRegion,
                 on_processor_nodes :=
                   [{ local_offset := 3,
                      node_data := { n := 0, p := 0, n_last := 0, p_last := 0 } }] }],
    n_local := 4,
    x := fun s => if s = 1 then -1 else 1,
    x_n := fun _ => 0,
    x_n1 := fun _ => 0,
    x_n2 := fun _ => 0 }

/-! ## `Mix1Solver::error_norm` -/

/-- The solver members read and written by `error_norm`, as one process holds them: its view
of `_system`, the local solution array of `lx`, the residual `f` and the scaling vector `L`.
The scatter of `f` to `lf` is the identity on the slots of on-processor nodes. -/
structure ErrorNormProcess (α : Type) where
  system : SimulationSystem α
  lx : LocalArray α
  f : LocalArray α
  L : LocalArray α

/-- The PETSc call `VecPointwiseDivide(w, x, y)`: `w[i] = x[i] / y[i]`. -/
def VecPointwiseDivide (x y : LocalArray α) : LocalArray α :=
  fun i => x i / y i

/-- The PETSc call `VecPointwiseMult(w, x, y)`: `w[i] = x[i] * y[i]`. -/
def VecPointwiseMult (x y : LocalArray α) : LocalArray α :=
  fun i => x i * y i

/-- The six members that `error_norm` accumulates in its node loop (and then pushes to
`norm_buffer`). -/
structure NormBuffer (α : Type) where
  potential_norm : α
  electron_norm : α
  hole_norm : α
  poisson_norm : α
  elec_continuity_norm : α
  hole_continuity_norm : α

/-- Body of the node loop of `error_norm`: the `switch` on the type of the region of the
node; `default: genius_error()` is the error. -/
def error_norm_node (xx ff : LocalArray α) (ty : SimulationRegionType) (acc : NormBuffer α)
    (fvm_node : FVM_Node α) : Except Unit (NormBuffer α) :=
  let offset := fvm_node.local_offset
  match ty with
  | SemiconductorRegion =>
    Except.ok
      { potential_norm := acc.potential_norm + xx (offset + 0) * xx (offset + 0),
        electron_norm := acc.electron_norm + xx (offset + 1) * xx (offset + 1),
        hole_norm := acc.hole_norm + xx (offset + 2) * xx (offset + 2),
        poisson_norm := acc.poisson_norm + ff (offset + 0) * ff (offset + 0),
        elec_continuity_norm := acc.elec_continuity_norm + ff (offset + 1) * ff (offset + 1),
        hole_continuity_norm := acc.hole_continuity_norm + ff (offset + 2) * ff (offset + 2) }
  | InsulatorRegion =>
    Except.ok
      { acc with
        potential_norm := acc.potential_norm + xx offset * xx offset,
        poisson_norm := acc.poisson_norm + ff offset * ff offset }
  | ElectrodeRegion =>
    Except.ok
      { acc with
        potential_norm := acc.potential_norm + xx offset * xx offset,
        poisson_norm := acc.poisson_norm + ff offset * ff offset }
  | MetalRegion =>
    Except.ok
      { acc with
        potential_norm := acc.potential_norm + xx offset * xx offset,
        poisson_norm := acc.poisson_norm + ff offset * ff offset }
  | VacuumRegion => Except.ok acc
  | OtherRegion _ => Except.error ()

/-- The node loop of `error_norm` over the on-processor nodes of one region. -/
def error_norm_nodes (xx ff : LocalArray α) (ty : SimulationRegionType) :
    List (FVM_Node α) → NormBuffer α → Except Unit (NormBuffer α)
  | [], acc => Except.ok acc
  | fvm_node :: rest, acc =>
    match error_norm_node xx ff ty acc fvm_node with
    | Except.ok acc1 => error_norm_nodes xx ff ty rest acc1
    | Except.error err => Except.error err

/-- The region loop of `error_norm`. -/
def error_norm_regions (xx ff : LocalArray α) :
    List (SimulationRegion α) → NormBuffer α → Except Unit (NormBuffer α)
  | [], acc => Except.ok acc
  | region :: rest, acc =>
    match error_norm_nodes xx ff region.type region.on_processor_nodes acc with
    | Except.ok acc1 => error_norm_regions xx ff rest acc1
    | Except.error err => Except.error err

/-- The local partial sums of one process: `f` is divided by `L`, the loops run on `lx` and on
the unscaled residual, starting from the cleared members. -/
def error_norm_local (p : ErrorNormProcess α) : Except Unit (NormBuffer α) :=
  error_norm_regions p.lx (VecPointwiseDivide p.f p.L) p.system
    { potential_norm := 0, electron_norm := 0, hole_norm := 0,
      poisson_norm := 0, elec_continuity_norm := 0, hole_continuity_norm := 0 }

/-- The reduction `Parallel::sum` on a `PetscScalar`: one summand per process. -/
def Parallel_sum_scalar (xs : List α) : α :=
  xs.sum

/-- The norm members of the solver after `error_norm`. -/
structure SolverNorms (α : Type) where
  potential_norm : α
  electron_norm : α
  hole_norm : α
  temperature_norm : α
  elec_temperature_norm : α
  hole_temperature_norm : α
  poisson_norm : α
  elec_continuity_norm : α
  hole_continuity_norm : α
  heat_equation_norm : α
  elec_energy_equation_norm : α
  hole_energy_equation_norm : α
  electrode_norm : α
  spice_norm : α

/-- What `error_norm` leaves behind: the residual `f` of every process (divided by `L` and
multiplied by `L` again) and the norm members. -/
structure ErrorNormOutcome (α : Type) where
  f : List (LocalArray α)
  norms : SolverNorms α

/-- `Mix1Solver::error_norm`.  `ckt_residual_norm2` is the value `_circuit->ckt_residual_norm2()`
of the last processor, which is broadcast. -/
def error_norm (sqrt : α → α) (u : PhysicalUnit α) (ckt_residual_norm2 : α)
    (procs : List (ErrorNormProcess α)) : Except Unit (ErrorNormOutcome α) :=
  match all_processes (procs.map error_norm_local) with
  | Except.error err => Except.error err
  | Except.ok locals =>
    Except.ok
      { f := procs.map (fun p => VecPointwiseMult (VecPointwiseDivide p.f p.L) p.L),
        norms :=
          { potential_norm := sqrt (Parallel_sum_scalar (locals.map (fun b => b.potential_norm))),
            electron_norm := sqrt (Parallel_sum_scalar (locals.map (fun b => b.electron_norm))),
            hole_norm := sqrt (Parallel_sum_scalar (locals.map (fun b => b.hole_norm))),
            temperature_norm := 0,
            elec_temperature_norm := 0,
            hole_temperature_norm := 0,
            poisson_norm := sqrt (Parallel_sum_scalar (locals.map (fun b => b.poisson_norm))),
            elec_continuity_norm :=
              sqrt (Parallel_sum_scalar (locals.map (fun b => b.elec_continuity_norm))),
            hole_continuity_norm :=
              sqrt (Parallel_sum_scalar (locals.map (fun b => b.hole_continuity_norm))),
            heat_equation_norm := 0,
            elec_energy_equation_norm := 0,
            hole_energy_equation_norm := 0,
            electrode_norm := 0,
            spice_norm := ckt_residual_norm2 * u.A } }

/-- The region types whose nodes enter `potential_norm` and `poisson_norm` by the statement of
the norms: semiconductor, insulator, electrode and metal. -/
def is_non_vacuum : SimulationRegionType → Bool
  | SemiconductorRegion => true
  | InsulatorRegion => true
  | ElectrodeRegion => true
  | MetalRegion => true
  | _ => false

/-- The region type whose nodes enter the carrier norms: semiconductor. -/
def is_semiconductor : SimulationRegionType → Bool
  | SemiconductorRegion => true
  | _ => false

/-- Sum of `v[offset+k]^2` over the on-processor nodes of the regions of a process whose type
is selected by `sel`. -/
def node_square_sum (sel : SimulationRegionType → Bool) (v : LocalArray α) (k : Nat)
    (sys : SimulationSystem α) : α :=
  (sys.map (fun region =>
    if sel region.type then
      (region.on_processor_nodes.map (fun nd => v (nd.local_offset + k) ^ 2)).sum
    else 0)).sum

/-- The sum `node_square_sum` of the solution `lx` over all processes. -/
def global_solution_sum (sel : SimulationRegionType → Bool) (k : Nat)
    (procs : List (ErrorNormProcess α)) : α :=
  (procs.map (fun p => node_square_sum sel p.lx k p.system)).sum

/-- The sum `node_square_sum` of the unscaled residual `u = f / L` over all processes. -/
def global_residual_sum (sel : SimulationRegionType → Bool) (k : Nat)
    (procs : List (ErrorNormProcess α)) : α :=
  (procs.map (fun p => node_square_sum sel (fun i => p.f i / p.L i) k p.system)).sum


/-- Example for `error_norm` over any field: a process with a semiconductor node at offset 0,
an insulator node at offset 3 and a vacuum node at offset 4; solution 1, residual 2 and
scaling 2 in every slot. -/
def norm_process (β : Type) [LinearOrderedField β] : ErrorNormProcess β :=
  { system := [{ type := SemiconductorRegion,
                 on_processor_nodes :=
                   [{ local_offset := 0,
                      node_data := { n := 1, p := 1, n_last := 1, p_last := 1 } }] },
               { type := InsulatorRegion,
                 on_processor_nodes :=
                   [{ local_offset := 3,
                      node_data := { n := 0, p := 0, n_last := 0, p_last := 0 } }] },
               { type := VacuumRegion,
                 on_processor_nodes :=
                   [{ local_offset := 4,
                      node_data := { n := 0, p := 0, n_last := 0, p_last := 0 } }] }],
    lx := fun _ => 1,
    f := fun _ => 2,
    L := fun _ => 2 }

/-- The constants of `PhysicalUnit` all equal to 1, over any field. -/
def unit_ones (β : Type) [LinearOrderedField β] : PhysicalUnit β :=
  { cm := 1, kb := 1, e := 1, A := 1 }


/-! ## Calls to collaborators: fill, residual and Jacobian assembly -/

/-- The calls that the routines of `Mix1Solver` make to regions (by index `n`), boundary
conditions (by index `b`), the circuit, the base class and the row utilities of `PetscUtils`.
The bodies of these collaborators are not part of the sources at hand. -/
inductive CollaboratorCall where
  | region_DDM1_Fill_Value (n : Nat)
  | bc_DDM1_Fill_Value (b : Nat)
  | bc_Mix_DDM1_Fill_Value (b : Nat)
  | bc_DDM1_Pre_Process (b : Nat)
  | MixSolverBase_pre_solve_process
  | circuit_restore_solution
  | region_DDM1_Function (n : Nat)
  | region_DDM1_Time_Dependent_Function (n : Nat)
  | region_DDM1_Function_Hanging_Node (n : Nat)
  | build_spice_function
  | bc_Mix_DDM1_Function_Preprocess (b : Nat)
  | bc_DDM1_Function_Preprocess (b : Nat)
  | VecAddClearRow
  | bc_Mix_DDM1_Function (b : Nat)
  | bc_DDM1_Function (b : Nat)
  | region_DDM1_Jacobian (n : Nat)
  | region_DDM1_Time_Dependent_Jacobian (n : Nat)
  | region_DDM1_Jacobian_Hanging_Node (n : Nat)
  | build_spice_jacobian
  | bc_Mix_DDM1_Jacobian_Reserve (b : Nat)
  | bc_DDM1_Jacobian_Reserve (b : Nat)
  | MatSetOption_IGNORE_ZERO_ENTRIES
  | bc_Mix_DDM1_Jacobian_Preprocess (b : Nat)
  | bc_DDM1_Jacobian_Preprocess (b : Nat)
  | MatAddRowToRow
  | bc_Mix_DDM1_Jacobian (b : Nat)
  | bc_DDM1_Jacobian (b : Nat)
  deriving DecidableEq, Repr

open CollaboratorCall

/-- The predicates of a `BoundaryCondition` that the solver tests. -/
structure BoundaryCondition where
  is_electrode : Bool
  is_inter_connect_bc : Bool
  is_spice_electrode : Bool

/-- The object `_system.get_bcs()`: `n_bcs()` and `get_bc(b)`. -/
structure BoundaryConditionCollector where
  n_bcs : Nat
  get_bc : Nat → BoundaryCondition

/-- What the fill and assembly loops read from `_system`: `n_regions()` and `get_bcs()`. -/
structure SystemShape where
  n_regions : Nat
  get_bcs : BoundaryConditionCollector

/-- Data handed to collaborators together with the list of the calls made so far. -/
structure Traced (σ : Type) where
  data : σ
  calls : List CollaboratorCall

/-- One call to a collaborator: its effect on the data is the parameter `effect`; the call is
appended to the list of calls. -/
def invoke {σ : Type} (effect : CollaboratorCall → σ → σ) (c : CollaboratorCall)
    (st : Traced σ) : Traced σ :=
  { data := effect c st.data, calls := st.calls ++ [c] }

/-- The vectors that the fill-value hooks write: the solution `x` and the scaling `L`. -/
structure FillData (α : Type) where
  x : LocalArray α
  L : LocalArray α

/-- `Mix1Solver::diverged_recovery` on one process: the filled vectors, the calls made, and the
returned value. -/
def diverged_recovery (effect : CollaboratorCall → FillData α → FillData α)
    (sys : SystemShape) (is_last_processor : Bool) (xL : FillData α) :
    Traced (FillData α) × Int :=
  let st0 : Traced (FillData α) := { data := xL, calls := [] }
  let st1 := (List.range sys.n_regions).foldl
    (fun st n => invoke effect (region_DDM1_Fill_Value n) st) st0
  let st2 := if is_last_processor then invoke effect circuit_restore_solution st1 else st1
  (st2, 0)

/-- `Mix1Solver::pre_solve_process` on one process, up to the value returned by
`MixSolverBase::pre_solve_process`. -/
def pre_solve_process (effect : CollaboratorCall → FillData α → FillData α)
    (sys : SystemShape) (load_solution : Bool) (xL : FillData α) : Traced (FillData α) :=
  let st0 : Traced (FillData α) := { data := xL, calls := [] }
  let st1 :=
    if load_solution then
      let sta := (List.range sys.n_regions).foldl
        (fun st n => invoke effect (region_DDM1_Fill_Value n) st) st0
      (List.range sys.get_bcs.n_bcs).foldl
        (fun st b =>
          let bc := sys.get_bcs.get_bc b
          if bc.is_electrode && !bc.is_inter_connect_bc then
            invoke effect (bc_Mix_DDM1_Fill_Value b) st
          else invoke effect (bc_DDM1_Fill_Value b) st) sta
    else st0
  let st2 := (List.range sys.get_bcs.n_bcs).foldl
    (fun st b => invoke effect (bc_DDM1_Pre_Process b) st) st1
  invoke effect MixSolverBase_pre_solve_process st2

/-- The PETSc type `InsertMode`. -/
inductive InsertMode where
  | NOT_SET_VALUES
  | INSERT_VALUES
  | ADD_VALUES
  deriving DecidableEq, Repr

/-- The data of a residual assembly: the vector `r`, the row lists and `add_value_flag`. -/
structure ResidualData (α : Type) where
  r : LocalArray α
  src_row : List Nat
  dst_row : List Nat
  clear_row : List Nat
  add_value_flag : InsertMode

/-- `Mix1Solver::build_petsc_sens_residual` before its last statement: the residual as
assembled from the collaborators, not yet scaled.  `lxx` is the local array of `x`. -/
def assemble_residual
    (effect : LocalArray α → CollaboratorCall → ResidualData α → ResidualData α)
    (TimeDependent : Bool) (sys : SystemShape) (lxx : LocalArray α) :
    Traced (ResidualData α) :=
  let st0 : Traced (ResidualData α) :=
    { data := { r := VecZeroEntries, src_row := [], dst_row := [], clear_row := [],
                add_value_flag := InsertMode.NOT_SET_VALUES },
      calls := [] }
  let st1 := (List.range sys.n_regions).foldl
    (fun st n => invoke (effect lxx) (region_DDM1_Function n) st) st0
  let st2 :=
    if TimeDependent = true then
      (List.range sys.n_regions).foldl
        (fun st n => invoke (effect lxx) (region_DDM1_Time_Dependent_Function n) st) st1
    else st1
  let st3 := (List.range sys.n_regions).foldl
    (fun st n => invoke (effect lxx) (region_DDM1_Function_Hanging_Node n) st) st2
  let st4 := invoke (effect lxx) build_spice_function st3
  let st5 : Traced (ResidualData α) :=
    { st4 with data := { st4.data with src_row := [], dst_row := [], clear_row := [] } }
  let st6 := (List.range sys.get_bcs.n_bcs).foldl
    (fun st b =>
      let bc := sys.get_bcs.get_bc b
      if bc.is_spice_electrode then invoke (effect lxx) (bc_Mix_DDM1_Function_Preprocess b) st
      else invoke (effect lxx) (bc_DDM1_Function_Preprocess b) st) st5
  let st7 := invoke (effect lxx) VecAddClearRow st6
  let st8 : Traced (ResidualData α) :=
    { st7 with data := { st7.data with add_value_flag := InsertMode.NOT_SET_VALUES } }
  (List.range sys.get_bcs.n_bcs).foldl
    (fun st b =>
      let bc := sys.get_bcs.get_bc b
      if bc.is_spice_electrode then invoke (effect lxx) (bc_Mix_DDM1_Function b) st
      else invoke (effect lxx) (bc_DDM1_Function b) st) st8

/-- `Mix1Solver::build_petsc_sens_residual`: the assembly, then
`VecPointwiseMult(r, r, L)`. -/
def build_petsc_sens_residual
    (effect : LocalArray α → CollaboratorCall → ResidualData α → ResidualData α)
    (TimeDependent : Bool) (sys : SystemShape) (L : LocalArray α) (x : LocalArray α) :
    Traced (ResidualData α) :=
  let st := assemble_residual effect TimeDependent sys x
  { st with data := { st.data with r := VecPointwiseMult st.data.r L } }

/-- A matrix as a function of row and column. -/
abbrev Mat (α : Type) := Nat → Nat → α

/-- The PETSc call `MatZeroEntries`. -/
def MatZeroEntries : Mat α := fun _ _ => 0

/-- The PETSc call `MatZeroRows(J, rows, diag)`: the listed rows become zero, with `diag` on
the diagonal. -/
def MatZeroRows (J : Mat α) (rows : List Nat) (diag : α) : Mat α :=
  fun i j => if i ∈ rows then (if i = j then diag else 0) else J i j

/-- The PETSc call `MatDiagonalScale(J, l, r)`: `J = diag(l) * J * diag(r)`, where a null
vector means no scaling on that side. -/
def MatDiagonalScale (J : Mat α) (l r : Option (LocalArray α)) : Mat α :=
  fun i j =>
    (match l with | some lv => lv i | none => 1) * J i j *
      (match r with | some rv => rv j | none => 1)

/-- The data of a Jacobian assembly: the matrix `J`, the row lists and `add_value_flag`. -/
structure JacobianData (α : Type) where
  J : Mat α
  src_row : List Nat
  dst_row : List Nat
  clear_row : List Nat
  add_value_flag : InsertMode

/-- `Mix1Solver::build_petsc_sens_jacobian` before the scaling: the matrix as assembled from
the collaborators.  `first_assemble` is the member `jacobian_matrix_first_assemble` on
entry. -/
def assemble_jacobian
    (effect : LocalArray α → CollaboratorCall → JacobianData α → JacobianData α)
    (TimeDependent : Bool) (sys : SystemShape) (first_assemble : Bool) (lxx : LocalArray α) :
    Traced (JacobianData α) :=
  let st0 : Traced (JacobianData α) :=
    { data := { J := MatZeroEntries, src_row := [], dst_row := [], clear_row := [],
                add_value_flag := InsertMode.NOT_SET_VALUES },
      calls := [] }
  let st1 := (List.range sys.n_regions).foldl
    (fun st n => invoke (effect lxx) (region_DDM1_Jacobian n) st) st0
  let st2 :=
    if TimeDependent = true then
      (List.range sys.n_regions).foldl
        (fun st n => invoke (effect lxx) (region_DDM1_Time_Dependent_Jacobian n) st) st1
    else st1
  let st3 := (List.range sys.n_regions).foldl
    (fun st n => invoke (effect lxx) (region_DDM1_Jacobian_Hanging_Node n) st) st2
  let st4 := invoke (effect lxx) build_spice_jacobian st3
  let st5 :=
    if !first_assemble then
      (List.range sys.get_bcs.n_bcs).foldl
        (fun st b =>
          let bc := sys.get_bcs.get_bc b
          if bc.is_spice_electrode then invoke (effect lxx) (bc_Mix_DDM1_Jacobian_Reserve b) st
          else invoke (effect lxx) (bc_DDM1_Jacobian_Reserve b) st) st4
    else st4
  let st6 :=
    if !first_assemble then invoke (effect lxx) MatSetOption_IGNORE_ZERO_ENTRIES st5 else st5
  let st7 : Traced (JacobianData α) :=
    { st6 with data := { st6.data with src_row := [], dst_row := [], clear_row := [] } }
  let st8 := (List.range sys.get_bcs.n_bcs).foldl
    (fun st b =>
      let bc := sys.get_bcs.get_bc b
      if bc.is_spice_electrode then invoke (effect lxx) (bc_Mix_DDM1_Jacobian_Preprocess b) st
      else invoke (effect lxx) (bc_DDM1_Jacobian_Preprocess b) st) st7
  let st9 := invoke (effect lxx) MatAddRowToRow st8
  let st10 : Traced (JacobianData α) :=
    { st9 with data := { st9.data with
        J := MatZeroRows st9.data.J st9.data.clear_row 0,
        add_value_flag := InsertMode.NOT_SET_VALUES } }
  (List.range sys.get_bcs.n_bcs).foldl
    (fun st b =>
      let bc := sys.get_bcs.get_bc b
      if bc.is_spice_electrode then invoke (effect lxx) (bc_Mix_DDM1_Jacobian b) st
      else invoke (effect lxx) (bc_DDM1_Jacobian b) st) st10

/-- What `build_petsc_sens_jacobian` leaves behind: the matrix `J`, the member
`jacobian_matrix_first_assemble`, and the calls made. -/
structure JacobianOutcome (α : Type) where
  J : Mat α
  jacobian_matrix_first_assemble : Bool
  calls : List CollaboratorCall

/-- `Mix1Solver::build_petsc_sens_jacobian`: the assembly, then
`MatDiagonalScale(J, L, PETSC_NULL)`, then the first-assembly flag is set. -/
def build_petsc_sens_jacobian
    (effect : LocalArray α → CollaboratorCall → JacobianData α → JacobianData α)
    (TimeDependent : Bool) (sys : SystemShape) (L : LocalArray α) (first_assemble : Bool)
    (x : LocalArray α) : JacobianOutcome α :=
  let st := assemble_jacobian effect TimeDependent sys first_assemble x
  { J := MatDiagonalScale st.data.J (some L) none,
    jacobian_matrix_first_assemble := if !first_assemble then true else first_assemble,
    calls := st.calls }

/-- The calls to the Jacobian-reserve hooks of the boundaries. -/
def is_reserve_call : CollaboratorCall → Bool
  | bc_Mix_DDM1_Jacobian_Reserve _ => true
  | bc_DDM1_Jacobian_Reserve _ => true
  | _ => false

/-- The reserve hook of boundary `b`: the `Mix_` variant for a spice electrode. -/
def reserve_call (bcs : BoundaryConditionCollector) (b : Nat) : CollaboratorCall :=
  if (bcs.get_bc b).is_spice_electrode then bc_Mix_DDM1_Jacobian_Reserve b
  else bc_DDM1_Jacobian_Reserve b

/-- A sequence of Jacobian assemblies at the iterates `xs`, the flag of each one being the
flag the previous one left. -/
def jacobian_assemblies
    (effect : LocalArray α → CollaboratorCall → JacobianData α → JacobianData α)
    (TimeDependent : Bool) (sys : SystemShape) (L : LocalArray α) :
    Bool → List (LocalArray α) → List (JacobianOutcome α)
  | _, [] => []
  | first_assemble, x :: xs =>
    let out := build_petsc_sens_jacobian effect TimeDependent sys L first_assemble x
    out :: jacobian_assemblies effect TimeDependent sys L out.jacobian_matrix_first_assemble xs


/-- Example of region hooks for the residual: `DDM1_Function` of a region adds `x[i]^2` to
every entry `r[i]`; all other collaborators leave the data alone. -/
def quadratic_function (β : Type) [LinearOrderedField β] (lxx : LocalArray β)
    (c : CollaboratorCall) (d : ResidualData β) : ResidualData β :=
  match c with
  | region_DDM1_Function _ => { d with r := fun i => d.r i + lxx i * lxx i }
  | _ => d

/-- Example of region hooks for the Jacobian, the derivative of `quadratic_function`:
`DDM1_Jacobian` of a region adds `2*x[i]` to every diagonal entry `J[i][i]`. -/
def quadratic_jacobian (β : Type) [LinearOrderedField β] (lxx : LocalArray β)
    (c : CollaboratorCall) (d : JacobianData β) : JacobianData β :=
  match c with
  | region_DDM1_Jacobian _ => { d with J := fun i j => d.J i j + if i = j then 2 * lxx i else 0 }
  | _ => d

/-- Example system shape: one region, no boundary condition. -/
def one_region_shape : SystemShape :=
  { n_regions := 1,
    get_bcs := { n_bcs := 0,
                 get_bc := fun _ => { is_electrode := false, is_inter_connect_bc := false,
                                      is_spice_electrode := false } } }

/-- Example system shape: one region and two boundary conditions, the first a spice electrode,
the second not an electrode. -/
def two_boundaries_shape : SystemShape :=
  { n_regions := 1,
    get_bcs := { n_bcs := 2,
                 get_bc := fun b => { is_electrode := decide (b = 0),
                                      is_inter_connect_bc := false,
                                      is_spice_electrode := decide (b = 0) } } }


/-- Example for `LTE_norm`: a process whose only region has an unknown type and no
on-processor node. -/
def unknown_region_process : Mix1Process ℚ :=
  { system := [{ type := OtherRegion 7, on_processor_nodes := [] }],
    n_local := 0,
    x := fun _ => 0,
    x_n := fun _ => 0,
    x_n1 := fun _ => 0,
    x_n2 := fun _ => 0 }

/-- Example for `error_norm`: a process whose only region has an unknown type and no
on-processor node. -/
def unknown_empty_process : ErrorNormProcess ℚ :=
  { system := [{ type := OtherRegion 7, on_processor_nodes := [] }],
    lx := fun _ => 0,
    f := fun _ => 0,
    L := fun _ => 1 }

/-- Example for `error_norm`: a process whose only region has an unknown type and one
on-processor node. -/
def unknown_node_process : ErrorNormProcess ℚ :=
  { system := [{ type := OtherRegion 7,
                 on_processor_nodes :=
                   [{ local_offset := 0,
                      node_data := { n := 0, p := 0, n_last := 0, p_last := 0 } }] }],
    lx := fun _ => 0,
    f := fun _ => 0,
    L := fun _ => 1 }


/-- Example for `positive_density_damping`: a process with one semiconductor node at offset 0
whose potential step is 5; previous iterate 0, candidate `previous - step`, with candidate
densities -3 below the floor. -/
def large_step_process : ProcessArgs ℚ :=
  { system := [{ type := SemiconductorRegion,
                 on_processor_nodes :=
                   [{ local_offset := 0,
                      node_data := { n := 1, p := 1, n_last := 1, p_last := 1 } }] }],
    xx := fun _ => 0,
    yy := fun s => if s = 0 then 5 else 3,
    ww := fun s => 0 - (if s = 0 then 5 else 3) }

/-- The run with `large_step_process` as its only process. -/
def damping_large_step : List (ProcessArgs ℚ) := [large_step_process]


/-- The operations of `Mix1Solver` that `mix1.cc` defines.  A Jacobian assembly carries the
iterate `x` at which it is made. -/
inductive Mix1Operation (α : Type) where
  | create_solver
  | pre_solve_process
  | solve
  | post_solve_process
  | flush_system
  | diverged_recovery
  | potential_damping
  | bank_rose_damping
  | positive_density_damping
  | projection_positive_density_check
  | BDF2_positive_defined
  | LTE_norm
  | error_norm
  | build_petsc_sens_residual
  | build_petsc_sens_jacobian (x : LocalArray α)

/-- The member `jacobian_matrix_first_assemble` together with the calls to the reserve hooks
of the boundaries made so far. -/
structure AssemblyFlagState where
  jacobian_matrix_first_assemble : Bool
  reserve_calls : List CollaboratorCall

/-- Modelled from the spec: the bodies of `MixSolverBase::create_solver`,
`MixSolverBase::pre_solve_process`, `MixSolverBase::post_solve_process` and of the solve
routines that `solve` dispatches to are not part of the sources at hand; by the spec the
first-assembly flag "flips permanently true", so they are taken to leave it alone.  In `mix1.cc`
itself the only assignment to `jacobian_matrix_first_assemble` is the one at the end of
`build_petsc_sens_jacobian`, and only that routine calls the reserve hooks; every other
operation leaves both as they are. -/
def Mix1Solver_step
    (effect : LocalArray α → CollaboratorCall → JacobianData α → JacobianData α)
    (TimeDependent : Bool) (sys : SystemShape) (L : LocalArray α)
    (st : AssemblyFlagState) : Mix1Operation α → AssemblyFlagState
  | Mix1Operation.build_petsc_sens_jacobian x =>
    let out := build_petsc_sens_jacobian effect TimeDependent sys L
      st.jacobian_matrix_first_assemble x
    { jacobian_matrix_first_assemble := out.jacobian_matrix_first_assemble,
      reserve_calls := st.reserve_calls ++ out.calls.filter is_reserve_call }
  | _ => st


/-! ## The predictor coefficients of `LTE_norm` -/

/-- The local `cn` of `LTE_norm` (second order, weight of `x_n`). -/
def cn (hn hn1 hn2 : α) : α :=
  1 + hn * (hn + 2 * hn1 + hn2) / (hn1 * (hn1 + hn2))

/-- The local `cn1` of `LTE_norm` (second order, weight of `x_n1`). -/
def cn1 (hn hn1 hn2 : α) : α :=
  -hn * (hn + hn1 + hn2) / (hn1 * hn2)

/-- The local `cn2` of `LTE_norm` (second order, weight of `x_n2`). -/
def cn2 (hn hn1 hn2 : α) : α :=
  hn * (hn + hn1) / (hn2 * (hn1 + hn2))

/-- The Lagrange weight at the evaluation time `tau` of the node `T0` among the three nodes
`T0`, `T1`, `T2`. -/
def lagrange_weight (tau T0 T1 T2 : α) : α :=
  (tau - T1) * (tau - T2) / ((T0 - T1) * (T0 - T2))

/-- Example settings for `LTE_norm`: second order at full order, all step sizes 1. -/
def bdf2_settings : SolverSpecify ℚ :=
  { dt := 1, dt_last := 1, dt_last_last := 1, TS_rtol := 1, TS_atol := 3,
    TS_type := TemporalScheme.BDF2, BDF2_LowerOrder := false }


/-! ## `FVM_PML_NodeData` (`include/solution/fvm_node_data_pml.h`) -/

/-- The enum `FVM_PML_NodeData::PMLData`. -/
inductive PMLData where
  | _psi_
  | _density_
  | _affinity_
  | _eps_
  | _mu_
  | _psi_last_
  | ScalarDataCount
  deriving DecidableEq, Repr

/-- The integer value of an enumerator of `PMLData` (no initialiser: counted from 0). -/
def PMLData.value : PMLData → Nat
  | PMLData._psi_ => 0
  | PMLData._density_ => 1
  | PMLData._affinity_ => 2
  | PMLData._eps_ => 3
  | PMLData._mu_ => 4
  | PMLData._psi_last_ => 5
  | PMLData.ScalarDataCount => 6

/-- The enum `FVM_PML_NodeData::PMLAuxComplexData`. -/
inductive PMLAuxComplexData where
  | _OpE_complex_
  | _OpH_complex_
  | ComplexDataCount
  deriving DecidableEq, Repr

/-- The integer value of an enumerator of `PMLAuxComplexData` (`_OpE_complex_ = 0`, then
counted on). -/
def PMLAuxComplexData.value : PMLAuxComplexData → Nat
  | PMLAuxComplexData._OpE_complex_ => 0
  | PMLAuxComplexData._OpH_complex_ => 1
  | PMLAuxComplexData.ComplexDataCount => 2

/-- Modelled from the spec: the class `DataStorage` is not part of the sources at hand, and the
spec is silent on it.  Its accessors `scalar(v, offset)` and `complex(v, offset)` return a
reference to the cell of the variable with index `v` at the node offset `offset`; the model is
one table per kind of data, in which different pairs `(v, offset)` are different cells.  `κ` is
the type of a scalar cell, `ζ` the type of a complex cell. -/
structure DataStorage (κ ζ : Type) where
  scalar_data : Nat → Nat → κ
  complex_data : Nat → Nat → ζ

/-- Reading the reference `_data_storage->complex(v, offset)`. -/
def DataStorage.complex {κ ζ : Type} (ds : DataStorage κ ζ) (v offset : Nat) : ζ :=
  ds.complex_data v offset

/-- Assigning `z` through the reference `_data_storage->complex(v, offset)`. -/
def DataStorage.complex_assign {κ ζ : Type} (ds : DataStorage κ ζ) (v offset : Nat) (z : ζ) :
    DataStorage κ ζ :=
  { scalar_data := ds.scalar_data,
    complex_data :=
      Function.update ds.complex_data v (Function.update (ds.complex_data v) offset z) }

/-- The members `_data_storage` and `_offset` of a node data object. -/
structure FVM_PML_NodeData (κ ζ : Type) where
  _data_storage : DataStorage κ ζ
  _offset : Nat

/-- The const accessor `psi_ac()`: `_data_storage->complex(_psi_, _offset)`. -/
def FVM_PML_NodeData.psi_ac {κ ζ : Type} (nd : FVM_PML_NodeData κ ζ) : ζ :=
  nd._data_storage.complex PMLData._psi_.value nd._offset

/-- An assignment through the writable reference `psi_ac()`. -/
def FVM_PML_NodeData.psi_ac_assign {κ ζ : Type} (nd : FVM_PML_NodeData κ ζ) (z : ζ) :
    FVM_PML_NodeData κ ζ :=
  { nd with _data_storage :=
      nd._data_storage.complex_assign PMLData._psi_.value nd._offset z }

/-- The const accessor `OptE_complex()`: `_data_storage->complex(_OpE_complex_, _offset)`. -/
def FVM_PML_NodeData.OptE_complex {κ ζ : Type} (nd : FVM_PML_NodeData κ ζ) : ζ :=
  nd._data_storage.complex PMLAuxComplexData._OpE_complex_.value nd._offset

/-- An assignment through the writable reference `OptE_complex()`. -/
def FVM_PML_NodeData.OptE_complex_assign {κ ζ : Type} (nd : FVM_PML_NodeData κ ζ) (z : ζ) :
    FVM_PML_NodeData κ ζ :=
  { nd with _data_storage :=
      nd._data_storage.complex_assign PMLAuxComplexData._OpE_complex_.value nd._offset z }

/-- The const accessor `OptH_complex()`: `_data_storage->complex(_OpH_complex_, _offset)`. -/
def FVM_PML_NodeData.OptH_complex {κ ζ : Type} (nd : FVM_PML_NodeData κ ζ) : ζ :=
  nd._data_storage.complex PMLAuxComplexData._OpH_complex_.value nd._offset

/-- An assignment through the writable reference `OptH_complex()`. -/
def FVM_PML_NodeData.OptH_complex_assign {κ ζ : Type} (nd : FVM_PML_NodeData κ ζ) (z : ζ) :
    FVM_PML_NodeData κ ζ :=
  { nd with _data_storage :=
      nd._data_storage.complex_assign PMLAuxComplexData._OpH_complex_.value nd._offset z }

/-- The static `n_complex()`: the value of `ComplexDataCount`. -/
def FVM_PML_NodeData.n_complex : Nat :=
  PMLAuxComplexData.ComplexDataCount.value


/-! ## `positive_density_damping` on the three arrays -/

/-- The three local arrays that a damping routine obtains by `VecGetArray` and gives back by
`VecRestoreArray`: previous iterate, step and candidate. -/
structure DampingArrays (α : Type) where
  xx : LocalArray α
  yy : LocalArray α
  ww : LocalArray α

/-- Body of the node loop of `positive_density_damping` with all three arrays in the state
(together with `changed_flag`): it reads `yy`, `xx` and `ww` and assigns to `ww`. -/
def positive_density_node_arrays (floor : α) (st : DampingArrays α × Int)
    (fvm_node : FVM_Node α) : DampingArrays α × Int :=
  let local_offset := fvm_node.local_offset
  let st1 : DampingArrays α × Int := if |st.1.yy local_offset| > 1 then
      ({ xx := st.1.xx, yy := st.1.yy,
         ww := Function.update st.1.ww local_offset
           (st.1.xx local_offset - sign (st.1.yy local_offset) * 1) }, 1)
    else st
  let st2 : DampingArrays α × Int := if st1.1.ww (local_offset + 1) < floor then
      ({ xx := st1.1.xx, yy := st1.1.yy,
         ww := Function.update st1.1.ww (local_offset + 1) floor }, 1)
    else st1
  if st2.1.ww (local_offset + 2) < floor then
    ({ xx := st2.1.xx, yy := st2.1.yy,
       ww := Function.update st2.1.ww (local_offset + 2) floor }, 1)
  else st2

/-- The region loop of `positive_density_damping` on one process with all three arrays in the
state. -/
def positive_density_local_arrays (floor : α) (p : ProcessArgs α) : DampingArrays α × Int :=
  p.system.foldl (fun st region =>
    if region.type ≠ SemiconductorRegion then st
    else region.on_processor_nodes.foldl (positive_density_node_arrays floor) st)
    ({ xx := p.xx, yy := p.yy, ww := p.ww }, 0)

/-- The three arrays of every process after `positive_density_damping`. -/
def positive_density_damping_arrays (u : PhysicalUnit α) (procs : List (ProcessArgs α)) :
    List (DampingArrays α) :=
  procs.map (fun p => (positive_density_local_arrays (onePerCMC u) p).1)


/-- Example settings for `LTE_norm`: second order at full order with uneven step sizes
`dt = 1`, `dt_last = 1`, `dt_last_last = 2`. -/
def uneven_bdf2_settings : SolverSpecify ℚ :=
  { dt := 1, dt_last := 1, dt_last_last := 2, TS_rtol := 1, TS_atol := 3,
    TS_type := TemporalScheme.BDF2, BDF2_LowerOrder := false }

/-- Example for the predictor: the history samples the polynomial `1 + 2*s + 3*s^2` at the
times `2`, `1` and `-1` (values 17, 6 and 2), and the accepted solution is its value 34 at
time `3`. -/
def quadratic_history_process : Mix1Process ℚ :=
  { system := [],
    n_local := 1,
    x := fun _ => 34,
    x_n := fun _ => 17,
    x_n1 := fun _ => 6,
    x_n2 := fun _ => 2 }

/-- Example for the first-order predictor: the history samples the polynomial `1 + 2*s` at
the times `2` and `1` (values 5 and 3), and the accepted solution is its value 7 at time
`3`. -/
def linear_history_process : Mix1Process ℚ :=
  { system := [],
    n_local := 1,
    x := fun _ => 7,
    x_n := fun _ => 5,
    x_n1 := fun _ => 3,
    x_n2 := fun _ => 0 }


/-! ## Theorems -/

/-! ### Generic facts on loops over nodes -/

theorem foldl_semiconductor_regions {σ : Type} (step : σ → FVM_Node α → σ)
    (sys : SimulationSystem α) (init : σ) :
    sys.foldl (fun st region =>
      if region.type ≠ SemiconductorRegion then st
      else region.on_processor_nodes.foldl step st) init
      = (semiconductor_nodes sys).foldl step init := by
  induction sys generalizing init with
  | nil => rfl
  | cons region rest ih =>
    rw [List.foldl_cons, ih]
    unfold semiconductor_nodes
    rw [List.flatMap_cons, List.foldl_append]
    by_cases hty : region.type = SemiconductorRegion
    · simp [hty]
    · simp [hty]

theorem mem_semiconductor_nodes (sys : SimulationSystem α) (nd : FVM_Node α) :
    nd ∈ semiconductor_nodes sys ↔
      ∃ region ∈ sys, region.type = SemiconductorRegion ∧ nd ∈ region.on_processor_nodes := by
  unfold semiconductor_nodes
  rw [List.mem_flatMap]
  constructor
  · rintro ⟨region, hr, hnd⟩
    by_cases hty : region.type = SemiconductorRegion
    · rw [if_pos hty] at hnd
      exact ⟨region, hr, hty, hnd⟩
    · rw [if_neg hty] at hnd
      exact absurd hnd (List.not_mem_nil _)
  · rintro ⟨region, hr, hty, hnd⟩
    exact ⟨region, hr, by rw [if_pos hty]; exact hnd⟩

theorem mem_tagged_nodes (sys : SimulationSystem α) (ty : SimulationRegionType)
    (nd : FVM_Node α) :
    (ty, nd) ∈ tagged_nodes sys ↔
      ∃ region ∈ sys, region.type = ty ∧ nd ∈ region.on_processor_nodes := by
  unfold tagged_nodes
  rw [List.mem_flatMap]
  constructor
  · rintro ⟨region, hr, hnd⟩
    obtain ⟨nd', hnd', heq⟩ := List.mem_map.mp hnd
    cases heq
    exact ⟨region, hr, rfl, hnd'⟩
  · rintro ⟨region, hr, hty, hnd⟩
    exact ⟨region, hr, List.mem_map.mpr ⟨nd, hnd, by rw [hty]⟩⟩

/-- In a list of items with pairwise distinct slots, a slot determines its item. -/
theorem slot_owner_unique {ι : Type} (slots : ι → List Nat) (items : List ι)
    (hnodup : (items.flatMap slots).Nodup) {i j : ι} (hi : i ∈ items) (hj : j ∈ items)
    {s : Nat} (hsi : s ∈ slots i) (hsj : s ∈ slots j) : i = j := by
  by_contra hne
  have hpair := (List.nodup_flatMap.mp hnodup).2
  have hsymm : Symmetric (Function.onFun List.Disjoint slots) := by
    intro a b hab
    exact List.Disjoint.symm hab
  exact (hpair.forall hsymm hi hj hne) hsi hsj

/-- A loop over items that writes only to the slots of the current item leaves every other
slot alone. -/
theorem foldl_frame {ι σ : Type} (get : σ → LocalArray α) (step : σ → ι → σ)
    (slots : ι → List Nat)
    (hframe : ∀ st i s, s ∉ slots i → get (step st i) s = get st s)
    (items : List ι) (st : σ) (s : Nat) (hs : ∀ i ∈ items, s ∉ slots i) :
    get (items.foldl step st) s = get st s := by
  induction items generalizing st with
  | nil => rfl
  | cons i rest ih =>
    rw [List.foldl_cons, ih (step st i) (fun j hj => hs j (List.mem_cons_of_mem _ hj))]
    exact hframe st i s (hs i (List.mem_cons_self _ _))

/-- A loop over items with pairwise distinct slots, whose body reads and writes only the
slots of the current item, leaves in the slots of an item what the body alone computes
from the initial state. -/
theorem foldl_local {ι σ : Type} (get : σ → LocalArray α) (step : σ → ι → σ)
    (slots : ι → List Nat)
    (hframe : ∀ st i s, s ∉ slots i → get (step st i) s = get st s)
    (hlocal : ∀ st st1 i, (∀ t ∈ slots i, get st t = get st1 t) →
      ∀ s ∈ slots i, get (step st i) s = get (step st1 i) s)
    (items : List ι) (hnodup : (items.flatMap slots).Nodup) (st : σ)
    (i : ι) (hi : i ∈ items) (s : Nat) (hs : s ∈ slots i) :
    get (items.foldl step st) s = get (step st i) s := by
  induction items generalizing st with
  | nil => exact absurd hi (List.not_mem_nil _)
  | cons j rest ih =>
    rw [List.flatMap_cons, List.nodup_append] at hnodup
    obtain ⟨_, hrest, hdisj⟩ := hnodup
    rw [List.foldl_cons]
    rcases List.mem_cons.mp hi with heq | hmem
    · subst heq
      apply foldl_frame get step slots hframe
      intro k hk hsk
      exact hdisj hs (List.mem_flatMap.mpr ⟨k, hk, hsk⟩)
    · rw [ih hrest (step st j) hmem]
      refine hlocal _ _ _ ?_ s hs
      intro t ht
      apply hframe
      intro htj
      exact hdisj htj (List.mem_flatMap.mpr ⟨i, hmem, ht⟩)

theorem mem_zip_map_self {β γ : Type} (g : β → γ) (l : List β) (pw : β × γ)
    (h : pw ∈ List.zip l (l.map g)) : pw.1 ∈ l ∧ pw.2 = g pw.1 := by
  induction l with
  | nil => simp at h
  | cons b rest ih =>
    rw [List.map_cons, List.zip_cons_cons, List.mem_cons] at h
    rcases h with heq | hmem
    · subst heq
      exact ⟨List.mem_cons_self _ _, rfl⟩
    · exact ⟨List.mem_cons_of_mem _ (ih hmem).1, (ih hmem).2⟩

/-! ### `BDF2_positive_defined` -/

theorem BDF2_nodes_no_violation (a b : α) (nodes : List (FVM_Node α))
    (h : ∀ nd ∈ nodes, ¬ (a * nd.node_data.n < b * nd.node_data.n_last ∨
      a * nd.node_data.p < b * nd.node_data.p_last)) (c : Nat) :
    nodes.foldl (BDF2_node_step a b) c = c := by
  induction nodes generalizing c with
  | nil => rfl
  | cons nd rest ih =>
    have hnd := h nd (List.mem_cons_self _ _)
    have h1 : ¬ a * nd.node_data.n < b * nd.node_data.n_last := fun hh => hnd (Or.inl hh)
    have h2 : ¬ a * nd.node_data.p < b * nd.node_data.p_last := fun hh => hnd (Or.inr hh)
    have hstep : BDF2_node_step a b c nd = c := by
      simp [BDF2_node_step, h1, h2]
    rw [List.foldl_cons, hstep]
    exact ih (fun nd' hm => h nd' (List.mem_cons_of_mem _ hm)) c

theorem BDF2_local_no_violation (dt dt_last : α) (sys : SimulationSystem α)
    (h : ∀ region ∈ sys, region.type = SemiconductorRegion →
      ∀ nd ∈ region.on_processor_nodes, ¬ BDF2_violates dt dt_last nd) :
    BDF2_local_failure_count dt dt_last sys = 0 := by
  unfold BDF2_local_failure_count
  generalize (0 : Nat) = c
  induction sys generalizing c with
  | nil => rfl
  | cons region rest ih =>
    rw [List.foldl_cons]
    have hrest := ih (fun r hr => h r (List.mem_cons_of_mem _ hr)) c
    by_cases hty : region.type = SemiconductorRegion
    · rw [if_pos hty, BDF2_nodes_no_violation _ _ _ (fun nd hnd => h region (List.mem_cons_self _ _) hty nd hnd) c]
      exact hrest
    · rw [if_neg hty]
      exact hrest

theorem Parallel_sum_uint_zero (xs : List Nat) (h : ∀ x ∈ xs, x = 0) :
    Parallel_sum_uint xs = 0 := by
  unfold Parallel_sum_uint
  induction xs with
  | nil => rfl
  | cons x rest ih =>
    rw [List.foldl_cons, h x (List.mem_cons_self _ _)]
    exact ih (fun y hy => h y (List.mem_cons_of_mem _ hy))

theorem BDF2_node_step_eq (a b : α) (c : Nat) (hc : c < 2 ^ 32) (nd : FVM_Node α) :
    BDF2_node_step a b c nd = (c + BDF2_node_failures a b nd) % 2 ^ 32 := by
  unfold BDF2_node_step BDF2_node_failures
  by_cases h1 : a * nd.node_data.n < b * nd.node_data.n_last <;>
  by_cases h2 : a * nd.node_data.p < b * nd.node_data.p_last <;>
  simp only [h1, h2, if_true, if_false] <;> omega

theorem BDF2_nodes_count (a b : α) (nodes : List (FVM_Node α)) (c : Nat) (hc : c < 2 ^ 32) :
    nodes.foldl (BDF2_node_step a b) c =
      (c + (nodes.map (BDF2_node_failures a b)).sum) % 2 ^ 32 := by
  induction nodes generalizing c with
  | nil => simp only [List.foldl_nil, List.map_nil, List.sum_nil]; omega
  | cons nd rest ih =>
    rw [List.foldl_cons, BDF2_node_step_eq a b c hc nd,
      ih _ (Nat.mod_lt _ (by norm_num)), List.map_cons, List.sum_cons]
    omega

theorem BDF2_local_count (dt dt_last : α) (sys : SimulationSystem α) :
    BDF2_local_failure_count dt dt_last sys =
      ((semiconductor_nodes sys).map (BDF2_node_failures
        (1 / (dt_last / (dt_last + dt) * (1 - dt_last / (dt_last + dt))))
        ((1 - dt_last / (dt_last + dt)) / (dt_last / (dt_last + dt))))).sum % 2 ^ 32 := by
  unfold BDF2_local_failure_count
  dsimp only
  have hswap : ∀ (step : Nat → FVM_Node α → Nat),
      (fun (failure_count : Nat) (region : SimulationRegion α) =>
        if region.type = SemiconductorRegion then
          region.on_processor_nodes.foldl step failure_count
        else failure_count) =
      (fun failure_count region =>
        if region.type ≠ SemiconductorRegion then failure_count
        else region.on_processor_nodes.foldl step failure_count) := by
    intro step
    funext c region
    by_cases hty : region.type = SemiconductorRegion <;> simp [hty]
  rw [hswap, foldl_semiconductor_regions, BDF2_nodes_count _ _ _ 0 (by norm_num), Nat.zero_add]

theorem Parallel_sum_uint_eq (xs : List Nat) : Parallel_sum_uint xs = xs.sum % 2 ^ 32 := by
  unfold Parallel_sum_uint
  have h : ∀ (l : List Nat) (c : Nat), c < 2 ^ 32 →
      l.foldl (fun s c => (s + c) % 2 ^ 32) c = (c + l.sum) % 2 ^ 32 := by
    intro l
    induction l with
    | nil => intro c hc; simp only [List.foldl_nil, List.sum_nil]; omega
    | cons x rest ih =>
      intro c _
      rw [List.foldl_cons, ih _ (Nat.mod_lt _ (by norm_num)), List.sum_cons]
      omega
  rw [h xs 0 (by norm_num), Nat.zero_add]

theorem BDF2_node_failures_le (a b : α) (nd : FVM_Node α) : BDF2_node_failures a b nd ≤ 2 := by
  unfold BDF2_node_failures
  split_ifs <;> omega

theorem BDF2_failures_sum_le (a b : α) (nodes : List (FVM_Node α)) :
    (nodes.map (BDF2_node_failures a b)).sum ≤ 2 * nodes.length := by
  induction nodes with
  | nil => simp
  | cons nd rest ih =>
    rw [List.map_cons, List.sum_cons, List.length_cons]
    have := BDF2_node_failures_le a b nd
    omega

theorem BDF2_failures_sum_pos (a b : α) (nodes : List (FVM_Node α)) (nd : FVM_Node α)
    (hnd : nd ∈ nodes) (hpos : 0 < BDF2_node_failures a b nd) :
    0 < (nodes.map (BDF2_node_failures a b)).sum := by
  induction nodes with
  | nil => exact absurd hnd (List.not_mem_nil _)
  | cons nd1 rest ih =>
    rw [List.map_cons, List.sum_cons]
    rcases List.mem_cons.mp hnd with heq | hmem
    · subst heq; omega
    · have := ih hmem; omega

theorem sum_mod_bound (f g : SimulationSystem α → Nat) (procs : List (SimulationSystem α))
    (hfg : ∀ sys, f sys ≤ 2 * g sys) (hsize : 2 * (procs.map g).sum < 2 ^ 32) :
    (procs.map (fun sys => f sys % 2 ^ 32)).sum = (procs.map f).sum ∧
      (procs.map f).sum ≤ 2 * (procs.map g).sum := by
  induction procs with
  | nil => simp
  | cons sys rest ih =>
    simp only [List.map_cons, List.sum_cons] at hsize ⊢
    have h1 := hfg sys
    obtain ⟨h2, h3⟩ := ih (by omega)
    rw [h2, Nat.mod_eq_of_lt (by omega)]
    exact ⟨rfl, by omega⟩

theorem sum_pos_of_mem (f : SimulationSystem α → Nat) (procs : List (SimulationSystem α))
    (sys : SimulationSystem α) (hsys : sys ∈ procs) (hpos : 0 < f sys) :
    0 < (procs.map f).sum := by
  induction procs with
  | nil => exact absurd hsys (List.not_mem_nil _)
  | cons s rest ih =>
    rw [List.map_cons, List.sum_cons]
    rcases List.mem_cons.mp hsys with heq | hmem
    · subst heq; omega
    · have := ih hmem; omega

/-- The other half of the behaviour of `BDF2_positive_defined`: as long as the counter cannot
wrap (fewer than `2^31` on-processor semiconductor nodes in total), a single violating node
makes the code return `true`. -/
theorem BDF2_positive_defined_true_of_violation (dt dt_last : α)
    (procs : List (SimulationSystem α))
    (hsize : 2 * (procs.map (fun sys => (semiconductor_nodes sys).length)).sum < 2 ^ 32)
    (hviol : ∃ sys ∈ procs, ∃ region ∈ sys, region.type = SemiconductorRegion ∧
      ∃ nd ∈ region.on_processor_nodes, BDF2_violates dt dt_last nd) :
    BDF2_positive_defined dt dt_last procs = true := by
  obtain ⟨sys, hsys, region, hregion, hty, nd, hnd, hv⟩ := hviol
  have hcount := fun s => BDF2_local_count dt dt_last s
  have hmap : procs.map (BDF2_local_failure_count dt dt_last) =
      procs.map (fun s => ((semiconductor_nodes s).map (BDF2_node_failures
        (1 / (dt_last / (dt_last + dt) * (1 - dt_last / (dt_last + dt))))
        ((1 - dt_last / (dt_last + dt)) / (dt_last / (dt_last + dt))))).sum % 2 ^ 32) :=
    List.map_congr_left (fun s _ => hcount s)
  obtain ⟨hsum, hle⟩ := sum_mod_bound
    (fun s => ((semiconductor_nodes s).map (BDF2_node_failures
        (1 / (dt_last / (dt_last + dt) * (1 - dt_last / (dt_last + dt))))
        ((1 - dt_last / (dt_last + dt)) / (dt_last / (dt_last + dt))))).sum)
    (fun s => (semiconductor_nodes s).length) procs
    (fun s => BDF2_failures_sum_le _ _ _) hsize
  have hnode : 0 < BDF2_node_failures
      (1 / (dt_last / (dt_last + dt) * (1 - dt_last / (dt_last + dt))))
      ((1 - dt_last / (dt_last + dt)) / (dt_last / (dt_last + dt))) nd := by
    unfold BDF2_violates at hv
    unfold BDF2_node_failures
    rcases hv with h | h
    · rw [if_pos h]; omega
    · rw [if_pos h]; omega
  have hpos := sum_pos_of_mem
    (fun s => ((semiconductor_nodes s).map (BDF2_node_failures
        (1 / (dt_last / (dt_last + dt) * (1 - dt_last / (dt_last + dt))))
        ((1 - dt_last / (dt_last + dt)) / (dt_last / (dt_last + dt))))).sum) procs sys hsys
    (BDF2_failures_sum_pos _ _ _ nd
      ((mem_semiconductor_nodes sys nd).mpr ⟨region, hregion, hty, hnd⟩) hnode)
  unfold BDF2_positive_defined
  rw [Parallel_sum_uint_eq, hmap, hsum, Nat.mod_eq_of_lt (by omega)]
  simp only [bne_iff_ne, ne_eq]
  omega

/-- C1 (the code at the inputs where the claim expects `true`): whenever no on-processor
semiconductor node of any process violates `a*n >= b*n_last` or `a*p >= b*p_last`,
`BDF2_positive_defined` returns `false`, although the order is then safe. -/
theorem BDF2_positive_defined_false_of_no_violation (dt dt_last : α)
    (procs : List (SimulationSystem α))
    (h : ∀ sys ∈ procs, ∀ region ∈ sys, region.type = SemiconductorRegion →
      ∀ nd ∈ region.on_processor_nodes, ¬ BDF2_violates dt dt_last nd) :
    BDF2_positive_defined dt dt_last procs = false := by
  unfold BDF2_positive_defined
  rw [Parallel_sum_uint_zero]
  · rfl
  · intro x hx
    obtain ⟨sys, hsys, rfl⟩ := List.mem_map.mp hx
    exact BDF2_local_no_violation dt dt_last sys (h sys hsys)

/-- C1 witness: at step sizes `dt = dt_last = 1` the one-node system `bdf2_safe_system`
has no violating node, and the code returns `false`. -/
theorem BDF2_positive_defined_false_of_no_violation_witness :
    (∀ sys ∈ bdf2_safe_system, ∀ region ∈ sys, region.type = SemiconductorRegion →
      ∀ nd ∈ region.on_processor_nodes, ¬ BDF2_violates (1 : ℚ) 1 nd) ∧
    BDF2_positive_defined (1 : ℚ) 1 bdf2_safe_system = false := by
  have h : ∀ sys ∈ bdf2_safe_system, ∀ region ∈ sys, region.type = SemiconductorRegion →
      ∀ nd ∈ region.on_processor_nodes, ¬ BDF2_violates (1 : ℚ) 1 nd := by
    intro sys hsys region hregion _ nd hnd
    simp only [bdf2_safe_system, List.mem_singleton] at hsys
    subst hsys
    simp only [List.mem_singleton] at hregion
    subst hregion
    simp only [List.mem_singleton] at hnd
    subst hnd
    norm_num [BDF2_violates]
  exact ⟨h, BDF2_positive_defined_false_of_no_violation 1 1 bdf2_safe_system h⟩

/-! ### `potential_damping`: the `dV_max` search loop -/

theorem dV_search_node_snd (floor : α) (yy : LocalArray α) (st : α × LocalArray α)
    (nd : FVM_Node α) (s : Nat) :
    (dV_search_node floor yy st nd).2 s =
      if s = nd.local_offset + 1 ∨ s = nd.local_offset + 2 then max (st.2 s) floor
      else st.2 s := by
  unfold dV_search_node
  dsimp only
  by_cases hc1 : st.2 (nd.local_offset + 1) < floor
  · have hc1le := le_of_lt hc1
    by_cases hc2 : st.2 (nd.local_offset + 2) < floor
    · have hc2le := le_of_lt hc2
      by_cases h1 : s = nd.local_offset + 1
      · subst h1; simp [hc1, hc2, Function.update, max_eq_right hc1le]
      · by_cases h2 : s = nd.local_offset + 2
        · subst h2; simp [hc1, hc2, Function.update, max_eq_right hc2le]
        · simp [hc1, hc2, Function.update, h1, h2]
    · have hc2le := not_lt.mp hc2
      by_cases h1 : s = nd.local_offset + 1
      · subst h1; simp [hc1, hc2, Function.update, max_eq_right hc1le]
      · by_cases h2 : s = nd.local_offset + 2
        · subst h2; simp [hc1, hc2, Function.update, max_eq_left hc2le]
        · simp [hc1, hc2, Function.update, h1, h2]
  · have hc1le := not_lt.mp hc1
    by_cases hc2 : st.2 (nd.local_offset + 2) < floor
    · have hc2le := le_of_lt hc2
      by_cases h1 : s = nd.local_offset + 1
      · subst h1; simp [hc1, hc2, Function.update, max_eq_left hc1le]
      · by_cases h2 : s = nd.local_offset + 2
        · subst h2; simp [hc1, hc2, Function.update, max_eq_right hc2le]
        · simp [hc1, hc2, Function.update, h1, h2]
    · have hc2le := not_lt.mp hc2
      by_cases h1 : s = nd.local_offset + 1
      · subst h1; simp [hc1, hc2, Function.update, max_eq_left hc1le]
      · by_cases h2 : s = nd.local_offset + 2
        · subst h2; simp [hc1, hc2, Function.update, max_eq_left hc2le]
        · simp [hc1, hc2, Function.update, h1, h2]

theorem dV_search_nodes_snd (floor : α) (yy : LocalArray α) (nodes : List (FVM_Node α))
    (st : α × LocalArray α) (s : Nat) :
    (nodes.foldl (dV_search_node floor yy) st).2 s =
      if s ∈ nodes.flatMap (fun nd => [nd.local_offset + 1, nd.local_offset + 2]) then
        max (st.2 s) floor
      else st.2 s := by
  induction nodes generalizing st with
  | nil => simp
  | cons nd rest ih =>
    rw [List.foldl_cons, ih, dV_search_node_snd, List.flatMap_cons]
    by_cases hrest : s ∈ rest.flatMap (fun nd => [nd.local_offset + 1, nd.local_offset + 2])
    · by_cases hnd : s = nd.local_offset + 1 ∨ s = nd.local_offset + 2
      · simp [hrest, hnd]
      · simp [hrest, hnd]
    · by_cases hnd : s = nd.local_offset + 1 ∨ s = nd.local_offset + 2
      · have hin : s ∈ [nd.local_offset + 1, nd.local_offset + 2] := by
          simpa using hnd
        simp [hrest, hnd, hin]
      · have hin : s ∉ [nd.local_offset + 1, nd.local_offset + 2] := by
          simpa using hnd
        simp [hrest, hnd, hin]

theorem dV_search_snd (floor : α) (p : ProcessArgs α) (s : Nat) :
    (dV_search floor p).2 s =
      if s ∈ density_slots p.system then max (p.ww s) floor else p.ww s := by
  unfold dV_search density_slots
  rw [foldl_semiconductor_regions, dV_search_nodes_snd]

theorem dV_search_nodes_ge (floor : α) (yy : LocalArray α) (nodes : List (FVM_Node α))
    (st : α × LocalArray α) :
    st.1 ≤ (nodes.foldl (dV_search_node floor yy) st).1 := by
  induction nodes generalizing st with
  | nil => exact le_refl _
  | cons nd rest ih =>
    rw [List.foldl_cons]
    exact le_trans (le_max_left _ _) (ih (dV_search_node floor yy st nd))

theorem dV_search_nodes_ub (floor : α) (yy : LocalArray α) (nodes : List (FVM_Node α))
    (st : α × LocalArray α) (nd : FVM_Node α) (hnd : nd ∈ nodes) :
    |yy nd.local_offset| ≤ (nodes.foldl (dV_search_node floor yy) st).1 := by
  induction nodes generalizing st with
  | nil => exact absurd hnd (List.not_mem_nil _)
  | cons nd1 rest ih =>
    rw [List.foldl_cons]
    rcases List.mem_cons.mp hnd with heq | hmem
    · subst heq
      have h1 : |yy nd.local_offset| ≤ (dV_search_node floor yy st nd).1 := le_max_right _ _
      exact le_trans h1 (dV_search_nodes_ge floor yy rest _)
    · exact ih _ hmem

theorem dV_search_nodes_attained (floor : α) (yy : LocalArray α) (nodes : List (FVM_Node α))
    (st : α × LocalArray α) :
    (nodes.foldl (dV_search_node floor yy) st).1 = st.1 ∨
      ∃ nd ∈ nodes, (nodes.foldl (dV_search_node floor yy) st).1 = |yy nd.local_offset| := by
  induction nodes generalizing st with
  | nil => exact Or.inl rfl
  | cons nd1 rest ih =>
    rw [List.foldl_cons]
    rcases ih (dV_search_node floor yy st nd1) with h | ⟨nd, hnd, h⟩
    · rw [h]
      rcases max_cases st.1 |yy nd1.local_offset| with ⟨hm, _⟩ | ⟨hm, _⟩
      · exact Or.inl hm
      · exact Or.inr ⟨nd1, List.mem_cons_self _ _, hm⟩
    · exact Or.inr ⟨nd, List.mem_cons_of_mem _ hnd, h⟩

theorem Parallel_max_ub (xs : List α) (x : α) (hx : x ∈ xs) : x ≤ Parallel_max xs := by
  have hfold : ∀ (l : List α) (a : α), a ≤ l.foldl max a ∧ ∀ y ∈ l, y ≤ l.foldl max a := by
    intro l
    induction l with
    | nil => intro a; exact ⟨le_refl _, fun y hy => absurd hy (List.not_mem_nil _)⟩
    | cons b rest ih =>
      intro a
      rw [List.foldl_cons]
      refine ⟨le_trans (le_max_left a b) (ih (max a b)).1, ?_⟩
      intro y hy
      rcases List.mem_cons.mp hy with heq | hmem
      · subst heq
        exact le_trans (le_max_right a y) (ih (max a y)).1
      · exact (ih (max a b)).2 y hmem
  cases xs with
  | nil => exact absurd hx (List.not_mem_nil _)
  | cons a rest =>
    rcases List.mem_cons.mp hx with heq | hmem
    · subst heq
      exact (hfold rest x).1
    · exact (hfold rest a).2 x hmem

theorem Parallel_max_mem (xs : List α) (hne : xs ≠ []) : Parallel_max xs ∈ xs := by
  have hfold : ∀ (l : List α) (a : α), l.foldl max a = a ∨ l.foldl max a ∈ l := by
    intro l
    induction l with
    | nil => intro a; exact Or.inl rfl
    | cons b rest ih =>
      intro a
      rw [List.foldl_cons]
      rcases ih (max a b) with h | h
      · rw [h]
        rcases max_cases a b with ⟨hm, _⟩ | ⟨hm, _⟩
        · exact Or.inl hm
        · exact Or.inr (by rw [hm]; exact List.mem_cons_self _ _)
      · exact Or.inr (List.mem_cons_of_mem _ h)
  cases xs with
  | nil => exact absurd rfl hne
  | cons a rest =>
    rcases hfold rest a with h | h
    · show rest.foldl max a ∈ a :: rest
      rw [h]
      exact List.mem_cons_self _ _
    · exact List.mem_cons_of_mem _ h

/-! ### `potential_damping`: the damping loop and the outcome -/

theorem potential_damping_ww (u : PhysicalUnit α) (log : α → α)
    (T_external potential_update : α) (procs : List (ProcessArgs α))
    (pw : ProcessArgs α × LocalArray α)
    (h : pw ∈ List.zip procs (potential_damping u log T_external potential_update procs).ww) :
    pw.1 ∈ procs ∧
      pw.2 = potential_damping_local u log T_external potential_update
        (potential_dV_max u procs) pw.1 :=
  mem_zip_map_self _ procs pw h

/-- The routine `potential_damping` gives back one candidate array per process. -/
theorem potential_damping_ww_length (u : PhysicalUnit α) (log : α → α)
    (T_external potential_update : α) (procs : List (ProcessArgs α)) :
    (potential_damping u log T_external potential_update procs).ww.length = procs.length := by
  unfold potential_damping
  exact List.length_map _ _

/-- C2 (as the code behaves): `potential_damping` reports `changed_candidate = true` and
`changed_step = false` on every input, whether or not `dV_max` exceeds the threshold. -/
theorem potential_damping_flags (u : PhysicalUnit α) (log : α → α)
    (T_external potential_update : α) (procs : List (ProcessArgs α)) :
    (potential_damping u log T_external potential_update procs).changed_w = true ∧
      (potential_damping u log T_external potential_update procs).changed_y = false :=
  ⟨rfl, rfl⟩

theorem damping_zero_step_dV_max : potential_dV_max unit_one damping_zero_step = 0 := by
  simp [potential_dV_max, Parallel_max, dV_search, dV_search_node, damping_zero_step,
    zero_step_process]

/-- C2 counterexample: on `damping_zero_step` the global `dV_max` is 0, below the threshold
`1e-6`, and yet `changed_candidate = true` is reported. -/
theorem potential_damping_flags_counterexample :
    ¬ ((potential_damping unit_one (fun t => t) 1 1 damping_zero_step).changed_w = true →
        potential_dV_max unit_one damping_zero_step > 1 / 1000000) := by
  intro h
  have h1 := h rfl
  rw [damping_zero_step_dV_max] at h1
  norm_num at h1

/-- C3 (amended): when the candidate is `previous - step` and the global `dV_max` is 0,
`potential_damping` returns one candidate array for every process, and this array equals
`previous - step` in every slot except the electron and hole slots of the on-processor
semiconductor nodes, where it is `max (previous - step) onePerCMC` (the density floor applied
by the search loop). -/
theorem potential_damping_zero_dV_max (u : PhysicalUnit α) (log : α → α)
    (T_external potential_update : α) (procs : List (ProcessArgs α))
    (hw : ∀ p ∈ procs, ∀ s, p.ww s = p.xx s - p.yy s)
    (hdV : potential_dV_max u procs = 0) :
    (potential_damping u log T_external potential_update procs).ww.length = procs.length ∧
    ∀ pw ∈ List.zip procs (potential_damping u log T_external potential_update procs).ww,
      ∀ s, pw.2 s =
        if s ∈ density_slots pw.1.system then max (pw.1.xx s - pw.1.yy s) (onePerCMC u)
        else pw.1.xx s - pw.1.yy s := by
  refine ⟨potential_damping_ww_length u log T_external potential_update procs, ?_⟩
  intro pw hpw s
  obtain ⟨hmem, hval⟩ := potential_damping_ww u log T_external potential_update procs pw hpw
  have hthr : ¬ ((0 : α) > 1 / 1000000) := by norm_num
  rw [hval, hdV]
  unfold potential_damping_local
  simp only [hthr, if_false]
  rw [dV_search_snd, hw pw.1 hmem s]

/-- C3 witness: `damping_zero_step` has candidate `previous - step` and `dV_max = 0`. -/
theorem potential_damping_zero_dV_max_witness :
    (∀ p ∈ damping_zero_step, ∀ s, p.ww s = p.xx s - p.yy s) ∧
    potential_dV_max unit_one damping_zero_step = 0 ∧
    (potential_damping unit_one (fun t => t) 1 1 damping_zero_step).ww.length =
      damping_zero_step.length ∧
    ∀ pw ∈ List.zip damping_zero_step
        (potential_damping unit_one (fun t => t) 1 1 damping_zero_step).ww,
      ∀ s, pw.2 s =
        if s ∈ density_slots pw.1.system then max (pw.1.xx s - pw.1.yy s) (onePerCMC unit_one)
        else pw.1.xx s - pw.1.yy s := by
  have hw : ∀ p ∈ damping_zero_step, ∀ s, p.ww s = p.xx s - p.yy s := by
    intro p hp s
    simp only [damping_zero_step, List.mem_singleton] at hp
    subst hp
    simp [zero_step_process]
  exact ⟨hw, damping_zero_step_dV_max,
    potential_damping_zero_dV_max unit_one (fun t => t) 1 1 damping_zero_step hw
      damping_zero_step_dV_max⟩

/-- C3 counterexample: on `damping_zero_step` (candidate `previous - step = 0` everywhere,
`dV_max = 0`) the returned candidate is 1, not `previous - step = 0`, in the electron slot 1 of
the semiconductor node. -/
theorem potential_damping_zero_dV_max_counterexample :
    (∀ p ∈ damping_zero_step, ∀ s, p.ww s = p.xx s - p.yy s) ∧
    potential_dV_max unit_one damping_zero_step = 0 ∧
    ¬ (∀ pw ∈ List.zip damping_zero_step
        (potential_damping unit_one (fun t => t) 1 1 damping_zero_step).ww,
      ∀ s, pw.2 s = pw.1.xx s - pw.1.yy s) := by
  refine ⟨?_, damping_zero_step_dV_max, ?_⟩
  · intro p hp s
    simp only [damping_zero_step, List.mem_singleton] at hp
    subst hp
    simp [zero_step_process]
  · intro h
    have h1 := h (zero_step_process,
      potential_damping_local unit_one (fun t => t) 1 1
        (potential_dV_max unit_one damping_zero_step) zero_step_process)
      (by simp [damping_zero_step, potential_damping]) 1
    rw [damping_zero_step_dV_max] at h1
    norm_num [potential_damping_local, dV_search, dV_search_node, zero_step_process, onePerCMC,
      unit_one, Function.update] at h1

/-! ### Consequences of the layout invariant -/

theorem mem_node_slots (ty : SimulationRegionType) (nd : FVM_Node α) (s : Nat) :
    s ∈ node_slots ty nd ↔ ∃ k, k < slot_count ty ∧ s = nd.local_offset + k := by
  unfold node_slots
  rw [List.mem_map]
  constructor
  · rintro ⟨k, hk, rfl⟩
    exact ⟨k, List.mem_range.mp hk, rfl⟩
  · rintro ⟨k, hk, rfl⟩
    exact ⟨k, List.mem_range.mpr hk, rfl⟩

theorem slot_count_pos (ty : SimulationRegionType) : 0 < slot_count ty := by
  cases ty <;> simp [slot_count]

/-- In a well-formed layout a slot `local_offset + k` of a node (with `k` below the slot count
of its region) is the potential slot of no other node, and of this node only if `k = 0`. -/
theorem WellFormed.offset_eq (sys : SimulationSystem α) (hwf : WellFormed sys)
    (region : SimulationRegion α) (hregion : region ∈ sys)
    (nd : FVM_Node α) (hnd : nd ∈ region.on_processor_nodes)
    (k : Nat) (hk : k < slot_count region.type)
    (region1 : SimulationRegion α) (hregion1 : region1 ∈ sys)
    (nd1 : FVM_Node α) (hnd1 : nd1 ∈ region1.on_processor_nodes)
    (k1 : Nat) (hk1 : k1 < slot_count region1.type)
    (heq : nd.local_offset + k = nd1.local_offset + k1) :
    region.type = region1.type ∧ nd = nd1 ∧ k = k1 := by
  have h1 : (region.type, nd) ∈ tagged_nodes sys :=
    (mem_tagged_nodes sys _ _).mpr ⟨region, hregion, rfl, hnd⟩
  have h2 : (region1.type, nd1) ∈ tagged_nodes sys :=
    (mem_tagged_nodes sys _ _).mpr ⟨region1, hregion1, rfl, hnd1⟩
  have hs1 : nd.local_offset + k ∈ node_slots region.type nd :=
    (mem_node_slots _ _ _).mpr ⟨k, hk, rfl⟩
  have hs2 : nd.local_offset + k ∈ node_slots region1.type nd1 :=
    (mem_node_slots _ _ _).mpr ⟨k1, hk1, heq⟩
  have hpair := slot_owner_unique (fun tn : SimulationRegionType × FVM_Node α =>
    node_slots tn.1 tn.2) (tagged_nodes sys) hwf h1 h2 hs1 hs2
  have hty : region.type = region1.type := congrArg Prod.fst hpair
  have hnode : nd = nd1 := congrArg Prod.snd hpair
  refine ⟨hty, hnode, ?_⟩
  subst hnode
  omega

theorem dV_search_nodes_fst (floor : α) (yy : LocalArray α) (nodes : List (FVM_Node α))
    (st : α × LocalArray α) :
    (nodes.foldl (dV_search_node floor yy) st).1 =
      nodes.foldl (fun d nd => max d |yy nd.local_offset|) st.1 := by
  induction nodes generalizing st with
  | nil => rfl
  | cons nd rest ih =>
    rw [List.foldl_cons, List.foldl_cons, ih]
    rfl

theorem dV_search_fst (floor : α) (p : ProcessArgs α) :
    (dV_search floor p).1 =
      (semiconductor_nodes p.system).foldl (fun d nd => max d |p.yy nd.local_offset|) 0 := by
  unfold dV_search
  rw [foldl_semiconductor_regions, dV_search_nodes_fst]

theorem damping_two_regions_dV_max : potential_dV_max unit_one damping_two_regions = 1 := by
  simp [potential_dV_max, Parallel_max, dV_search_fst, semiconductor_nodes,
    damping_two_regions, two_regions_process]

/-- C5 (amended): the `dV_max` that `potential_damping` compares with the threshold is the
global maximum of `|step|` over the potential slots of the on-processor nodes of the
semiconductor regions only (and 0 if there is none): it bounds `|step|` at every such node, and
it is 0 or attained at one of them. -/
theorem potential_dV_max_semiconductor (u : PhysicalUnit α) (procs : List (ProcessArgs α)) :
    (∀ p ∈ procs, ∀ region ∈ p.system, region.type = SemiconductorRegion →
      ∀ nd ∈ region.on_processor_nodes, |p.yy nd.local_offset| ≤ potential_dV_max u procs) ∧
    (potential_dV_max u procs = 0 ∨
      ∃ p ∈ procs, ∃ region ∈ p.system, region.type = SemiconductorRegion ∧
        ∃ nd ∈ region.on_processor_nodes, potential_dV_max u procs = |p.yy nd.local_offset|) := by
  constructor
  · intro p hp region hregion hty nd hnd
    have hsem : nd ∈ semiconductor_nodes p.system :=
      (mem_semiconductor_nodes _ nd).mpr ⟨region, hregion, hty, hnd⟩
    have hlocal : |p.yy nd.local_offset| ≤ (dV_search (onePerCMC u) p).1 := by
      unfold dV_search
      rw [foldl_semiconductor_regions]
      exact dV_search_nodes_ub _ _ _ _ nd hsem
    refine le_trans hlocal (Parallel_max_ub _ _ ?_)
    exact List.mem_map.mpr ⟨p, hp, rfl⟩
  · cases hprocs : procs with
    | nil => exact Or.inl rfl
    | cons p0 rest =>
      have hne : (List.map (fun p => (dV_search (onePerCMC u) p).1) (p0 :: rest)) ≠ [] := by
        simp
      have hmem := Parallel_max_mem _ hne
      obtain ⟨p, hp, hpeq⟩ := List.mem_map.mp hmem
      have hatt : (dV_search (onePerCMC u) p).1 = 0 ∨
          ∃ nd ∈ semiconductor_nodes p.system,
            (dV_search (onePerCMC u) p).1 = |p.yy nd.local_offset| := by
        unfold dV_search
        rw [foldl_semiconductor_regions]
        exact dV_search_nodes_attained _ _ _ _
      unfold potential_dV_max
      rw [← hpeq]
      rcases hatt with h0 | ⟨nd, hnd, hval⟩
      · exact Or.inl h0
      · obtain ⟨region, hregion, hty, hndr⟩ := (mem_semiconductor_nodes _ nd).mp hnd
        exact Or.inr ⟨p, hp, region, hregion, hty, nd, hndr, hval⟩

/-- C5 counterexample: on `damping_two_regions` the global `dV_max` is 1 (above the threshold,
so the damping loop replaces the potential slot of the insulator node too), while `|step|` is 5
at the insulator node: `dV_max` is not the maximum over the nodes of every region. -/
theorem potential_dV_max_counterexample :
    potential_dV_max unit_one damping_two_regions > 1 / 1000000 ∧
    ¬ (∀ p ∈ damping_two_regions, ∀ region ∈ p.system, ∀ nd ∈ region.on_processor_nodes,
        |p.yy nd.local_offset| ≤ potential_dV_max unit_one damping_two_regions) := by
  rw [damping_two_regions_dV_max]
  refine ⟨by norm_num, ?_⟩
  intro h
  have h1 := h two_regions_process (by simp [damping_two_regions])
    { type := InsulatorRegion,
      on_processor_nodes :=
        [{ local_offset := 3, node_data := { n := 0, p := 0, n_last := 0, p_last := 0 } }] }
    (by simp [two_regions_process])
    { local_offset := 3, node_data := { n := 0, p := 0, n_last := 0, p_last := 0 } }
    (by simp)
  norm_num [two_regions_process] at h1

/-! ### The damping factor over the reals -/

/-- C6: over the reals, for `dV_max > 0` and `Vt > 0` the damping factor
`f = log(1+dV_max/Vt)/(dV_max/Vt)` of `potential_damping` satisfies `0 < f < 1`, so
`|f*step| < |step|` for every non-zero step. -/
theorem damping_factor_bounds (dV_max Vt : ℝ) (hdV : 0 < dV_max) (hVt : 0 < Vt) :
    0 < damping_factor Real.log dV_max Vt ∧ damping_factor Real.log dV_max Vt < 1 ∧
      ∀ step : ℝ, step ≠ 0 → |damping_factor Real.log dV_max Vt * step| < |step| := by
  have ht : 0 < dV_max / Vt := div_pos hdV hVt
  have hlog_pos : 0 < Real.log (1 + dV_max / Vt) := Real.log_pos (by linarith)
  have hlog_lt : Real.log (1 + dV_max / Vt) < dV_max / Vt := by
    have h := Real.log_lt_sub_one_of_pos (x := 1 + dV_max / Vt) (by linarith) (by linarith)
    linarith
  have hf0 : 0 < damping_factor Real.log dV_max Vt := by
    unfold damping_factor
    exact div_pos hlog_pos ht
  have hf1 : damping_factor Real.log dV_max Vt < 1 := by
    unfold damping_factor
    rw [div_lt_one ht]
    exact hlog_lt
  refine ⟨hf0, hf1, ?_⟩
  intro step hstep
  rw [abs_mul, abs_of_pos hf0]
  have habs : 0 < |step| := abs_pos.mpr hstep
  calc damping_factor Real.log dV_max Vt * |step| < 1 * |step| :=
        mul_lt_mul_of_pos_right hf1 habs
    _ = |step| := one_mul _

/-- C6 witness: `dV_max = 1`, `Vt = 1`. -/
theorem damping_factor_bounds_witness :
    (0 : ℝ) < 1 ∧
    (0 < damping_factor Real.log 1 1 ∧ damping_factor Real.log 1 1 < 1 ∧
      ∀ step : ℝ, step ≠ 0 → |damping_factor Real.log 1 1 * step| < |step|) :=
  ⟨one_pos, damping_factor_bounds 1 1 one_pos one_pos⟩

/-! ### `positive_density_damping` -/

theorem positive_density_node_apply (floor : α) (xx yy : LocalArray α)
    (st : LocalArray α × Int) (nd : FVM_Node α) (s : Nat) :
    (positive_density_node floor xx yy st nd).1 s =
      if s = nd.local_offset then
        (if |yy nd.local_offset| > 1 then
          xx nd.local_offset - sign (yy nd.local_offset) * 1
        else st.1 s)
      else if s = nd.local_offset + 1 ∨ s = nd.local_offset + 2 then max (st.1 s) floor
      else st.1 s := by
  unfold positive_density_node
  dsimp only
  have e1 : ∀ (w : LocalArray α) (v : α), Function.update w nd.local_offset v
      (nd.local_offset + 1) = w (nd.local_offset + 1) := by
    intro w v; simp [Function.update]
  have e2 : ∀ (w : LocalArray α) (v : α), Function.update w nd.local_offset v
      (nd.local_offset + 2) = w (nd.local_offset + 2) := by
    intro w v; simp [Function.update]
  have e3 : ∀ (w : LocalArray α) (v : α), Function.update w (nd.local_offset + 1) v
      (nd.local_offset + 2) = w (nd.local_offset + 2) := by
    intro w v; simp [Function.update]
  by_cases hy : |yy nd.local_offset| > 1 <;>
  by_cases hc1 : st.1 (nd.local_offset + 1) < floor <;>
  by_cases hc2 : st.1 (nd.local_offset + 2) < floor <;>
  simp only [hy, hc1, hc2, e1, e2, e3, if_true, if_false] <;>
  by_cases h0 : s = nd.local_offset <;>
  by_cases h1 : s = nd.local_offset + 1 <;>
  by_cases h2 : s = nd.local_offset + 2 <;>
  first
  | omega
  | (subst h0; simp [Function.update])
  | (subst h1; simp [Function.update, max_eq_right (le_of_lt hc1)])
  | (subst h1; simp [Function.update, max_eq_left (not_lt.mp hc1)])
  | (subst h2; simp [Function.update, max_eq_right (le_of_lt hc2)])
  | (subst h2; simp [Function.update, max_eq_left (not_lt.mp hc2)])
  | simp [Function.update, h0, h1, h2]

theorem semiconductor_slots_sublist (sys : SimulationSystem α) :
    List.Sublist ((semiconductor_nodes sys).flatMap (node_slots SemiconductorRegion))
      (all_slots sys) := by
  induction sys with
  | nil => exact List.Sublist.refl _
  | cons region rest ih =>
    have hall : all_slots (region :: rest) =
        (region.on_processor_nodes.map (fun nd => (region.type, nd))).flatMap
          (fun tn => node_slots tn.1 tn.2) ++ all_slots rest := by
      unfold all_slots tagged_nodes
      rw [List.flatMap_cons, List.flatMap_append]
    have hsem : (semiconductor_nodes (region :: rest)).flatMap (node_slots SemiconductorRegion) =
        (if region.type = SemiconductorRegion then region.on_processor_nodes else []).flatMap
          (node_slots SemiconductorRegion) ++
        (semiconductor_nodes rest).flatMap (node_slots SemiconductorRegion) := by
      unfold semiconductor_nodes
      rw [List.flatMap_cons, List.flatMap_append]
    rw [hall, hsem]
    refine List.Sublist.append ?_ ih
    by_cases hty : region.type = SemiconductorRegion
    · rw [if_pos hty, hty]
      have heq : (region.on_processor_nodes.map
          (fun nd => (SemiconductorRegion, nd))).flatMap
            (fun tn : SimulationRegionType × FVM_Node α => node_slots tn.1 tn.2) =
          region.on_processor_nodes.flatMap (node_slots SemiconductorRegion) := by
        induction region.on_processor_nodes with
        | nil => rfl
        | cons nd nds ihn => rw [List.map_cons, List.flatMap_cons, List.flatMap_cons, ihn]
      rw [heq]
    · rw [if_neg hty]
      exact List.nil_sublist _

theorem semiconductor_slots_nodup (sys : SimulationSystem α) (hwf : WellFormed sys) :
    ((semiconductor_nodes sys).flatMap (node_slots SemiconductorRegion)).Nodup :=
  List.Nodup.sublist (semiconductor_slots_sublist sys) hwf

theorem mem_semiconductor_slots (nd : FVM_Node α) (s : Nat) :
    s ∈ node_slots SemiconductorRegion nd ↔
      s = nd.local_offset ∨ s = nd.local_offset + 1 ∨ s = nd.local_offset + 2 := by
  rw [mem_node_slots]
  constructor
  · rintro ⟨k, hk, rfl⟩
    have hk3 : k < 3 := hk
    omega
  · rintro (h | h | h)
    · exact ⟨0, by decide, by omega⟩
    · exact ⟨1, by decide, by omega⟩
    · exact ⟨2, by decide, by omega⟩

theorem positive_density_node_frame (floor : α) (xx yy : LocalArray α)
    (st : LocalArray α × Int) (nd : FVM_Node α) (s : Nat)
    (hs : s ∉ node_slots SemiconductorRegion nd) :
    (positive_density_node floor xx yy st nd).1 s = st.1 s := by
  rw [mem_semiconductor_slots] at hs
  push_neg at hs
  rw [positive_density_node_apply, if_neg hs.1, if_neg (by tauto)]

theorem positive_density_node_local (floor : α) (xx yy : LocalArray α)
    (st st1 : LocalArray α × Int) (nd : FVM_Node α)
    (hagree : ∀ t ∈ node_slots SemiconductorRegion nd, st.1 t = st1.1 t)
    (s : Nat) (hs : s ∈ node_slots SemiconductorRegion nd) :
    (positive_density_node floor xx yy st nd).1 s =
      (positive_density_node floor xx yy st1 nd).1 s := by
  rw [positive_density_node_apply, positive_density_node_apply, hagree s hs]

/-- What `positive_density_damping` leaves in a slot of an on-processor semiconductor node of a
well-formed process: the result of the loop body for this node alone on the incoming
candidate. -/
theorem positive_density_local_apply (floor : α) (p : ProcessArgs α)
    (hwf : WellFormed p.system)
    (region : SimulationRegion α) (hregion : region ∈ p.system)
    (hty : region.type = SemiconductorRegion)
    (nd : FVM_Node α) (hnd : nd ∈ region.on_processor_nodes)
    (s : Nat) (hs : s ∈ node_slots SemiconductorRegion nd) :
    (positive_density_local floor p).1 s =
      (positive_density_node floor p.xx p.yy (p.ww, 0) nd).1 s := by
  unfold positive_density_local
  rw [foldl_semiconductor_regions]
  exact foldl_local Prod.fst (positive_density_node floor p.xx p.yy)
    (node_slots SemiconductorRegion)
    (fun st i s hs => positive_density_node_frame floor p.xx p.yy st i s hs)
    (fun st st1 i hagree s hs => positive_density_node_local floor p.xx p.yy st st1 i hagree s hs)
    (semiconductor_nodes p.system) (semiconductor_slots_nodup p.system hwf) (p.ww, 0) nd
    ((mem_semiconductor_nodes _ nd).mpr ⟨region, hregion, hty, hnd⟩) s hs

/-- A slot that belongs to no on-processor semiconductor node is not written by
`positive_density_damping`. -/
theorem positive_density_local_frame (floor : α) (p : ProcessArgs α) (s : Nat)
    (hs : ∀ nd ∈ semiconductor_nodes p.system, s ∉ node_slots SemiconductorRegion nd) :
    (positive_density_local floor p).1 s = p.ww s := by
  unfold positive_density_local
  rw [foldl_semiconductor_regions]
  exact foldl_frame Prod.fst (positive_density_node floor p.xx p.yy)
    (node_slots SemiconductorRegion)
    (fun st i s hs => positive_density_node_frame floor p.xx p.yy st i s hs)
    (semiconductor_nodes p.system) (p.ww, 0) s hs

theorem positive_density_damping_ww_eq (u : PhysicalUnit α) (changed_y0 changed_w0 : Bool)
    (procs : List (ProcessArgs α)) :
    (positive_density_damping u changed_y0 changed_w0 procs).ww =
      procs.map (fun p => (positive_density_local (onePerCMC u) p).1) := by
  unfold positive_density_damping
  dsimp only
  split_ifs <;> rfl

/-- The routine `positive_density_damping` gives back one candidate array per process. -/
theorem positive_density_damping_ww_length (u : PhysicalUnit α)
    (changed_y0 changed_w0 : Bool) (procs : List (ProcessArgs α)) :
    (positive_density_damping u changed_y0 changed_w0 procs).ww.length = procs.length := by
  rw [positive_density_damping_ww_eq]
  exact List.length_map _ _

theorem positive_density_damping_ww (u : PhysicalUnit α) (changed_y0 changed_w0 : Bool)
    (procs : List (ProcessArgs α)) (pw : ProcessArgs α × LocalArray α)
    (h : pw ∈ List.zip procs (positive_density_damping u changed_y0 changed_w0 procs).ww) :
    pw.1 ∈ procs ∧ pw.2 = (positive_density_local (onePerCMC u) pw.1).1 := by
  rw [positive_density_damping_ww_eq] at h
  exact mem_zip_map_self _ procs pw h

/-- C7: in a well-formed layout, `positive_density_damping` returns one candidate array for
every process and leaves `max (candidate, floor)` in
the electron slot (`local_offset+1`) and in the hole slot (`local_offset+2`) of every
on-processor semiconductor node, i.e. the floor `onePerCMC` when the incoming value is below it
and the incoming value otherwise; the slot of a node of any other region is unchanged. -/
theorem positive_density_damping_densities (u : PhysicalUnit α) (changed_y0 changed_w0 : Bool)
    (procs : List (ProcessArgs α)) (hwf : ∀ p ∈ procs, WellFormed p.system) :
    (positive_density_damping u changed_y0 changed_w0 procs).ww.length = procs.length ∧
    ∀ pw ∈ List.zip procs (positive_density_damping u changed_y0 changed_w0 procs).ww,
      (∀ region ∈ pw.1.system, region.type = SemiconductorRegion →
        ∀ nd ∈ region.on_processor_nodes,
          pw.2 (nd.local_offset + 1) = max (pw.1.ww (nd.local_offset + 1)) (onePerCMC u) ∧
          pw.2 (nd.local_offset + 2) = max (pw.1.ww (nd.local_offset + 2)) (onePerCMC u) ∧
          (pw.1.ww (nd.local_offset + 1) < onePerCMC u →
            pw.2 (nd.local_offset + 1) = onePerCMC u) ∧
          (onePerCMC u ≤ pw.1.ww (nd.local_offset + 1) →
            pw.2 (nd.local_offset + 1) = pw.1.ww (nd.local_offset + 1)) ∧
          (pw.1.ww (nd.local_offset + 2) < onePerCMC u →
            pw.2 (nd.local_offset + 2) = onePerCMC u) ∧
          (onePerCMC u ≤ pw.1.ww (nd.local_offset + 2) →
            pw.2 (nd.local_offset + 2) = pw.1.ww (nd.local_offset + 2))) ∧
      (∀ region ∈ pw.1.system, region.type ≠ SemiconductorRegion →
        ∀ nd ∈ region.on_processor_nodes,
          pw.2 nd.local_offset = pw.1.ww nd.local_offset) := by
  refine ⟨positive_density_damping_ww_length u changed_y0 changed_w0 procs, ?_⟩
  intro pw hpw
  obtain ⟨hmem, hval⟩ := positive_density_damping_ww u changed_y0 changed_w0 procs pw hpw
  have hwfp := hwf pw.1 hmem
  constructor
  · intro region hregion hty nd hnd
    have h1 : pw.2 (nd.local_offset + 1) =
        max (pw.1.ww (nd.local_offset + 1)) (onePerCMC u) := by
      rw [hval, positive_density_local_apply _ _ hwfp region hregion hty nd hnd _
        ((mem_semiconductor_slots nd _).mpr (Or.inr (Or.inl rfl))),
        positive_density_node_apply, if_neg (by omega), if_pos (Or.inl rfl)]
    have h2 : pw.2 (nd.local_offset + 2) =
        max (pw.1.ww (nd.local_offset + 2)) (onePerCMC u) := by
      rw [hval, positive_density_local_apply _ _ hwfp region hregion hty nd hnd _
        ((mem_semiconductor_slots nd _).mpr (Or.inr (Or.inr rfl))),
        positive_density_node_apply, if_neg (by omega), if_pos (Or.inr rfl)]
    refine ⟨h1, h2, ?_, ?_, ?_, ?_⟩
    · intro hlt; rw [h1]; exact max_eq_right (le_of_lt hlt)
    · intro hge; rw [h1]; exact max_eq_left hge
    · intro hlt; rw [h2]; exact max_eq_right (le_of_lt hlt)
    · intro hge; rw [h2]; exact max_eq_left hge
  · intro region hregion hty nd hnd
    rw [hval]
    apply positive_density_local_frame
    intro nd1 hnd1 hslot
    obtain ⟨region1, hregion1, hty1, hnd1r⟩ := (mem_semiconductor_nodes _ nd1).mp hnd1
    obtain ⟨k, hk, heq⟩ := (mem_node_slots _ _ _).mp hslot
    have h := WellFormed.offset_eq pw.1.system hwfp region hregion nd hnd 0 (slot_count_pos _)
      region1 hregion1 nd1 hnd1r k (by rw [hty1]; exact hk) (by simpa using heq)
    exact hty (h.1.trans hty1)

/-- C7 witness: `damping_zero_step` is well formed; its candidate densities (0) are below the
floor (1). -/
theorem positive_density_damping_densities_witness :
    (∀ p ∈ damping_zero_step, WellFormed p.system) ∧
    (positive_density_damping unit_one false false damping_zero_step).ww.length =
      damping_zero_step.length ∧
    ∀ pw ∈ List.zip damping_zero_step
        (positive_density_damping unit_one false false damping_zero_step).ww,
      (∀ region ∈ pw.1.system, region.type = SemiconductorRegion →
        ∀ nd ∈ region.on_processor_nodes,
          pw.2 (nd.local_offset + 1) =
            max (pw.1.ww (nd.local_offset + 1)) (onePerCMC unit_one) ∧
          pw.2 (nd.local_offset + 2) =
            max (pw.1.ww (nd.local_offset + 2)) (onePerCMC unit_one) ∧
          (pw.1.ww (nd.local_offset + 1) < onePerCMC unit_one →
            pw.2 (nd.local_offset + 1) = onePerCMC unit_one) ∧
          (onePerCMC unit_one ≤ pw.1.ww (nd.local_offset + 1) →
            pw.2 (nd.local_offset + 1) = pw.1.ww (nd.local_offset + 1)) ∧
          (pw.1.ww (nd.local_offset + 2) < onePerCMC unit_one →
            pw.2 (nd.local_offset + 2) = onePerCMC unit_one) ∧
          (onePerCMC unit_one ≤ pw.1.ww (nd.local_offset + 2) →
            pw.2 (nd.local_offset + 2) = pw.1.ww (nd.local_offset + 2))) ∧
      (∀ region ∈ pw.1.system, region.type ≠ SemiconductorRegion →
        ∀ nd ∈ region.on_processor_nodes,
          pw.2 nd.local_offset = pw.1.ww nd.local_offset) := by
  have hwf : ∀ p ∈ damping_zero_step, WellFormed p.system := by
    intro p hp
    simp only [damping_zero_step, List.mem_singleton] at hp
    subst hp
    decide
  exact ⟨hwf, positive_density_damping_densities unit_one false false damping_zero_step hwf⟩

theorem positive_density_node_no_clamp (floor : α) (xx yy : LocalArray α)
    (st : LocalArray α × Int) (nd : FVM_Node α) (h : ¬ clamp_fires floor yy st.1 nd) :
    positive_density_node floor xx yy st nd = st := by
  unfold clamp_fires at h
  push_neg at h
  obtain ⟨h0, h1, h2⟩ := h
  unfold positive_density_node
  simp [not_lt.mpr h0, not_lt.mpr h1, not_lt.mpr h2]

theorem positive_density_nodes_no_clamp (floor : α) (xx yy : LocalArray α)
    (nodes : List (FVM_Node α)) (st : LocalArray α × Int)
    (h : ∀ nd ∈ nodes, ¬ clamp_fires floor yy st.1 nd) :
    nodes.foldl (positive_density_node floor xx yy) st = st := by
  induction nodes with
  | nil => rfl
  | cons nd rest ih =>
    rw [List.foldl_cons, positive_density_node_no_clamp floor xx yy st nd
      (h nd (List.mem_cons_self _ _))]
    exact ih (fun nd1 h1 => h nd1 (List.mem_cons_of_mem _ h1))

/-- If no clamp fires at any on-processor semiconductor node of a process, its local
`changed_flag` stays 0 and its candidate array is not written. -/
theorem positive_density_local_no_clamp (floor : α) (p : ProcessArgs α)
    (h : ∀ region ∈ p.system, region.type = SemiconductorRegion →
      ∀ nd ∈ region.on_processor_nodes, ¬ clamp_fires floor p.yy p.ww nd) :
    positive_density_local floor p = (p.ww, 0) := by
  unfold positive_density_local
  rw [foldl_semiconductor_regions]
  apply positive_density_nodes_no_clamp
  intro nd hnd
  obtain ⟨region, hregion, hty, hndr⟩ := (mem_semiconductor_nodes _ nd).mp hnd
  exact h region hregion hty nd hndr

theorem wrap_int32_zero : wrap_int32 0 = 0 := by
  unfold wrap_int32
  norm_num

theorem Parallel_sum_int_zero (xs : List Int) (h : ∀ x ∈ xs, x = 0) :
    Parallel_sum_int xs = 0 := by
  unfold Parallel_sum_int
  induction xs with
  | nil => rfl
  | cons x rest ih =>
    rw [List.foldl_cons, h x (List.mem_cons_self _ _), add_zero, wrap_int32_zero]
    exact ih (fun y hy => h y (List.mem_cons_of_mem _ hy))

theorem positive_density_flag_zero_of_no_clamp (u : PhysicalUnit α)
    (procs : List (ProcessArgs α))
    (h : ∀ p ∈ procs, ∀ region ∈ p.system, region.type = SemiconductorRegion →
      ∀ nd ∈ region.on_processor_nodes, ¬ clamp_fires (onePerCMC u) p.yy p.ww nd) :
    positive_density_changed_flag u procs = 0 := by
  unfold positive_density_changed_flag
  apply Parallel_sum_int_zero
  intro x hx
  obtain ⟨p, hp, rfl⟩ := List.mem_map.mp hx
  rw [positive_density_local_no_clamp _ p (h p hp)]

/-- C8 (amended): `positive_density_damping` writes the two flags only when the globally summed
`changed_flag` is nonzero (then `changed_candidate = true`, `changed_step = false`); when it is
zero, in particular when no clamp fires at any semiconductor node of any process, both flags
keep the values the caller passed in.  Hence `changed_candidate = true` is reported only if the
caller's prior value was true or some clamp fired. -/
theorem positive_density_damping_flags (u : PhysicalUnit α) (changed_y0 changed_w0 : Bool)
    (procs : List (ProcessArgs α)) :
    (positive_density_changed_flag u procs ≠ 0 →
      (positive_density_damping u changed_y0 changed_w0 procs).changed_w = true ∧
      (positive_density_damping u changed_y0 changed_w0 procs).changed_y = false) ∧
    (positive_density_changed_flag u procs = 0 →
      (positive_density_damping u changed_y0 changed_w0 procs).changed_w = changed_w0 ∧
      (positive_density_damping u changed_y0 changed_w0 procs).changed_y = changed_y0) ∧
    ((∀ p ∈ procs, ∀ region ∈ p.system, region.type = SemiconductorRegion →
        ∀ nd ∈ region.on_processor_nodes, ¬ clamp_fires (onePerCMC u) p.yy p.ww nd) →
      positive_density_changed_flag u procs = 0) ∧
    ((positive_density_damping u changed_y0 changed_w0 procs).changed_w = true →
      changed_w0 = true ∨
      ∃ p ∈ procs, ∃ region ∈ p.system, region.type = SemiconductorRegion ∧
        ∃ nd ∈ region.on_processor_nodes, clamp_fires (onePerCMC u) p.yy p.ww nd) := by
  have hnz : positive_density_changed_flag u procs ≠ 0 →
      (positive_density_damping u changed_y0 changed_w0 procs).changed_w = true ∧
      (positive_density_damping u changed_y0 changed_w0 procs).changed_y = false := by
    intro h
    unfold positive_density_damping
    simp only [h, ne_eq, not_false_eq_true, if_true, and_self]
  have hz : positive_density_changed_flag u procs = 0 →
      (positive_density_damping u changed_y0 changed_w0 procs).changed_w = changed_w0 ∧
      (positive_density_damping u changed_y0 changed_w0 procs).changed_y = changed_y0 := by
    intro h
    unfold positive_density_damping
    simp only [h, ne_eq, not_true_eq_false, if_false, and_self]
  refine ⟨hnz, hz, positive_density_flag_zero_of_no_clamp u procs, ?_⟩
  intro hw
  by_cases hflag : positive_density_changed_flag u procs = 0
  · left
    rw [← (hz hflag).1]
    exact hw
  · right
    by_contra hno
    push_neg at hno
    exact hflag (positive_density_flag_zero_of_no_clamp u procs
      (fun p hp region hregion hty nd hnd => hno p hp region hregion hty nd hnd))

theorem damping_two_regions_no_clamp :
    ∀ p ∈ damping_two_regions, ∀ region ∈ p.system, region.type = SemiconductorRegion →
      ∀ nd ∈ region.on_processor_nodes,
        ¬ clamp_fires (onePerCMC unit_one) p.yy p.ww nd := by
  intro p hp region hregion hty nd hnd
  simp only [damping_two_regions, List.mem_singleton] at hp
  subst hp
  simp only [two_regions_process, List.mem_cons, List.mem_singleton, List.not_mem_nil,
    or_false] at hregion
  rcases hregion with hr | hr
  · subst hr
    simp only [List.mem_singleton] at hnd
    subst hnd
    norm_num [clamp_fires, two_regions_process, onePerCMC, unit_one]
  · subst hr
    simp at hty

/-- C8 counterexample: on `damping_two_regions` no clamp fires (potential step 1, densities 7
above the floor 1) and the summed flag is 0, yet with the caller's prior value
`changed_candidate = true` the routine reports `changed_candidate = true`. -/
theorem positive_density_damping_flags_counterexample :
    (∀ p ∈ damping_two_regions, ∀ region ∈ p.system, region.type = SemiconductorRegion →
      ∀ nd ∈ region.on_processor_nodes,
        ¬ clamp_fires (onePerCMC unit_one) p.yy p.ww nd) ∧
    positive_density_changed_flag unit_one damping_two_regions = 0 ∧
    (positive_density_damping unit_one false true damping_two_regions).changed_w = true := by
  have hflag := positive_density_flag_zero_of_no_clamp unit_one damping_two_regions
    damping_two_regions_no_clamp
  refine ⟨damping_two_regions_no_clamp, hflag, ?_⟩
  unfold positive_density_damping
  simp only [hflag, ne_eq, not_true_eq_false, if_false]

/-- C8 witness: the flags of `positive_density_damping` on `damping_two_regions` with prior
values `false`, `false`. -/
theorem positive_density_damping_flags_witness :
    (positive_density_changed_flag unit_one damping_two_regions ≠ 0 →
      (positive_density_damping unit_one false false damping_two_regions).changed_w = true ∧
      (positive_density_damping unit_one false false damping_two_regions).changed_y = false) ∧
    (positive_density_changed_flag unit_one damping_two_regions = 0 →
      (positive_density_damping unit_one false false damping_two_regions).changed_w = false ∧
      (positive_density_damping unit_one false false damping_two_regions).changed_y = false) ∧
    ((∀ p ∈ damping_two_regions, ∀ region ∈ p.system, region.type = SemiconductorRegion →
        ∀ nd ∈ region.on_processor_nodes,
          ¬ clamp_fires (onePerCMC unit_one) p.yy p.ww nd) →
      positive_density_changed_flag unit_one damping_two_regions = 0) ∧
    ((positive_density_damping unit_one false false damping_two_regions).changed_w = true →
      false = true ∨
      ∃ p ∈ damping_two_regions, ∃ region ∈ p.system, region.type = SemiconductorRegion ∧
        ∃ nd ∈ region.on_processor_nodes, clamp_fires (onePerCMC unit_one) p.yy p.ww nd) :=
  positive_density_damping_flags unit_one false false damping_two_regions

/-! ### `LTE_norm` -/

theorem LTE_regions_no_semiconductor (eps_r eps_a : α) (xx : LocalArray α)
    (sys : SimulationSystem α)
    (h : ∀ region ∈ sys, region.type = InsulatorRegion ∨ region.type = ElectrodeRegion ∨
      region.type = MetalRegion ∨ region.type = VacuumRegion)
    (ll : LocalArray α) (N : Int) :
    ∃ ll1, LTE_regions eps_r eps_a xx sys (ll, N) = Except.ok (ll1, N) := by
  induction sys generalizing ll with
  | nil => exact ⟨ll, rfl⟩
  | cons region rest ih =>
    have hrest := fun ll1 => ih (fun r hr => h r (List.mem_cons_of_mem _ hr)) ll1
    rcases h region (List.mem_cons_self _ _) with hty | hty | hty | hty
    · obtain ⟨ll2, h2⟩ := hrest (region.on_processor_nodes.foldl LTE_single_slot_node ll)
      exact ⟨ll2, by simp only [LTE_regions, LTE_region, hty]; exact h2⟩
    · obtain ⟨ll2, h2⟩ := hrest (region.on_processor_nodes.foldl LTE_single_slot_node ll)
      exact ⟨ll2, by simp only [LTE_regions, LTE_region, hty]; exact h2⟩
    · obtain ⟨ll2, h2⟩ := hrest (region.on_processor_nodes.foldl LTE_single_slot_node ll)
      exact ⟨ll2, by simp only [LTE_regions, LTE_region, hty]; exact h2⟩
    · obtain ⟨ll2, h2⟩ := hrest ll
      exact ⟨ll2, by simp only [LTE_regions, LTE_region, hty]; exact h2⟩

theorem all_processes_ok {β : Type} (P : β → Prop) (xs : List (Except Unit β))
    (h : ∀ x ∈ xs, ∃ b, x = Except.ok b ∧ P b) :
    ∃ bs, all_processes xs = Except.ok bs ∧ ∀ b ∈ bs, P b := by
  induction xs with
  | nil => exact ⟨[], rfl, fun b hb => absurd hb (List.not_mem_nil _)⟩
  | cons x rest ih =>
    obtain ⟨b, hx, hb⟩ := h x (List.mem_cons_self _ _)
    obtain ⟨bs, hbs, hall⟩ := ih (fun y hy => h y (List.mem_cons_of_mem _ hy))
    refine ⟨b :: bs, ?_, ?_⟩
    · rw [hx]
      simp only [all_processes, hbs]
    · intro c hc
      rcases List.mem_cons.mp hc with heq | hmem
      · rw [heq]; exact hb
      · exact hall c hmem

/-- C9: on a system whose regions are all insulator, electrode, metal or vacuum regions,
`LTE_norm` returns exactly 1, for every integration order, step sizes, tolerances and
solution/history vectors (the global count `N` is 0). -/
theorem LTE_norm_no_semiconductor (sqrt : α → α) (ss : SolverSpecify α)
    (procs : List (Mix1Process α))
    (h : ∀ p ∈ procs, ∀ region ∈ p.system,
      region.type = InsulatorRegion ∨ region.type = ElectrodeRegion ∨
      region.type = MetalRegion ∨ region.type = VacuumRegion) :
    LTE_norm sqrt ss procs = Except.ok 1 := by
  have hlocal : ∀ x ∈ procs.map (LTE_local ss),
      ∃ b, x = Except.ok b ∧ b.2 = 0 := by
    intro x hx
    obtain ⟨p, hp, rfl⟩ := List.mem_map.mp hx
    obtain ⟨ll1, h1⟩ := LTE_regions_no_semiconductor ss.TS_rtol ss.TS_atol p.x p.system
      (h p hp) (LTE_predict ss p).2 0
    exact ⟨(ll1, 0), h1, rfl⟩
  obtain ⟨locals, hok, hzero⟩ := all_processes_ok (fun b : LocalArray α × Int => b.2 = 0) _ hlocal
  have hN : Parallel_sum_int (locals.map Prod.snd) = 0 := by
    apply Parallel_sum_int_zero
    intro x hx
    obtain ⟨b, hb, rfl⟩ := List.mem_map.mp hx
    exact hzero b hb
  unfold LTE_norm
  rw [hok]
  simp only [hN, gt_iff_lt, lt_self_iff_false, if_false]

/-- C9 witness: the run with `insulator_process` as its only process has no semiconductor
region. -/
theorem LTE_norm_no_semiconductor_witness :
    (∀ p ∈ [insulator_process], ∀ region ∈ p.system,
      region.type = InsulatorRegion ∨ region.type = ElectrodeRegion ∨
      region.type = MetalRegion ∨ region.type = VacuumRegion) ∧
    LTE_norm (fun t => t) lte_settings [insulator_process] = Except.ok 1 := by
  have h : ∀ p ∈ [insulator_process], ∀ region ∈ p.system,
      region.type = InsulatorRegion ∨ region.type = ElectrodeRegion ∨
      region.type = MetalRegion ∨ region.type = VacuumRegion := by
    intro p hp region hregion
    simp only [List.mem_singleton] at hp
    subst hp
    simp only [insulator_process, List.mem_cons, List.mem_singleton, List.not_mem_nil,
      or_false] at hregion
    rcases hregion with hr | hr
    · subst hr; exact Or.inl rfl
    · subst hr; exact Or.inr (Or.inr (Or.inr rfl))
  exact ⟨h, LTE_norm_no_semiconductor (fun t => t) lte_settings [insulator_process] h⟩

theorem LTE_semiconductor_node_apply (eps_r eps_a : α) (xx ll : LocalArray α)
    (nd : FVM_Node α) (s : Nat) :
    LTE_semiconductor_node eps_r eps_a xx ll nd s =
      if s = nd.local_offset then 0
      else if s = nd.local_offset + 1 then
        ll (nd.local_offset + 1) / (eps_r * xx (nd.local_offset + 1) + eps_a)
      else if s = nd.local_offset + 2 then
        ll (nd.local_offset + 2) / (eps_r * xx (nd.local_offset + 2) + eps_a)
      else ll s := by
  unfold LTE_semiconductor_node
  by_cases h0 : s = nd.local_offset
  · subst h0; simp [Function.update]
  · by_cases h1 : s = nd.local_offset + 1
    · subst h1; simp [Function.update]
    · by_cases h2 : s = nd.local_offset + 2
      · subst h2; simp [Function.update]
      · simp [Function.update, h0, h1, h2]

theorem LTE_tagged_step_frame (eps_r eps_a : α) (xx ll : LocalArray α)
    (tn : SimulationRegionType × FVM_Node α) (s : Nat) (hs : s ∉ node_slots tn.1 tn.2) :
    LTE_tagged_step eps_r eps_a xx ll tn s = ll s := by
  obtain ⟨ty, nd⟩ := tn
  have hk : ∀ k, k < slot_count ty → s ≠ nd.local_offset + k := by
    intro k hk heq
    exact hs ((mem_node_slots ty nd s).mpr ⟨k, hk, heq⟩)
  have h0 : s ≠ nd.local_offset := by
    have := hk 0 (slot_count_pos ty)
    simpa using this
  cases ty with
  | SemiconductorRegion =>
    have h1 := hk 1 (by decide)
    have h2 := hk 2 (by decide)
    simp only [LTE_tagged_step]
    rw [LTE_semiconductor_node_apply, if_neg h0, if_neg h1, if_neg h2]
  | InsulatorRegion => simp [LTE_tagged_step, LTE_single_slot_node, Function.update, h0]
  | ElectrodeRegion => simp [LTE_tagged_step, LTE_single_slot_node, Function.update, h0]
  | MetalRegion => simp [LTE_tagged_step, LTE_single_slot_node, Function.update, h0]
  | VacuumRegion => simp [LTE_tagged_step]
  | OtherRegion tag => simp [LTE_tagged_step]

theorem LTE_tagged_step_local (eps_r eps_a : α) (xx ll ll1 : LocalArray α)
    (tn : SimulationRegionType × FVM_Node α)
    (hagree : ∀ t ∈ node_slots tn.1 tn.2, ll t = ll1 t)
    (s : Nat) (hs : s ∈ node_slots tn.1 tn.2) :
    LTE_tagged_step eps_r eps_a xx ll tn s = LTE_tagged_step eps_r eps_a xx ll1 tn s := by
  obtain ⟨ty, nd⟩ := tn
  cases ty with
  | SemiconductorRegion =>
    have a1 := hagree (nd.local_offset + 1)
      ((mem_node_slots SemiconductorRegion nd _).mpr ⟨1, by decide, rfl⟩)
    have a2 := hagree (nd.local_offset + 2)
      ((mem_node_slots SemiconductorRegion nd _).mpr ⟨2, by decide, rfl⟩)
    simp only [LTE_tagged_step]
    rw [LTE_semiconductor_node_apply, LTE_semiconductor_node_apply, a1, a2, hagree s hs]
  | InsulatorRegion =>
    simp only [LTE_tagged_step, LTE_single_slot_node, Function.update_apply, hagree s hs]
  | ElectrodeRegion =>
    simp only [LTE_tagged_step, LTE_single_slot_node, Function.update_apply, hagree s hs]
  | MetalRegion =>
    simp only [LTE_tagged_step, LTE_single_slot_node, Function.update_apply, hagree s hs]
  | VacuumRegion => simp only [LTE_tagged_step, hagree s hs]
  | OtherRegion tag => simp only [LTE_tagged_step, hagree s hs]

/-- When every region type is one of the five named ones, the region loop of `LTE_norm` runs
to its end, and its array is the result of the flat loop over all tagged nodes. -/
theorem LTE_regions_ok (eps_r eps_a : α) (xx : LocalArray α) (sys : SimulationSystem α)
    (hknown : ∀ region ∈ sys, ∀ tag, region.type ≠ OtherRegion tag)
    (ll : LocalArray α) (N : Int) :
    ∃ N1, LTE_regions eps_r eps_a xx sys (ll, N) =
      Except.ok ((tagged_nodes sys).foldl (LTE_tagged_step eps_r eps_a xx) ll, N1) := by
  induction sys generalizing ll N with
  | nil => exact ⟨N, rfl⟩
  | cons region rest ih =>
    have hrest := ih (fun r hr => hknown r (List.mem_cons_of_mem _ hr))
    have htag : tagged_nodes (region :: rest) =
        region.on_processor_nodes.map (fun nd => (region.type, nd)) ++ tagged_nodes rest := by
      unfold tagged_nodes
      rw [List.flatMap_cons]
    rw [htag, List.foldl_append, List.foldl_map]
    cases hty : region.type with
    | SemiconductorRegion =>
      obtain ⟨N1, h1⟩ := hrest
        (region.on_processor_nodes.foldl (LTE_semiconductor_node eps_r eps_a xx) ll)
        (wrap_int32 (N + 2 * (region.n_on_processor_node : Int)))
      exact ⟨N1, by simp only [LTE_regions, LTE_region, hty]; exact h1⟩
    | InsulatorRegion =>
      obtain ⟨N1, h1⟩ := hrest (region.on_processor_nodes.foldl LTE_single_slot_node ll) N
      exact ⟨N1, by simp only [LTE_regions, LTE_region, hty]; exact h1⟩
    | ElectrodeRegion =>
      obtain ⟨N1, h1⟩ := hrest (region.on_processor_nodes.foldl LTE_single_slot_node ll) N
      exact ⟨N1, by simp only [LTE_regions, LTE_region, hty]; exact h1⟩
    | MetalRegion =>
      obtain ⟨N1, h1⟩ := hrest (region.on_processor_nodes.foldl LTE_single_slot_node ll) N
      exact ⟨N1, by simp only [LTE_regions, LTE_region, hty]; exact h1⟩
    | VacuumRegion =>
      obtain ⟨N1, h1⟩ := hrest ll N
      refine ⟨N1, ?_⟩
      simp only [LTE_regions, LTE_region, hty]
      have hid : List.foldl (fun (x : LocalArray α) (y : FVM_Node α) =>
          LTE_tagged_step eps_r eps_a xx x (VacuumRegion, y)) ll region.on_processor_nodes
          = ll := by
        induction region.on_processor_nodes with
        | nil => rfl
        | cons nd nds ihn => rw [List.foldl_cons]; exact ihn
      rw [hid]
      exact h1
    | OtherRegion tag => exact absurd hty (hknown region (List.mem_cons_self _ _) tag)

/-- In a well-formed layout without unknown region type, the region loop of `LTE_norm` runs to
its end on a process, and every slot of every on-processor node holds what the loop body for
this node alone computes from the LTE vector before normalisation. -/
theorem LTE_local_slot (ss : SolverSpecify α) (p : Mix1Process α)
    (hwf : WellFormed p.system)
    (hknown : ∀ region ∈ p.system, ∀ tag, region.type ≠ OtherRegion tag) :
    ∃ st, LTE_local ss p = Except.ok st ∧
      ∀ region ∈ p.system, ∀ nd ∈ region.on_processor_nodes,
        ∀ s ∈ node_slots region.type nd,
          st.1 s = LTE_tagged_step ss.TS_rtol ss.TS_atol p.x (LTE_predict ss p).2
            (region.type, nd) s := by
  obtain ⟨N1, h1⟩ := LTE_regions_ok ss.TS_rtol ss.TS_atol p.x p.system hknown
    (LTE_predict ss p).2 0
  refine ⟨_, h1, ?_⟩
  intro region hregion nd hnd s hs
  exact foldl_local (fun ll : LocalArray α => ll) (LTE_tagged_step ss.TS_rtol ss.TS_atol p.x)
    (fun tn => node_slots tn.1 tn.2)
    (fun ll tn s hs => LTE_tagged_step_frame ss.TS_rtol ss.TS_atol p.x ll tn s hs)
    (fun ll ll1 tn hagree s hs =>
      LTE_tagged_step_local ss.TS_rtol ss.TS_atol p.x ll ll1 tn hagree s hs)
    (tagged_nodes p.system) hwf (LTE_predict ss p).2 (region.type, nd)
    ((mem_tagged_nodes _ _ _).mpr ⟨region, hregion, rfl, hnd⟩) s hs

/-- C10 (amended): in `LTE_norm`, for every on-processor semiconductor node the potential entry
of the LTE vector is set to 0 and the electron and hole entries are divided by
`rtol*value + atol`, where `value` is the accepted solution's entry in the same slot taken with
its sign (this is `rtol*|value| + atol` when `value >= 0`); for every insulator, electrode and
metal node the single slot is set to 0. -/
theorem LTE_local_normalised (ss : SolverSpecify α) (p : Mix1Process α)
    (hwf : WellFormed p.system)
    (hknown : ∀ region ∈ p.system, ∀ tag, region.type ≠ OtherRegion tag) :
    ∃ st, LTE_local ss p = Except.ok st ∧
      (∀ region ∈ p.system, region.type = SemiconductorRegion →
        ∀ nd ∈ region.on_processor_nodes,
          st.1 (nd.local_offset + 0) = 0 ∧
          st.1 (nd.local_offset + 1) = (LTE_predict ss p).2 (nd.local_offset + 1) /
            (ss.TS_rtol * p.x (nd.local_offset + 1) + ss.TS_atol) ∧
          st.1 (nd.local_offset + 2) = (LTE_predict ss p).2 (nd.local_offset + 2) /
            (ss.TS_rtol * p.x (nd.local_offset + 2) + ss.TS_atol) ∧
          (0 ≤ p.x (nd.local_offset + 1) →
            st.1 (nd.local_offset + 1) = (LTE_predict ss p).2 (nd.local_offset + 1) /
              (ss.TS_rtol * |p.x (nd.local_offset + 1)| + ss.TS_atol)) ∧
          (0 ≤ p.x (nd.local_offset + 2) →
            st.1 (nd.local_offset + 2) = (LTE_predict ss p).2 (nd.local_offset + 2) /
              (ss.TS_rtol * |p.x (nd.local_offset + 2)| + ss.TS_atol))) ∧
      (∀ region ∈ p.system,
        region.type = InsulatorRegion ∨ region.type = ElectrodeRegion ∨
          region.type = MetalRegion →
        ∀ nd ∈ region.on_processor_nodes, st.1 nd.local_offset = 0) := by
  obtain ⟨st, hok, hslot⟩ := LTE_local_slot ss p hwf hknown
  refine ⟨st, hok, ?_, ?_⟩
  · intro region hregion hty nd hnd
    have hs : ∀ k, k < 3 → st.1 (nd.local_offset + k) =
        LTE_semiconductor_node ss.TS_rtol ss.TS_atol p.x (LTE_predict ss p).2 nd
          (nd.local_offset + k) := by
      intro k hk
      have h := hslot region hregion nd hnd (nd.local_offset + k)
        ((mem_node_slots _ _ _).mpr ⟨k, by rw [hty]; exact hk, rfl⟩)
      rw [h, hty]
      rfl
    have h0 : st.1 (nd.local_offset + 0) = 0 := by
      rw [hs 0 (by norm_num), LTE_semiconductor_node_apply, if_pos (by omega)]
    have h1 : st.1 (nd.local_offset + 1) = (LTE_predict ss p).2 (nd.local_offset + 1) /
        (ss.TS_rtol * p.x (nd.local_offset + 1) + ss.TS_atol) := by
      rw [hs 1 (by norm_num), LTE_semiconductor_node_apply, if_neg (by omega), if_pos rfl]
    have h2 : st.1 (nd.local_offset + 2) = (LTE_predict ss p).2 (nd.local_offset + 2) /
        (ss.TS_rtol * p.x (nd.local_offset + 2) + ss.TS_atol) := by
      rw [hs 2 (by norm_num), LTE_semiconductor_node_apply, if_neg (by omega),
        if_neg (by omega), if_pos rfl]
    refine ⟨h0, h1, h2, ?_, ?_⟩
    · intro hx; rw [abs_of_nonneg hx]; exact h1
    · intro hx; rw [abs_of_nonneg hx]; exact h2
  · intro region hregion hty nd hnd
    have hmem : nd.local_offset ∈ node_slots region.type nd :=
      (mem_node_slots _ _ _).mpr ⟨0, slot_count_pos _, rfl⟩
    rw [hslot region hregion nd hnd nd.local_offset hmem]
    rcases hty with hty | hty | hty <;>
    simp [hty, LTE_tagged_step, LTE_single_slot_node]

theorem negative_density_process_known :
    ∀ region ∈ negative_density_process.system, ∀ tag, region.type ≠ OtherRegion tag := by
  intro region hregion tag
  simp only [negative_density_process, List.mem_cons, List.mem_singleton, List.not_mem_nil,
    or_false] at hregion
  rcases hregion with hr | hr <;> subst hr <;> simp

theorem negative_density_process_wf : WellFormed negative_density_process.system := by
  decide

/-- C10 witness: `negative_density_process` is well formed and has only known region types. -/
theorem LTE_local_normalised_witness :
    WellFormed negative_density_process.system ∧
    (∀ region ∈ negative_density_process.system, ∀ tag, region.type ≠ OtherRegion tag) ∧
    ∃ st, LTE_local lte_settings negative_density_process = Except.ok st ∧
      (∀ region ∈ negative_density_process.system, region.type = SemiconductorRegion →
        ∀ nd ∈ region.on_processor_nodes,
          st.1 (nd.local_offset + 0) = 0 ∧
          st.1 (nd.local_offset + 1) =
            (LTE_predict lte_settings negative_density_process).2 (nd.local_offset + 1) /
            (lte_settings.TS_rtol * negative_density_process.x (nd.local_offset + 1) +
              lte_settings.TS_atol) ∧
          st.1 (nd.local_offset + 2) =
            (LTE_predict lte_settings negative_density_process).2 (nd.local_offset + 2) /
            (lte_settings.TS_rtol * negative_density_process.x (nd.local_offset + 2) +
              lte_settings.TS_atol) ∧
          (0 ≤ negative_density_process.x (nd.local_offset + 1) →
            st.1 (nd.local_offset + 1) =
              (LTE_predict lte_settings negative_density_process).2 (nd.local_offset + 1) /
              (lte_settings.TS_rtol * |negative_density_process.x (nd.local_offset + 1)| +
                lte_settings.TS_atol)) ∧
          (0 ≤ negative_density_process.x (nd.local_offset + 2) →
            st.1 (nd.local_offset + 2) =
              (LTE_predict lte_settings negative_density_process).2 (nd.local_offset + 2) /
              (lte_settings.TS_rtol * |negative_density_process.x (nd.local_offset + 2)| +
                lte_settings.TS_atol))) ∧
      (∀ region ∈ negative_density_process.system,
        region.type = InsulatorRegion ∨ region.type = ElectrodeRegion ∨
          region.type = MetalRegion →
        ∀ nd ∈ region.on_processor_nodes, st.1 nd.local_offset = 0) :=
  ⟨negative_density_process_wf, negative_density_process_known,
    LTE_local_normalised lte_settings negative_density_process negative_density_process_wf
      negative_density_process_known⟩

/-- C10 counterexample: on `negative_density_process` with `rtol = 1`, `atol = 3` the accepted
solution is -1 in the electron slot 1 and the LTE entry -1/2; the code leaves
`(-1/2)/(1*(-1)+3) = -1/4` there, not `(-1/2)/(1*|-1|+3) = -1/8`. -/
theorem LTE_local_normalised_counterexample :
    ∃ st, LTE_local lte_settings negative_density_process = Except.ok st ∧
      st.1 1 = -1 / 4 ∧
      (LTE_predict lte_settings negative_density_process).2 1 /
        (lte_settings.TS_rtol * |negative_density_process.x 1| + lte_settings.TS_atol)
        = -1 / 8 ∧
      st.1 1 ≠ (LTE_predict lte_settings negative_density_process).2 1 /
        (lte_settings.TS_rtol * |negative_density_process.x 1| + lte_settings.TS_atol) := by
  obtain ⟨st, hok, hslot⟩ := LTE_local_slot lte_settings negative_density_process
    negative_density_process_wf negative_density_process_known
  have h1 := hslot
    { type := SemiconductorRegion,
      on_processor_nodes :=
        [{ local_offset := 0, node_data := { n := 1, p := 1, n_last := 1, p_last := 1 } }] }
    (by simp [negative_density_process])
    { local_offset := 0, node_data := { n := 1, p := 1, n_last := 1, p_last := 1 } }
    (by simp) 1 (by decide)
  have hpred : (LTE_predict lte_settings negative_density_process).2 1 = -1 / 2 := by
    norm_num [LTE_predict, VecAXPY, VecZeroEntries, lte_settings, negative_density_process]
  have hval : st.1 1 = -1 / 4 := by
    rw [h1]
    simp only [LTE_tagged_step]
    rw [LTE_semiconductor_node_apply]
    norm_num [hpred]
    norm_num [lte_settings, negative_density_process]
  have hclaim : (LTE_predict lte_settings negative_density_process).2 1 /
      (lte_settings.TS_rtol * |negative_density_process.x 1| + lte_settings.TS_atol)
      = -1 / 8 := by
    rw [hpred]
    norm_num [lte_settings, negative_density_process]
  refine ⟨st, hok, hval, hclaim, ?_⟩
  rw [hval, hclaim]
  norm_num

/-! ### `error_norm` -/

theorem error_norm_nodes_ok (xx ff : LocalArray α) (ty : SimulationRegionType)
    (hty : ∀ tag, ty ≠ OtherRegion tag) (nodes : List (FVM_Node α)) (acc : NormBuffer α) :
    ∃ acc1, error_norm_nodes xx ff ty nodes acc = Except.ok acc1 ∧
      acc1.potential_norm = acc.potential_norm +
        (if is_non_vacuum ty then (nodes.map (fun nd => xx (nd.local_offset + 0) ^ 2)).sum
         else 0) ∧
      acc1.electron_norm = acc.electron_norm +
        (if is_semiconductor ty then (nodes.map (fun nd => xx (nd.local_offset + 1) ^ 2)).sum
         else 0) ∧
      acc1.hole_norm = acc.hole_norm +
        (if is_semiconductor ty then (nodes.map (fun nd => xx (nd.local_offset + 2) ^ 2)).sum
         else 0) ∧
      acc1.poisson_norm = acc.poisson_norm +
        (if is_non_vacuum ty then (nodes.map (fun nd => ff (nd.local_offset + 0) ^ 2)).sum
         else 0) ∧
      acc1.elec_continuity_norm = acc.elec_continuity_norm +
        (if is_semiconductor ty then (nodes.map (fun nd => ff (nd.local_offset + 1) ^ 2)).sum
         else 0) ∧
      acc1.hole_continuity_norm = acc.hole_continuity_norm +
        (if is_semiconductor ty then (nodes.map (fun nd => ff (nd.local_offset + 2) ^ 2)).sum
         else 0) := by
  induction nodes generalizing acc with
  | nil =>
    refine ⟨acc, rfl, ?_, ?_, ?_, ?_, ?_, ?_⟩ <;> simp
  | cons nd rest ih =>
    cases ty with
    | OtherRegion tag => exact absurd rfl (hty tag)
    | SemiconductorRegion =>
      obtain ⟨acc1, h, h1, h2, h3, h4, h5, h6⟩ := ih
        { potential_norm := acc.potential_norm + xx (nd.local_offset + 0) * xx (nd.local_offset + 0),
          electron_norm := acc.electron_norm + xx (nd.local_offset + 1) * xx (nd.local_offset + 1),
          hole_norm := acc.hole_norm + xx (nd.local_offset + 2) * xx (nd.local_offset + 2),
          poisson_norm := acc.poisson_norm + ff (nd.local_offset + 0) * ff (nd.local_offset + 0),
          elec_continuity_norm :=
            acc.elec_continuity_norm + ff (nd.local_offset + 1) * ff (nd.local_offset + 1),
          hole_continuity_norm :=
            acc.hole_continuity_norm + ff (nd.local_offset + 2) * ff (nd.local_offset + 2) }
      refine ⟨acc1, h, ?_, ?_, ?_, ?_, ?_, ?_⟩
      · rw [h1]; simp only [is_non_vacuum, if_true, List.map_cons, List.sum_cons]; ring
      · rw [h2]; simp only [is_semiconductor, if_true, List.map_cons, List.sum_cons]; ring
      · rw [h3]; simp only [is_semiconductor, if_true, List.map_cons, List.sum_cons]; ring
      · rw [h4]; simp only [is_non_vacuum, if_true, List.map_cons, List.sum_cons]; ring
      · rw [h5]; simp only [is_semiconductor, if_true, List.map_cons, List.sum_cons]; ring
      · rw [h6]; simp only [is_semiconductor, if_true, List.map_cons, List.sum_cons]; ring
    | InsulatorRegion =>
      obtain ⟨acc1, h, h1, h2, h3, h4, h5, h6⟩ := ih
        { acc with
          potential_norm := acc.potential_norm + xx nd.local_offset * xx nd.local_offset,
          poisson_norm := acc.poisson_norm + ff nd.local_offset * ff nd.local_offset }
      refine ⟨acc1, h, ?_, ?_, ?_, ?_, ?_, ?_⟩
      · rw [h1]; simp only [is_non_vacuum, if_true, List.map_cons, List.sum_cons,
          Nat.add_zero]; ring
      · rw [h2]; simp [is_semiconductor]
      · rw [h3]; simp [is_semiconductor]
      · rw [h4]; simp only [is_non_vacuum, if_true, List.map_cons, List.sum_cons,
          Nat.add_zero]; ring
      · rw [h5]; simp [is_semiconductor]
      · rw [h6]; simp [is_semiconductor]
    | ElectrodeRegion =>
      obtain ⟨acc1, h, h1, h2, h3, h4, h5, h6⟩ := ih
        { acc with
          potential_norm := acc.potential_norm + xx nd.local_offset * xx nd.local_offset,
          poisson_norm := acc.poisson_norm + ff nd.local_offset * ff nd.local_offset }
      refine ⟨acc1, h, ?_, ?_, ?_, ?_, ?_, ?_⟩
      · rw [h1]; simp only [is_non_vacuum, if_true, List.map_cons, List.sum_cons,
          Nat.add_zero]; ring
      · rw [h2]; simp [is_semiconductor]
      · rw [h3]; simp [is_semiconductor]
      · rw [h4]; simp only [is_non_vacuum, if_true, List.map_cons, List.sum_cons,
          Nat.add_zero]; ring
      · rw [h5]; simp [is_semiconductor]
      · rw [h6]; simp [is_semiconductor]
    | MetalRegion =>
      obtain ⟨acc1, h, h1, h2, h3, h4, h5, h6⟩ := ih
        { acc with
          potential_norm := acc.potential_norm + xx nd.local_offset * xx nd.local_offset,
          poisson_norm := acc.poisson_norm + ff nd.local_offset * ff nd.local_offset }
      refine ⟨acc1, h, ?_, ?_, ?_, ?_, ?_, ?_⟩
      · rw [h1]; simp only [is_non_vacuum, if_true, List.map_cons, List.sum_cons,
          Nat.add_zero]; ring
      · rw [h2]; simp [is_semiconductor]
      · rw [h3]; simp [is_semiconductor]
      · rw [h4]; simp only [is_non_vacuum, if_true, List.map_cons, List.sum_cons,
          Nat.add_zero]; ring
      · rw [h5]; simp [is_semiconductor]
      · rw [h6]; simp [is_semiconductor]
    | VacuumRegion =>
      obtain ⟨acc1, h, h1, h2, h3, h4, h5, h6⟩ := ih acc
      refine ⟨acc1, h, ?_, ?_, ?_, ?_, ?_, ?_⟩
      · rw [h1]; simp [is_non_vacuum]
      · rw [h2]; simp [is_semiconductor]
      · rw [h3]; simp [is_semiconductor]
      · rw [h4]; simp [is_non_vacuum]
      · rw [h5]; simp [is_semiconductor]
      · rw [h6]; simp [is_semiconductor]

theorem error_norm_regions_ok (xx ff : LocalArray α) (sys : SimulationSystem α)
    (hknown : ∀ region ∈ sys, region.on_processor_nodes ≠ [] →
      ∀ tag, region.type ≠ OtherRegion tag) (acc : NormBuffer α) :
    ∃ acc1, error_norm_regions xx ff sys acc = Except.ok acc1 ∧
      acc1.potential_norm = acc.potential_norm + node_square_sum is_non_vacuum xx 0 sys ∧
      acc1.electron_norm = acc.electron_norm + node_square_sum is_semiconductor xx 1 sys ∧
      acc1.hole_norm = acc.hole_norm + node_square_sum is_semiconductor xx 2 sys ∧
      acc1.poisson_norm = acc.poisson_norm + node_square_sum is_non_vacuum ff 0 sys ∧
      acc1.elec_continuity_norm =
        acc.elec_continuity_norm + node_square_sum is_semiconductor ff 1 sys ∧
      acc1.hole_continuity_norm =
        acc.hole_continuity_norm + node_square_sum is_semiconductor ff 2 sys := by
  induction sys generalizing acc with
  | nil =>
    refine ⟨acc, rfl, ?_, ?_, ?_, ?_, ?_, ?_⟩ <;> simp [node_square_sum]
  | cons region rest ih =>
    have hnodes : ∃ acc1,
        error_norm_nodes xx ff region.type region.on_processor_nodes acc = Except.ok acc1 ∧
        acc1.potential_norm = acc.potential_norm +
          (if is_non_vacuum region.type then
            (region.on_processor_nodes.map (fun nd => xx (nd.local_offset + 0) ^ 2)).sum
           else 0) ∧
        acc1.electron_norm = acc.electron_norm +
          (if is_semiconductor region.type then
            (region.on_processor_nodes.map (fun nd => xx (nd.local_offset + 1) ^ 2)).sum
           else 0) ∧
        acc1.hole_norm = acc.hole_norm +
          (if is_semiconductor region.type then
            (region.on_processor_nodes.map (fun nd => xx (nd.local_offset + 2) ^ 2)).sum
           else 0) ∧
        acc1.poisson_norm = acc.poisson_norm +
          (if is_non_vacuum region.type then
            (region.on_processor_nodes.map (fun nd => ff (nd.local_offset + 0) ^ 2)).sum
           else 0) ∧
        acc1.elec_continuity_norm = acc.elec_continuity_norm +
          (if is_semiconductor region.type then
            (region.on_processor_nodes.map (fun nd => ff (nd.local_offset + 1) ^ 2)).sum
           else 0) ∧
        acc1.hole_continuity_norm = acc.hole_continuity_norm +
          (if is_semiconductor region.type then
            (region.on_processor_nodes.map (fun nd => ff (nd.local_offset + 2) ^ 2)).sum
           else 0) := by
      by_cases hempty : region.on_processor_nodes = []
      · rw [hempty]
        refine ⟨acc, rfl, ?_, ?_, ?_, ?_, ?_, ?_⟩ <;> simp
      · exact error_norm_nodes_ok xx ff region.type
          (hknown region (List.mem_cons_self _ _) hempty) region.on_processor_nodes acc
    obtain ⟨acc1, h, h1, h2, h3, h4, h5, h6⟩ := hnodes
    obtain ⟨acc2, g, g1, g2, g3, g4, g5, g6⟩ :=
      ih (fun r hr => hknown r (List.mem_cons_of_mem _ hr)) acc1
    refine ⟨acc2, ?_, ?_, ?_, ?_, ?_, ?_, ?_⟩
    · simp only [error_norm_regions, h]
      exact g
    · rw [g1, h1]; simp only [node_square_sum, List.map_cons, List.sum_cons]; ring
    · rw [g2, h2]; simp only [node_square_sum, List.map_cons, List.sum_cons]; ring
    · rw [g3, h3]; simp only [node_square_sum, List.map_cons, List.sum_cons]; ring
    · rw [g4, h4]; simp only [node_square_sum, List.map_cons, List.sum_cons]; ring
    · rw [g5, h5]; simp only [node_square_sum, List.map_cons, List.sum_cons]; ring
    · rw [g6, h6]; simp only [node_square_sum, List.map_cons, List.sum_cons]; ring

/-- The local partial sums of a process in which every region with an on-processor node has a
known type. -/
theorem error_norm_local_ok (p : ErrorNormProcess α)
    (hknown : ∀ region ∈ p.system, region.on_processor_nodes ≠ [] →
      ∀ tag, region.type ≠ OtherRegion tag) :
    ∃ b, error_norm_local p = Except.ok b ∧
      b.potential_norm = node_square_sum is_non_vacuum p.lx 0 p.system ∧
      b.electron_norm = node_square_sum is_semiconductor p.lx 1 p.system ∧
      b.hole_norm = node_square_sum is_semiconductor p.lx 2 p.system ∧
      b.poisson_norm = node_square_sum is_non_vacuum (fun i => p.f i / p.L i) 0 p.system ∧
      b.elec_continuity_norm =
        node_square_sum is_semiconductor (fun i => p.f i / p.L i) 1 p.system ∧
      b.hole_continuity_norm =
        node_square_sum is_semiconductor (fun i => p.f i / p.L i) 2 p.system := by
  obtain ⟨b, h, h1, h2, h3, h4, h5, h6⟩ :=
    error_norm_regions_ok p.lx (VecPointwiseDivide p.f p.L) p.system hknown
      { potential_norm := 0, electron_norm := 0, hole_norm := 0,
        poisson_norm := 0, elec_continuity_norm := 0, hole_continuity_norm := 0 }
  refine ⟨b, h, ?_, ?_, ?_, ?_, ?_, ?_⟩
  · rw [h1]; exact zero_add _
  · rw [h2]; exact zero_add _
  · rw [h3]; exact zero_add _
  · rw [h4]; exact zero_add _
  · rw [h5]; exact zero_add _
  · rw [h6]; exact zero_add _

/-- On a list of processes that all run to the end, `all_processes` returns the list of their
results, in order. -/
theorem all_processes_map_ok {β γ : Type} (f : β → Except Unit γ) (g : β → γ) (l : List β)
    (h : ∀ b ∈ l, f b = Except.ok (g b)) :
    all_processes (l.map f) = Except.ok (l.map g) := by
  induction l with
  | nil => rfl
  | cons b rest ih =>
    rw [List.map_cons, h b (List.mem_cons_self _ _)]
    simp only [all_processes, ih (fun c hc => h c (List.mem_cons_of_mem _ hc)), List.map_cons]

theorem error_norm_local_eq (p : ErrorNormProcess α)
    (hknown : ∀ region ∈ p.system, region.on_processor_nodes ≠ [] →
      ∀ tag, region.type ≠ OtherRegion tag) :
    error_norm_local p = Except.ok
      { potential_norm := node_square_sum is_non_vacuum p.lx 0 p.system,
        electron_norm := node_square_sum is_semiconductor p.lx 1 p.system,
        hole_norm := node_square_sum is_semiconductor p.lx 2 p.system,
        poisson_norm := node_square_sum is_non_vacuum (fun i => p.f i / p.L i) 0 p.system,
        elec_continuity_norm :=
          node_square_sum is_semiconductor (fun i => p.f i / p.L i) 1 p.system,
        hole_continuity_norm :=
          node_square_sum is_semiconductor (fun i => p.f i / p.L i) 2 p.system } := by
  obtain ⟨b, h, h1, h2, h3, h4, h5, h6⟩ := error_norm_local_ok p hknown
  rw [h]
  cases b
  simp only at h1 h2 h3 h4 h5 h6
  rw [h1, h2, h3, h4, h5, h6]

/-- The outcome of `error_norm` when no process meets a node of a region of unknown type. -/
theorem error_norm_ok (sqrt : α → α) (u : PhysicalUnit α) (ckt_residual_norm2 : α)
    (procs : List (ErrorNormProcess α))
    (hknown : ∀ p ∈ procs, ∀ region ∈ p.system, region.on_processor_nodes ≠ [] →
      ∀ tag, region.type ≠ OtherRegion tag) :
    ∃ out, error_norm sqrt u ckt_residual_norm2 procs = Except.ok out ∧
      out.f = procs.map (fun p => VecPointwiseMult (VecPointwiseDivide p.f p.L) p.L) ∧
      out.norms.potential_norm = sqrt (global_solution_sum is_non_vacuum 0 procs) ∧
      out.norms.electron_norm = sqrt (global_solution_sum is_semiconductor 1 procs) ∧
      out.norms.hole_norm = sqrt (global_solution_sum is_semiconductor 2 procs) ∧
      out.norms.poisson_norm = sqrt (global_residual_sum is_non_vacuum 0 procs) ∧
      out.norms.elec_continuity_norm = sqrt (global_residual_sum is_semiconductor 1 procs) ∧
      out.norms.hole_continuity_norm = sqrt (global_residual_sum is_semiconductor 2 procs) := by
  have hall := all_processes_map_ok error_norm_local
    (fun p : ErrorNormProcess α =>
      ({ potential_norm := node_square_sum is_non_vacuum p.lx 0 p.system,
         electron_norm := node_square_sum is_semiconductor p.lx 1 p.system,
         hole_norm := node_square_sum is_semiconductor p.lx 2 p.system,
         poisson_norm := node_square_sum is_non_vacuum (fun i => p.f i / p.L i) 0 p.system,
         elec_continuity_norm :=
           node_square_sum is_semiconductor (fun i => p.f i / p.L i) 1 p.system,
         hole_continuity_norm :=
           node_square_sum is_semiconductor (fun i => p.f i / p.L i) 2 p.system } :
        NormBuffer α))
    procs (fun p hp => error_norm_local_eq p (hknown p hp))
  unfold error_norm
  rw [hall]
  refine ⟨_, rfl, rfl, ?_, ?_, ?_, ?_, ?_, ?_⟩ <;>
  simp only [Parallel_sum_scalar, List.map_map, global_solution_sum, global_residual_sum] <;>
  rfl

/-- C11: when `error_norm` returns (no process meets a node of a region of unknown type), each
solution norm is the square root of the global sum of the squared solution entries, and each
residual norm the square root of the global sum of the squared entries of `u = f / L`:
potential and Poisson norms over the semiconductor, insulator, electrode and metal nodes (slot
`offset`), electron/hole and continuity norms over the semiconductor nodes (slots `offset+1`,
`offset+2`); vacuum nodes are selected by no sum, and every norm is non-negative. -/
theorem error_norm_norms (sqrt : α → α) (hsqrt : ∀ t, 0 ≤ sqrt t) (u : PhysicalUnit α)
    (ckt_residual_norm2 : α) (procs : List (ErrorNormProcess α))
    (hknown : ∀ p ∈ procs, ∀ region ∈ p.system, region.on_processor_nodes ≠ [] →
      ∀ tag, region.type ≠ OtherRegion tag) :
    ∃ out, error_norm sqrt u ckt_residual_norm2 procs = Except.ok out ∧
      out.norms.potential_norm = sqrt (global_solution_sum is_non_vacuum 0 procs) ∧
      out.norms.electron_norm = sqrt (global_solution_sum is_semiconductor 1 procs) ∧
      out.norms.hole_norm = sqrt (global_solution_sum is_semiconductor 2 procs) ∧
      out.norms.poisson_norm = sqrt (global_residual_sum is_non_vacuum 0 procs) ∧
      out.norms.elec_continuity_norm = sqrt (global_residual_sum is_semiconductor 1 procs) ∧
      out.norms.hole_continuity_norm = sqrt (global_residual_sum is_semiconductor 2 procs) ∧
      is_non_vacuum VacuumRegion = false ∧ is_semiconductor VacuumRegion = false ∧
      0 ≤ out.norms.potential_norm ∧ 0 ≤ out.norms.electron_norm ∧
      0 ≤ out.norms.hole_norm ∧ 0 ≤ out.norms.poisson_norm ∧
      0 ≤ out.norms.elec_continuity_norm ∧ 0 ≤ out.norms.hole_continuity_norm := by
  obtain ⟨out, hok, _, h1, h2, h3, h4, h5, h6⟩ :=
    error_norm_ok sqrt u ckt_residual_norm2 procs hknown
  refine ⟨out, hok, h1, h2, h3, h4, h5, h6, rfl, rfl, ?_, ?_, ?_, ?_, ?_, ?_⟩
  · rw [h1]; exact hsqrt _
  · rw [h2]; exact hsqrt _
  · rw [h3]; exact hsqrt _
  · rw [h4]; exact hsqrt _
  · rw [h5]; exact hsqrt _
  · rw [h6]; exact hsqrt _

theorem norm_process_known (β : Type) [LinearOrderedField β] :
    ∀ p ∈ [norm_process β], ∀ region ∈ p.system, region.on_processor_nodes ≠ [] →
      ∀ tag, region.type ≠ OtherRegion tag := by
  intro p hp region hregion _ tag
  simp only [List.mem_singleton] at hp
  subst hp
  simp only [norm_process, List.mem_cons, List.mem_singleton, List.not_mem_nil,
    or_false] at hregion
  rcases hregion with hr | hr | hr <;> subst hr <;> simp

/-- C11 witness: over the reals with the real square root, on the run with `norm_process` as
its only process. -/
theorem error_norm_norms_witness :
    (∀ t : ℝ, 0 ≤ Real.sqrt t) ∧
    (∀ p ∈ [norm_process ℝ], ∀ region ∈ p.system, region.on_processor_nodes ≠ [] →
      ∀ tag, region.type ≠ OtherRegion tag) ∧
    ∃ out, error_norm Real.sqrt (unit_ones ℝ) 0 [norm_process ℝ] = Except.ok out ∧
      out.norms.potential_norm =
        Real.sqrt (global_solution_sum is_non_vacuum 0 [norm_process ℝ]) ∧
      out.norms.electron_norm =
        Real.sqrt (global_solution_sum is_semiconductor 1 [norm_process ℝ]) ∧
      out.norms.hole_norm =
        Real.sqrt (global_solution_sum is_semiconductor 2 [norm_process ℝ]) ∧
      out.norms.poisson_norm =
        Real.sqrt (global_residual_sum is_non_vacuum 0 [norm_process ℝ]) ∧
      out.norms.elec_continuity_norm =
        Real.sqrt (global_residual_sum is_semiconductor 1 [norm_process ℝ]) ∧
      out.norms.hole_continuity_norm =
        Real.sqrt (global_residual_sum is_semiconductor 2 [norm_process ℝ]) ∧
      is_non_vacuum VacuumRegion = false ∧ is_semiconductor VacuumRegion = false ∧
      0 ≤ out.norms.potential_norm ∧ 0 ≤ out.norms.electron_norm ∧
      0 ≤ out.norms.hole_norm ∧ 0 ≤ out.norms.poisson_norm ∧
      0 ≤ out.norms.elec_continuity_norm ∧ 0 ≤ out.norms.hole_continuity_norm :=
  ⟨Real.sqrt_nonneg, norm_process_known ℝ,
    error_norm_norms Real.sqrt Real.sqrt_nonneg (unit_ones ℝ) 0 [norm_process ℝ]
      (norm_process_known ℝ)⟩

/-! ### Scaling of residual and Jacobian -/

theorem unscale_scale (r L : LocalArray α) (hL : ∀ i, 0 < L i) :
    VecPointwiseDivide (VecPointwiseMult r L) L = r := by
  funext i
  unfold VecPointwiseDivide VecPointwiseMult
  exact mul_div_cancel_right₀ (r i) (ne_of_gt (hL i))

theorem scale_unscale (f L : LocalArray α) (hL : ∀ i, 0 < L i) :
    VecPointwiseMult (VecPointwiseDivide f L) L = f := by
  funext i
  unfold VecPointwiseDivide VecPointwiseMult
  exact div_mul_cancel₀ (f i) (ne_of_gt (hL i))

/-- C12: over exact arithmetic and for a scaling vector `L` with positive entries, dividing
entrywise by `L` (start of `error_norm`) the residual that `build_petsc_sens_residual` has
multiplied entrywise by `L` gives back the assembled residual, and the divide-then-multiply of
`error_norm` leaves the residual `f` of every process as it was on entry (whenever `error_norm`
returns, i.e. no process meets a node of a region of unknown type). -/
theorem residual_scaling_roundtrip
    (effect : LocalArray α → CollaboratorCall → ResidualData α → ResidualData α)
    (TimeDependent : Bool) (sys : SystemShape) (L x : LocalArray α) (hL : ∀ i, 0 < L i)
    (sqrt : α → α) (u : PhysicalUnit α) (ckt_residual_norm2 : α)
    (procs : List (ErrorNormProcess α)) (hLp : ∀ p ∈ procs, ∀ i, 0 < p.L i)
    (hknown : ∀ p ∈ procs, ∀ region ∈ p.system, region.on_processor_nodes ≠ [] →
      ∀ tag, region.type ≠ OtherRegion tag) :
    (∀ r : LocalArray α, VecPointwiseDivide (VecPointwiseMult r L) L = r) ∧
    VecPointwiseDivide (build_petsc_sens_residual effect TimeDependent sys L x).data.r L =
      (assemble_residual effect TimeDependent sys x).data.r ∧
    ∃ out, error_norm sqrt u ckt_residual_norm2 procs = Except.ok out ∧
      out.f = procs.map (fun p => p.f) := by
  refine ⟨fun r => unscale_scale r L hL, ?_, ?_⟩
  · exact unscale_scale _ L hL
  · obtain ⟨out, hok, hf, _⟩ := error_norm_ok sqrt u ckt_residual_norm2 procs hknown
    refine ⟨out, hok, ?_⟩
    rw [hf]
    exact List.map_congr_left (fun p hp => scale_unscale p.f p.L (hLp p hp))

/-- C12 witness: the residual assembled with `quadratic_function` on `one_region_shape`, scaled
by `L = 2`, and `error_norm` on `norm_process` (whose `L` is 2). -/
theorem residual_scaling_roundtrip_witness :
    (∀ i : Nat, (0 : ℚ) < (fun _ => 2 : LocalArray ℚ) i) ∧
    (∀ p ∈ [norm_process ℚ], ∀ i, 0 < p.L i) ∧
    ((∀ r : LocalArray ℚ, VecPointwiseDivide (VecPointwiseMult r (fun _ => 2)) (fun _ => 2) = r) ∧
    VecPointwiseDivide (build_petsc_sens_residual (quadratic_function ℚ) false one_region_shape
        (fun _ => 2) (fun _ => 3)).data.r (fun _ => 2) =
      (assemble_residual (quadratic_function ℚ) false one_region_shape (fun _ => 3)).data.r ∧
    ∃ out, error_norm (fun t => t) (unit_ones ℚ) 0 [norm_process ℚ] = Except.ok out ∧
      out.f = [norm_process ℚ].map (fun p => p.f)) := by
  have hL : ∀ i : Nat, (0 : ℚ) < (fun _ => 2 : LocalArray ℚ) i := by
    intro i; norm_num
  have hLp : ∀ p ∈ [norm_process ℚ], ∀ i, 0 < p.L i := by
    intro p hp i
    simp only [List.mem_singleton] at hp
    subst hp
    norm_num [norm_process]
  exact ⟨hL, hLp, residual_scaling_roundtrip (quadratic_function ℚ) false one_region_shape
    (fun _ => 2) (fun _ => 3) hL (fun t => t) (unit_ones ℚ) 0 [norm_process ℚ] hLp
    (norm_process_known ℚ)⟩

theorem build_petsc_sens_residual_apply
    (effect : LocalArray α → CollaboratorCall → ResidualData α → ResidualData α)
    (TimeDependent : Bool) (sys : SystemShape) (L x : LocalArray α) (i : Nat) :
    (build_petsc_sens_residual effect TimeDependent sys L x).data.r i =
      L i * (assemble_residual effect TimeDependent sys x).data.r i := by
  unfold build_petsc_sens_residual VecPointwiseMult
  exact mul_comm _ _

theorem build_petsc_sens_jacobian_apply
    (effect : LocalArray α → CollaboratorCall → JacobianData α → JacobianData α)
    (TimeDependent : Bool) (sys : SystemShape) (L : LocalArray α) (first_assemble : Bool)
    (x : LocalArray α) (i j : Nat) :
    (build_petsc_sens_jacobian effect TimeDependent sys L first_assemble x).J i j =
      L i * (assemble_jacobian effect TimeDependent sys first_assemble x).data.J i j := by
  unfold build_petsc_sens_jacobian MatDiagonalScale
  exact mul_one _

/-- C13: `build_petsc_sens_residual` returns `r'[i] = L[i]*r[i]` and
`build_petsc_sens_jacobian` returns `J'[i][j] = L[i]*J[i][j]` (rows scaled by the same `L`,
columns not scaled), where `r` and `J` are the residual and the matrix assembled from the
collaborators; hence, over the reals, if every `J[i][j]` is the partial derivative of `r[i]`
with respect to `x[j]`, every `J'[i][j]` is the partial derivative of `r'[i]`. -/
theorem scaled_jacobian_of_scaled_residual
    (effR : LocalArray ℝ → CollaboratorCall → ResidualData ℝ → ResidualData ℝ)
    (effJ : LocalArray ℝ → CollaboratorCall → JacobianData ℝ → JacobianData ℝ)
    (TimeDependent : Bool) (sys : SystemShape) (L : LocalArray ℝ) (first_assemble : Bool)
    (hJ : ∀ (x : LocalArray ℝ) (i j : Nat),
      HasDerivAt
        (fun t => (assemble_residual effR TimeDependent sys (Function.update x j t)).data.r i)
        ((assemble_jacobian effJ TimeDependent sys first_assemble x).data.J i j) (x j)) :
    (∀ (x : LocalArray ℝ) (i : Nat),
      (build_petsc_sens_residual effR TimeDependent sys L x).data.r i =
        L i * (assemble_residual effR TimeDependent sys x).data.r i) ∧
    (∀ (x : LocalArray ℝ) (i j : Nat),
      (build_petsc_sens_jacobian effJ TimeDependent sys L first_assemble x).J i j =
        L i * (assemble_jacobian effJ TimeDependent sys first_assemble x).data.J i j) ∧
    (∀ (x : LocalArray ℝ) (i j : Nat),
      HasDerivAt
        (fun t =>
          (build_petsc_sens_residual effR TimeDependent sys L (Function.update x j t)).data.r i)
        ((build_petsc_sens_jacobian effJ TimeDependent sys L first_assemble x).J i j) (x j)) := by
  refine ⟨fun x i => build_petsc_sens_residual_apply effR TimeDependent sys L x i,
    fun x i j => build_petsc_sens_jacobian_apply effJ TimeDependent sys L first_assemble x i j,
    ?_⟩
  intro x i j
  have hfun : (fun t =>
      (build_petsc_sens_residual effR TimeDependent sys L (Function.update x j t)).data.r i) =
      (fun t =>
        L i * (assemble_residual effR TimeDependent sys (Function.update x j t)).data.r i) := by
    funext t
    exact build_petsc_sens_residual_apply effR TimeDependent sys L _ i
  rw [hfun, build_petsc_sens_jacobian_apply]
  exact (hJ x i j).const_mul (L i)

theorem quadratic_function_residual (x : LocalArray ℝ) (i : Nat) :
    (assemble_residual (quadratic_function ℝ) false one_region_shape x).data.r i =
      x i * x i := by
  simp [assemble_residual, invoke, quadratic_function, one_region_shape, VecZeroEntries,
    List.range_succ]

theorem quadratic_jacobian_matrix (x : LocalArray ℝ) (i j : Nat) :
    (assemble_jacobian (quadratic_jacobian ℝ) false one_region_shape false x).data.J i j =
      if i = j then 2 * x i else 0 := by
  simp [assemble_jacobian, invoke, quadratic_jacobian, one_region_shape, MatZeroEntries,
    MatZeroRows, List.range_succ]

theorem quadratic_jacobian_is_derivative (x : LocalArray ℝ) (i j : Nat) :
    HasDerivAt
      (fun t => (assemble_residual (quadratic_function ℝ) false one_region_shape
        (Function.update x j t)).data.r i)
      ((assemble_jacobian (quadratic_jacobian ℝ) false one_region_shape false x).data.J i j)
      (x j) := by
  have hfun : (fun t => (assemble_residual (quadratic_function ℝ) false one_region_shape
        (Function.update x j t)).data.r i) =
      (fun t => Function.update x j t i * Function.update x j t i) := by
    funext t
    exact quadratic_function_residual _ i
  rw [hfun, quadratic_jacobian_matrix]
  by_cases hij : i = j
  · subst hij
    simp only [Function.update_same, if_true]
    have h := (hasDerivAt_id (x i)).mul (hasDerivAt_id (x i))
    simp only [id, one_mul, mul_one] at h
    have h2 : x i + x i = 2 * x i := by ring
    rw [h2] at h
    exact h
  · simp only [Function.update_noteq hij, if_neg hij]
    exact hasDerivAt_const (x j) (x i * x i)

/-- C13 witness: residual `r[i] = x[i]^2` with Jacobian `J[i][i] = 2*x[i]`, scaled by
`L = 2`. -/
theorem scaled_jacobian_of_scaled_residual_witness :
    (∀ (x : LocalArray ℝ) (i j : Nat),
      HasDerivAt
        (fun t => (assemble_residual (quadratic_function ℝ) false one_region_shape
          (Function.update x j t)).data.r i)
        ((assemble_jacobian (quadratic_jacobian ℝ) false one_region_shape false x).data.J i j)
        (x j)) ∧
    ((∀ (x : LocalArray ℝ) (i : Nat),
      (build_petsc_sens_residual (quadratic_function ℝ) false one_region_shape
          (fun _ => 2) x).data.r i =
        (fun _ => 2 : LocalArray ℝ) i *
          (assemble_residual (quadratic_function ℝ) false one_region_shape x).data.r i) ∧
    (∀ (x : LocalArray ℝ) (i j : Nat),
      (build_petsc_sens_jacobian (quadratic_jacobian ℝ) false one_region_shape
          (fun _ => 2) false x).J i j =
        (fun _ => 2 : LocalArray ℝ) i *
          (assemble_jacobian (quadratic_jacobian ℝ) false one_region_shape false x).data.J i j) ∧
    (∀ (x : LocalArray ℝ) (i j : Nat),
      HasDerivAt
        (fun t =>
          (build_petsc_sens_residual (quadratic_function ℝ) false one_region_shape
            (fun _ => 2) (Function.update x j t)).data.r i)
        ((build_petsc_sens_jacobian (quadratic_jacobian ℝ) false one_region_shape
          (fun _ => 2) false x).J i j) (x j))) :=
  ⟨quadratic_jacobian_is_derivative,
    scaled_jacobian_of_scaled_residual (quadratic_function ℝ) (quadratic_jacobian ℝ) false
      one_region_shape (fun _ => 2) false quadratic_jacobian_is_derivative⟩

/-! ### Regions of unknown type -/

theorem LTE_regions_error (eps_r eps_a : α) (xx : LocalArray α) (sys : SimulationSystem α)
    (h : ∃ region ∈ sys, ∃ tag, region.type = OtherRegion tag) (st : LocalArray α × Int) :
    LTE_regions eps_r eps_a xx sys st = Except.error () := by
  induction sys generalizing st with
  | nil =>
    obtain ⟨region, hregion, _⟩ := h
    exact absurd hregion (List.not_mem_nil _)
  | cons region rest ih =>
    cases hty : region.type with
    | OtherRegion tag => simp only [LTE_regions, LTE_region, hty]
    | SemiconductorRegion =>
      have hrest : ∃ r ∈ rest, ∃ tag, r.type = OtherRegion tag := by
        obtain ⟨r, hr, tag, htag⟩ := h
        rcases List.mem_cons.mp hr with heq | hmem
        · subst heq; rw [hty] at htag; cases htag
        · exact ⟨r, hmem, tag, htag⟩
      simp only [LTE_regions, LTE_region, hty]
      exact ih hrest _
    | InsulatorRegion =>
      have hrest : ∃ r ∈ rest, ∃ tag, r.type = OtherRegion tag := by
        obtain ⟨r, hr, tag, htag⟩ := h
        rcases List.mem_cons.mp hr with heq | hmem
        · subst heq; rw [hty] at htag; cases htag
        · exact ⟨r, hmem, tag, htag⟩
      simp only [LTE_regions, LTE_region, hty]
      exact ih hrest _
    | ElectrodeRegion =>
      have hrest : ∃ r ∈ rest, ∃ tag, r.type = OtherRegion tag := by
        obtain ⟨r, hr, tag, htag⟩ := h
        rcases List.mem_cons.mp hr with heq | hmem
        · subst heq; rw [hty] at htag; cases htag
        · exact ⟨r, hmem, tag, htag⟩
      simp only [LTE_regions, LTE_region, hty]
      exact ih hrest _
    | MetalRegion =>
      have hrest : ∃ r ∈ rest, ∃ tag, r.type = OtherRegion tag := by
        obtain ⟨r, hr, tag, htag⟩ := h
        rcases List.mem_cons.mp hr with heq | hmem
        · subst heq; rw [hty] at htag; cases htag
        · exact ⟨r, hmem, tag, htag⟩
      simp only [LTE_regions, LTE_region, hty]
      exact ih hrest _
    | VacuumRegion =>
      have hrest : ∃ r ∈ rest, ∃ tag, r.type = OtherRegion tag := by
        obtain ⟨r, hr, tag, htag⟩ := h
        rcases List.mem_cons.mp hr with heq | hmem
        · subst heq; rw [hty] at htag; cases htag
        · exact ⟨r, hmem, tag, htag⟩
      simp only [LTE_regions, LTE_region, hty]
      exact ih hrest _

theorem all_processes_error {β : Type} (xs : List (Except Unit β))
    (h : ∃ x ∈ xs, x = Except.error ()) : all_processes xs = Except.error () := by
  induction xs with
  | nil =>
    obtain ⟨x, hx, _⟩ := h
    exact absurd hx (List.not_mem_nil _)
  | cons x rest ih =>
    cases x with
    | error err => rfl
    | ok b =>
      have hrest : ∃ y ∈ rest, y = Except.error () := by
        obtain ⟨y, hy, hyerr⟩ := h
        rcases List.mem_cons.mp hy with heq | hmem
        · rw [heq] at hyerr; cases hyerr
        · exact ⟨y, hmem, hyerr⟩
      simp only [all_processes, ih hrest]

theorem LTE_norm_error (sqrt : α → α) (ss : SolverSpecify α) (procs : List (Mix1Process α))
    (h : ∃ p ∈ procs, ∃ region ∈ p.system, ∃ tag, region.type = OtherRegion tag) :
    LTE_norm sqrt ss procs = Except.error () := by
  obtain ⟨p, hp, hregion⟩ := h
  have hall : all_processes (procs.map (LTE_local ss)) = Except.error () := by
    apply all_processes_error
    refine ⟨LTE_local ss p, List.mem_map.mpr ⟨p, hp, rfl⟩, ?_⟩
    exact LTE_regions_error _ _ _ _ hregion _
  unfold LTE_norm
  rw [hall]

theorem error_norm_nodes_error (xx ff : LocalArray α) (tag : Nat) (nodes : List (FVM_Node α))
    (hne : nodes ≠ []) (acc : NormBuffer α) :
    error_norm_nodes xx ff (OtherRegion tag) nodes acc = Except.error () := by
  cases nodes with
  | nil => exact absurd rfl hne
  | cons nd rest => simp only [error_norm_nodes, error_norm_node]

theorem error_norm_regions_error (xx ff : LocalArray α) (sys : SimulationSystem α)
    (h : ∃ region ∈ sys, ∃ tag, region.type = OtherRegion tag ∧ region.on_processor_nodes ≠ [])
    (acc : NormBuffer α) :
    error_norm_regions xx ff sys acc = Except.error () := by
  induction sys generalizing acc with
  | nil =>
    obtain ⟨region, hregion, _⟩ := h
    exact absurd hregion (List.not_mem_nil _)
  | cons region rest ih =>
    cases hnodes : error_norm_nodes xx ff region.type region.on_processor_nodes acc with
    | error err => simp only [error_norm_regions, hnodes]
    | ok acc1 =>
      have hrest : ∃ r ∈ rest, ∃ tag, r.type = OtherRegion tag ∧ r.on_processor_nodes ≠ [] := by
        obtain ⟨r, hr, tag, htag, hne⟩ := h
        rcases List.mem_cons.mp hr with heq | hmem
        · subst heq
          rw [htag, error_norm_nodes_error xx ff tag _ hne acc] at hnodes
          cases hnodes
        · exact ⟨r, hmem, tag, htag, hne⟩
      simp only [error_norm_regions, hnodes]
      exact ih hrest acc1

theorem error_norm_error (sqrt : α → α) (u : PhysicalUnit α) (ckt_residual_norm2 : α)
    (procs : List (ErrorNormProcess α))
    (h : ∃ p ∈ procs, ∃ region ∈ p.system, ∃ tag,
      region.type = OtherRegion tag ∧ region.on_processor_nodes ≠ []) :
    error_norm sqrt u ckt_residual_norm2 procs = Except.error () := by
  obtain ⟨p, hp, hregion⟩ := h
  have hall : all_processes (procs.map error_norm_local) = Except.error () := by
    apply all_processes_error
    refine ⟨error_norm_local p, List.mem_map.mpr ⟨p, hp, rfl⟩, ?_⟩
    exact error_norm_regions_error _ _ _ hregion _
  unfold error_norm
  rw [hall]

/-- C14 (amended): `LTE_norm` ends in the fatal error whenever some process has a region of
unknown type (also one without on-processor nodes); `error_norm` ends in the fatal error
whenever such a region has an on-processor node on some process, and returns the norms when
every region of unknown type is without on-processor nodes. -/
theorem unknown_region_fatal (sqrt : α → α) (ss : SolverSpecify α)
    (lte_procs : List (Mix1Process α)) (u : PhysicalUnit α) (ckt_residual_norm2 : α)
    (norm_procs : List (ErrorNormProcess α)) :
    ((∃ p ∈ lte_procs, ∃ region ∈ p.system, ∃ tag, region.type = OtherRegion tag) →
      LTE_norm sqrt ss lte_procs = Except.error ()) ∧
    ((∃ p ∈ norm_procs, ∃ region ∈ p.system, ∃ tag,
        region.type = OtherRegion tag ∧ region.on_processor_nodes ≠ []) →
      error_norm sqrt u ckt_residual_norm2 norm_procs = Except.error ()) ∧
    ((∀ p ∈ norm_procs, ∀ region ∈ p.system, region.on_processor_nodes ≠ [] →
        ∀ tag, region.type ≠ OtherRegion tag) →
      ∃ out, error_norm sqrt u ckt_residual_norm2 norm_procs = Except.ok out) := by
  refine ⟨LTE_norm_error sqrt ss lte_procs,
    error_norm_error sqrt u ckt_residual_norm2 norm_procs, ?_⟩
  intro hknown
  obtain ⟨out, hok, _⟩ := error_norm_ok sqrt u ckt_residual_norm2 norm_procs hknown
  exact ⟨out, hok⟩

/-- C14 witness: `LTE_norm` on `unknown_region_process` (unknown region without node) and
`error_norm` on `unknown_node_process` (unknown region with a node) end in the error. -/
theorem unknown_region_fatal_witness :
    LTE_norm (fun t => t) lte_settings [unknown_region_process] = Except.error () ∧
    error_norm (fun t => t) unit_one 0 [unknown_node_process] = Except.error () := by
  have h := unknown_region_fatal (fun t => t) lte_settings [unknown_region_process] unit_one 0
    [unknown_node_process]
  refine ⟨h.1 ?_, h.2.1 ?_⟩
  · exact ⟨unknown_region_process, List.mem_singleton.mpr rfl,
      { type := OtherRegion 7, on_processor_nodes := [] },
      by simp [unknown_region_process], 7, rfl⟩
  · refine ⟨unknown_node_process, List.mem_singleton.mpr rfl,
      { type := OtherRegion 7,
        on_processor_nodes :=
          [{ local_offset := 0, node_data := { n := 0, p := 0, n_last := 0, p_last := 0 } }] },
      by simp [unknown_node_process], 7, rfl, by simp⟩

/-- C14 counterexample: the system of `unknown_empty_process` contains a region of unknown
type (without on-processor node), and `error_norm` returns norms instead of ending in the
error: the region is skipped. -/
theorem unknown_region_fatal_counterexample :
    (∃ region ∈ unknown_empty_process.system, ∃ tag, region.type = OtherRegion tag) ∧
    ∃ out, error_norm (fun t => t) unit_one 0 [unknown_empty_process] = Except.ok out := by
  constructor
  · exact ⟨{ type := OtherRegion 7, on_processor_nodes := [] },
      by simp [unknown_empty_process], 7, rfl⟩
  · have hknown : ∀ p ∈ [unknown_empty_process], ∀ region ∈ p.system,
        region.on_processor_nodes ≠ [] → ∀ tag, region.type ≠ OtherRegion tag := by
      intro p hp region hregion hne
      simp only [List.mem_singleton] at hp
      subst hp
      simp only [unknown_empty_process, List.mem_singleton] at hregion
      subst hregion
      exact absurd rfl hne
    obtain ⟨out, hok, _⟩ := error_norm_ok (fun t => t) unit_one 0 [unknown_empty_process] hknown
    exact ⟨out, hok⟩

/-! ### Calls made by the fill and assembly routines -/

theorem foldl_invoke_calls {σ : Type} (effect : CollaboratorCall → σ → σ)
    (g : Nat → CollaboratorCall) (l : List Nat) (st : Traced σ) :
    (l.foldl (fun st n => invoke effect (g n) st) st).calls = st.calls ++ l.map g := by
  induction l generalizing st with
  | nil => simp
  | cons n rest ih =>
    rw [List.foldl_cons, ih, List.map_cons]
    simp [invoke]

theorem foldl_invoke_if_calls {σ : Type} (effect : CollaboratorCall → σ → σ)
    (c : Nat → Bool) (g1 g2 : Nat → CollaboratorCall) (l : List Nat) (st : Traced σ) :
    (l.foldl (fun st b => if c b then invoke effect (g1 b) st else invoke effect (g2 b) st)
      st).calls = st.calls ++ l.map (fun b => if c b then g1 b else g2 b) := by
  have hbody : (fun (st : Traced σ) (b : Nat) =>
      if c b then invoke effect (g1 b) st else invoke effect (g2 b) st) =
      (fun st b => invoke effect (if c b then g1 b else g2 b) st) := by
    funext st b
    by_cases hc : c b <;> simp [hc]
  rw [hbody]
  exact foldl_invoke_calls effect (fun b => if c b then g1 b else g2 b) l st

theorem invoke_calls {σ : Type} (effect : CollaboratorCall → σ → σ) (c : CollaboratorCall)
    (st : Traced σ) : (invoke effect c st).calls = st.calls ++ [c] := rfl

/-- The calls of `diverged_recovery`, in order. -/
theorem diverged_recovery_trace (effect : CollaboratorCall → FillData α → FillData α)
    (sys : SystemShape) (is_last_processor : Bool) (xL : FillData α) :
    (diverged_recovery effect sys is_last_processor xL).1.calls =
      (List.range sys.n_regions).map region_DDM1_Fill_Value ++
        (if is_last_processor then [circuit_restore_solution] else []) := by
  unfold diverged_recovery
  cases is_last_processor with
  | false => simp [foldl_invoke_calls]
  | true => simp [foldl_invoke_calls, invoke_calls]

/-- The calls of `pre_solve_process` with `load_solution = true`, in order: the fill hook of
every region, then the fill hook of every boundary condition, then the pre-process hook of
every boundary condition, then the base class. -/
theorem pre_solve_process_trace (effect : CollaboratorCall → FillData α → FillData α)
    (sys : SystemShape) (xL : FillData α) :
    (pre_solve_process effect sys true xL).calls =
      (List.range sys.n_regions).map region_DDM1_Fill_Value ++
      (List.range sys.get_bcs.n_bcs).map (fun b =>
        if ((sys.get_bcs.get_bc b).is_electrode && !(sys.get_bcs.get_bc b).is_inter_connect_bc)
        then bc_Mix_DDM1_Fill_Value b else bc_DDM1_Fill_Value b) ++
      (List.range sys.get_bcs.n_bcs).map bc_DDM1_Pre_Process ++
      [MixSolverBase_pre_solve_process] := by
  unfold pre_solve_process
  simp only [if_true]
  rw [invoke_calls, foldl_invoke_calls, foldl_invoke_if_calls effect
    (fun b => ((sys.get_bcs.get_bc b).is_electrode && !(sys.get_bcs.get_bc b).is_inter_connect_bc))
    bc_Mix_DDM1_Fill_Value bc_DDM1_Fill_Value, foldl_invoke_calls]
  simp

/-- C15 (the code): `diverged_recovery` invokes the fill-value hook of every region, then (on
the last processor) tells the circuit to restore its solution, and returns 0; it invokes no
fill-value hook of any boundary condition. -/
theorem diverged_recovery_calls (effect : CollaboratorCall → FillData α → FillData α)
    (sys : SystemShape) (is_last_processor : Bool) (xL : FillData α) :
    (diverged_recovery effect sys is_last_processor xL).1.calls =
      (List.range sys.n_regions).map region_DDM1_Fill_Value ++
        (if is_last_processor then [circuit_restore_solution] else []) ∧
    (diverged_recovery effect sys is_last_processor xL).2 = 0 ∧
    ∀ b, bc_DDM1_Fill_Value b ∉ (diverged_recovery effect sys is_last_processor xL).1.calls ∧
      bc_Mix_DDM1_Fill_Value b ∉ (diverged_recovery effect sys is_last_processor xL).1.calls := by
  refine ⟨diverged_recovery_trace effect sys is_last_processor xL, rfl, ?_⟩
  intro b
  rw [diverged_recovery_trace]
  constructor
  · intro hmem
    rcases List.mem_append.mp hmem with h | h
    · obtain ⟨n, _, hn⟩ := List.mem_map.mp h
      cases hn
    · cases is_last_processor <;> simp at h
  · intro hmem
    rcases List.mem_append.mp hmem with h | h
    · obtain ⟨n, _, hn⟩ := List.mem_map.mp h
      cases hn
    · cases is_last_processor <;> simp at h

/-- C15 at the failing input: on `two_boundaries_shape` (one region, two boundary conditions),
on the last processor, `diverged_recovery` makes exactly two calls, the fill of region 0 and
the circuit restore, whereas `pre_solve_process` with `load_solution` also fills both
boundary conditions. -/
theorem diverged_recovery_two_boundaries (effect : CollaboratorCall → FillData α → FillData α)
    (xL : FillData α) :
    (diverged_recovery effect two_boundaries_shape true xL).1.calls =
      [region_DDM1_Fill_Value 0, circuit_restore_solution] ∧
    (pre_solve_process effect two_boundaries_shape true xL).calls =
      [region_DDM1_Fill_Value 0, bc_Mix_DDM1_Fill_Value 0, bc_DDM1_Fill_Value 1,
       bc_DDM1_Pre_Process 0, bc_DDM1_Pre_Process 1, MixSolverBase_pre_solve_process] := by
  constructor
  · rw [diverged_recovery_trace]
    rfl
  · rw [pre_solve_process_trace]
    rfl

/-! ### `positive_density_damping`: the bound on the potential step -/

theorem abs_sign_of_one_lt_abs (y : α) (hy : |y| > 1) : |sign y| = 1 := by
  unfold sign
  by_cases hpos : 0 < y
  · rw [if_pos hpos, abs_one]
  · have hneg : y < 0 := by
      rcases lt_trichotomy y 0 with h | h | h
      · exact h
      · rw [h, abs_zero] at hy
        exact absurd hy (by norm_num)
      · exact absurd h hpos
    rw [if_neg hpos, if_pos hneg, abs_neg, abs_one]

theorem positive_density_node_arrays_eq (floor : α) (st : DampingArrays α × Int)
    (nd : FVM_Node α) :
    positive_density_node_arrays floor st nd =
      ({ xx := st.1.xx, yy := st.1.yy,
         ww := (positive_density_node floor st.1.xx st.1.yy (st.1.ww, st.2) nd).1 },
        (positive_density_node floor st.1.xx st.1.yy (st.1.ww, st.2) nd).2) := by
  obtain ⟨⟨xx, yy, ww⟩, flag⟩ := st
  unfold positive_density_node_arrays positive_density_node
  dsimp only
  by_cases h0 : |yy nd.local_offset| > 1
  · simp only [h0, if_true]
    split_ifs <;> rfl
  · simp only [h0, if_false]
    split_ifs <;> rfl

theorem positive_density_nodes_arrays_eq (floor : α) (nodes : List (FVM_Node α))
    (st : DampingArrays α × Int) :
    nodes.foldl (positive_density_node_arrays floor) st =
      ({ xx := st.1.xx, yy := st.1.yy,
         ww := (nodes.foldl (positive_density_node floor st.1.xx st.1.yy) (st.1.ww, st.2)).1 },
        (nodes.foldl (positive_density_node floor st.1.xx st.1.yy) (st.1.ww, st.2)).2) := by
  induction nodes generalizing st with
  | nil => rfl
  | cons nd rest ih =>
    rw [List.foldl_cons, List.foldl_cons, ih, positive_density_node_arrays_eq]

/-- The loop of `positive_density_damping` on the three arrays of a process gives back the
arrays of `previous` and `step` as they were, and the candidate array of
`positive_density_local`. -/
theorem positive_density_local_arrays_eq (floor : α) (p : ProcessArgs α) :
    positive_density_local_arrays floor p =
      ({ xx := p.xx, yy := p.yy, ww := (positive_density_local floor p).1 },
        (positive_density_local floor p).2) := by
  unfold positive_density_local_arrays positive_density_local
  rw [foldl_semiconductor_regions, foldl_semiconductor_regions,
    positive_density_nodes_arrays_eq]

/-- C16: `positive_density_damping` returns one candidate array for every process and, in a
well-formed layout, for every on-processor semiconductor node it replaces the candidate
potential by `previous - sign(step)*1` when `|step| > 1`, so that
`|candidate - previous| = 1`, and leaves the candidate potential as received when
`|step| <= 1`; hence, when the incoming candidate potential is `previous - step`,
`|candidate - previous| <= 1` afterwards.  Of the three arrays that the routine holds, those
of `previous` and `step` are as on entry after the loops, and the candidate array is the one
returned. -/
theorem positive_density_damping_potential (u : PhysicalUnit α) (changed_y0 changed_w0 : Bool)
    (procs : List (ProcessArgs α)) (hwf : ∀ p ∈ procs, WellFormed p.system) :
    (positive_density_damping u changed_y0 changed_w0 procs).ww.length = procs.length ∧
    (positive_density_damping_arrays u procs).map (fun a => a.xx) =
      procs.map (fun p => p.xx) ∧
    (positive_density_damping_arrays u procs).map (fun a => a.yy) =
      procs.map (fun p => p.yy) ∧
    (positive_density_damping_arrays u procs).map (fun a => a.ww) =
      (positive_density_damping u changed_y0 changed_w0 procs).ww ∧
    ∀ pw ∈ List.zip procs (positive_density_damping u changed_y0 changed_w0 procs).ww,
      ∀ region ∈ pw.1.system, region.type = SemiconductorRegion →
        ∀ nd ∈ region.on_processor_nodes,
          (|pw.1.yy nd.local_offset| > 1 →
            pw.2 nd.local_offset =
              pw.1.xx nd.local_offset - sign (pw.1.yy nd.local_offset) * 1 ∧
            |pw.2 nd.local_offset - pw.1.xx nd.local_offset| = 1) ∧
          (|pw.1.yy nd.local_offset| ≤ 1 →
            pw.2 nd.local_offset = pw.1.ww nd.local_offset) ∧
          (pw.1.ww nd.local_offset = pw.1.xx nd.local_offset - pw.1.yy nd.local_offset →
            |pw.2 nd.local_offset - pw.1.xx nd.local_offset| ≤ 1) := by
  have harr : ∀ (g : DampingArrays α → LocalArray α),
      (positive_density_damping_arrays u procs).map g =
        procs.map (fun p =>
          g (DampingArrays.mk p.xx p.yy (positive_density_local (onePerCMC u) p).1)) := by
    intro g
    unfold positive_density_damping_arrays
    rw [List.map_map]
    apply List.map_congr_left
    intro p _
    simp only [Function.comp, positive_density_local_arrays_eq]
  refine ⟨positive_density_damping_ww_length u changed_y0 changed_w0 procs,
    harr (fun a => a.xx), harr (fun a => a.yy), ?_, ?_⟩
  · rw [harr (fun a => a.ww), positive_density_damping_ww_eq]
  intro pw hpw region hregion hty nd hnd
  obtain ⟨hmem, hval⟩ := positive_density_damping_ww u changed_y0 changed_w0 procs pw hpw
  have hslot : pw.2 nd.local_offset =
      if |pw.1.yy nd.local_offset| > 1 then
        pw.1.xx nd.local_offset - sign (pw.1.yy nd.local_offset) * 1
      else pw.1.ww nd.local_offset := by
    rw [hval, positive_density_local_apply _ _ (hwf pw.1 hmem) region hregion hty nd hnd _
      ((mem_semiconductor_slots nd _).mpr (Or.inl rfl)), positive_density_node_apply,
      if_pos rfl]
  have hbig : |pw.1.yy nd.local_offset| > 1 →
      pw.2 nd.local_offset = pw.1.xx nd.local_offset - sign (pw.1.yy nd.local_offset) * 1 ∧
      |pw.2 nd.local_offset - pw.1.xx nd.local_offset| = 1 := by
    intro hy
    have h1 : pw.2 nd.local_offset =
        pw.1.xx nd.local_offset - sign (pw.1.yy nd.local_offset) * 1 := by
      rw [hslot, if_pos hy]
    refine ⟨h1, ?_⟩
    have h2 : pw.2 nd.local_offset - pw.1.xx nd.local_offset =
        -sign (pw.1.yy nd.local_offset) := by
      rw [h1]; ring
    rw [h2, abs_neg]
    exact abs_sign_of_one_lt_abs _ hy
  have hsmall : |pw.1.yy nd.local_offset| ≤ 1 →
      pw.2 nd.local_offset = pw.1.ww nd.local_offset := by
    intro hy
    rw [hslot, if_neg (not_lt.mpr hy)]
  refine ⟨hbig, hsmall, ?_⟩
  intro hw
  by_cases hy : |pw.1.yy nd.local_offset| > 1
  · exact le_of_eq (hbig hy).2
  · have hle := not_lt.mp hy
    rw [hsmall hle, hw]
    have h3 : pw.1.xx nd.local_offset - pw.1.yy nd.local_offset - pw.1.xx nd.local_offset =
        -pw.1.yy nd.local_offset := by ring
    rw [h3, abs_neg]
    exact hle

/-- C16 witness: `damping_large_step` is well formed; its potential step at the semiconductor
node is 5. -/
theorem positive_density_damping_potential_witness :
    (∀ p ∈ damping_large_step, WellFormed p.system) ∧
    (positive_density_damping unit_one false false damping_large_step).ww.length =
      damping_large_step.length ∧
    (positive_density_damping_arrays unit_one damping_large_step).map (fun a => a.xx) =
      damping_large_step.map (fun p => p.xx) ∧
    (positive_density_damping_arrays unit_one damping_large_step).map (fun a => a.yy) =
      damping_large_step.map (fun p => p.yy) ∧
    (positive_density_damping_arrays unit_one damping_large_step).map (fun a => a.ww) =
      (positive_density_damping unit_one false false damping_large_step).ww ∧
    ∀ pw ∈ List.zip damping_large_step
        (positive_density_damping unit_one false false damping_large_step).ww,
      ∀ region ∈ pw.1.system, region.type = SemiconductorRegion →
        ∀ nd ∈ region.on_processor_nodes,
          (|pw.1.yy nd.local_offset| > 1 →
            pw.2 nd.local_offset =
              pw.1.xx nd.local_offset - sign (pw.1.yy nd.local_offset) * 1 ∧
            |pw.2 nd.local_offset - pw.1.xx nd.local_offset| = 1) ∧
          (|pw.1.yy nd.local_offset| ≤ 1 →
            pw.2 nd.local_offset = pw.1.ww nd.local_offset) ∧
          (pw.1.ww nd.local_offset = pw.1.xx nd.local_offset - pw.1.yy nd.local_offset →
            |pw.2 nd.local_offset - pw.1.xx nd.local_offset| ≤ 1) := by
  have hwf : ∀ p ∈ damping_large_step, WellFormed p.system := by
    intro p hp
    simp only [damping_large_step, List.mem_singleton] at hp
    subst hp
    decide
  exact ⟨hwf, positive_density_damping_potential unit_one false false damping_large_step hwf⟩

/-! ### The first-assembly flag -/

theorem filter_map_none (p : CollaboratorCall → Bool) (g : Nat → CollaboratorCall)
    (hg : ∀ n, p (g n) = false) (l : List Nat) : (l.map g).filter p = [] := by
  induction l with
  | nil => rfl
  | cons n rest ih => rw [List.map_cons, List.filter_cons_of_neg (by simp [hg n]), ih]

theorem filter_map_all (p : CollaboratorCall → Bool) (g : Nat → CollaboratorCall)
    (hg : ∀ n, p (g n) = true) (l : List Nat) : (l.map g).filter p = l.map g := by
  induction l with
  | nil => rfl
  | cons n rest ih => rw [List.map_cons, List.filter_cons_of_pos (hg n), ih]

/-- The calls of the Jacobian assembly, in order. -/
theorem assemble_jacobian_calls
    (effect : LocalArray α → CollaboratorCall → JacobianData α → JacobianData α)
    (TimeDependent : Bool) (sys : SystemShape) (first_assemble : Bool) (lxx : LocalArray α) :
    (assemble_jacobian effect TimeDependent sys first_assemble lxx).calls =
      (List.range sys.n_regions).map region_DDM1_Jacobian ++
      (if TimeDependent then
        (List.range sys.n_regions).map region_DDM1_Time_Dependent_Jacobian else []) ++
      (List.range sys.n_regions).map region_DDM1_Jacobian_Hanging_Node ++
      [build_spice_jacobian] ++
      (if first_assemble then []
       else (List.range sys.get_bcs.n_bcs).map (reserve_call sys.get_bcs) ++
         [MatSetOption_IGNORE_ZERO_ENTRIES]) ++
      (List.range sys.get_bcs.n_bcs).map (fun b =>
        if (sys.get_bcs.get_bc b).is_spice_electrode then bc_Mix_DDM1_Jacobian_Preprocess b
        else bc_DDM1_Jacobian_Preprocess b) ++
      [MatAddRowToRow] ++
      (List.range sys.get_bcs.n_bcs).map (fun b =>
        if (sys.get_bcs.get_bc b).is_spice_electrode then bc_Mix_DDM1_Jacobian b
        else bc_DDM1_Jacobian b) := by
  unfold assemble_jacobian
  cases TimeDependent <;> cases first_assemble <;>
  simp only [if_true, if_false, Bool.not_true, Bool.not_false, Bool.false_eq_true,
    foldl_invoke_if_calls, foldl_invoke_calls, invoke_calls,
    List.append_nil, List.nil_append, List.append_assoc] <;>
  rfl

theorem is_reserve_call_reserve_call (bcs : BoundaryConditionCollector) (b : Nat) :
    is_reserve_call (reserve_call bcs b) = true := by
  unfold reserve_call
  split_ifs <;> rfl

/-- The reserve hooks called by one Jacobian assembly: none when the flag is set on entry, and
otherwise the hook of every boundary, once, in order. -/
theorem build_petsc_sens_jacobian_reserve
    (effect : LocalArray α → CollaboratorCall → JacobianData α → JacobianData α)
    (TimeDependent : Bool) (sys : SystemShape) (L : LocalArray α) (first_assemble : Bool)
    (x : LocalArray α) :
    (build_petsc_sens_jacobian effect TimeDependent sys L first_assemble x).calls.filter
        is_reserve_call =
      if first_assemble then []
      else (List.range sys.get_bcs.n_bcs).map (reserve_call sys.get_bcs) := by
  have hcalls : (build_petsc_sens_jacobian effect TimeDependent sys L first_assemble x).calls =
      (assemble_jacobian effect TimeDependent sys first_assemble x).calls := rfl
  rw [hcalls, assemble_jacobian_calls]
  simp only [List.filter_append]
  rw [filter_map_none is_reserve_call region_DDM1_Jacobian (fun _ => rfl),
    filter_map_none is_reserve_call region_DDM1_Jacobian_Hanging_Node (fun _ => rfl),
    filter_map_none is_reserve_call _ (fun b => by split_ifs <;> rfl),
    filter_map_none is_reserve_call _ (fun b => by split_ifs <;> rfl)]
  have htd : (if TimeDependent then
      (List.range sys.n_regions).map region_DDM1_Time_Dependent_Jacobian else []).filter
      is_reserve_call = [] := by
    cases TimeDependent
    · rfl
    · exact filter_map_none is_reserve_call region_DDM1_Time_Dependent_Jacobian
        (fun _ => rfl) _
  rw [htd]
  cases first_assemble
  · simp only [Bool.false_eq_true, if_false, List.filter_append,
      filter_map_all is_reserve_call _ (is_reserve_call_reserve_call sys.get_bcs)]
    simp [is_reserve_call]
  · simp [is_reserve_call]

theorem build_petsc_sens_jacobian_flag
    (effect : LocalArray α → CollaboratorCall → JacobianData α → JacobianData α)
    (TimeDependent : Bool) (sys : SystemShape) (L : LocalArray α) (first_assemble : Bool)
    (x : LocalArray α) :
    (build_petsc_sens_jacobian effect TimeDependent sys L first_assemble
      x).jacobian_matrix_first_assemble = true := by
  unfold build_petsc_sens_jacobian
  cases first_assemble <;> rfl

theorem jacobian_assemblies_after_first
    (effect : LocalArray α → CollaboratorCall → JacobianData α → JacobianData α)
    (TimeDependent : Bool) (sys : SystemShape) (L : LocalArray α) (xs : List (LocalArray α)) :
    ∀ o ∈ jacobian_assemblies effect TimeDependent sys L true xs,
      o.calls.filter is_reserve_call = [] ∧ o.jacobian_matrix_first_assemble = true := by
  induction xs with
  | nil => intro o ho; exact absurd ho (List.not_mem_nil _)
  | cons x rest ih =>
    intro o ho
    simp only [jacobian_assemblies, List.mem_cons] at ho
    rcases ho with heq | hmem
    · rw [heq]
      exact ⟨by rw [build_petsc_sens_jacobian_reserve]; rfl,
        build_petsc_sens_jacobian_flag effect TimeDependent sys L true x⟩
    · rw [build_petsc_sens_jacobian_flag] at hmem
      exact ih o hmem

theorem Mix1Solver_step_of_flag
    (effect : LocalArray α → CollaboratorCall → JacobianData α → JacobianData α)
    (TimeDependent : Bool) (sys : SystemShape) (L : LocalArray α)
    (st : AssemblyFlagState) (op : Mix1Operation α)
    (hflag : st.jacobian_matrix_first_assemble = true) :
    (Mix1Solver_step effect TimeDependent sys L st op).jacobian_matrix_first_assemble = true ∧
    (Mix1Solver_step effect TimeDependent sys L st op).reserve_calls = st.reserve_calls := by
  cases op with
  | build_petsc_sens_jacobian x =>
    simp only [Mix1Solver_step]
    refine ⟨build_petsc_sens_jacobian_flag _ _ _ _ _ _, ?_⟩
    rw [build_petsc_sens_jacobian_reserve, hflag]
    simp
  | _ => exact ⟨hflag, rfl⟩

theorem Mix1Solver_run_invariant
    (effect : LocalArray α → CollaboratorCall → JacobianData α → JacobianData α)
    (TimeDependent : Bool) (sys : SystemShape) (L : LocalArray α)
    (ops : List (Mix1Operation α)) (st : AssemblyFlagState)
    (hst : (st.jacobian_matrix_first_assemble = false ∧ st.reserve_calls = []) ∨
      (st.jacobian_matrix_first_assemble = true ∧
        st.reserve_calls = (List.range sys.get_bcs.n_bcs).map (reserve_call sys.get_bcs))) :
    ((ops.foldl (Mix1Solver_step effect TimeDependent sys L) st).jacobian_matrix_first_assemble
        = false ∧
      (ops.foldl (Mix1Solver_step effect TimeDependent sys L) st).reserve_calls = []) ∨
    ((ops.foldl (Mix1Solver_step effect TimeDependent sys L) st).jacobian_matrix_first_assemble
        = true ∧
      (ops.foldl (Mix1Solver_step effect TimeDependent sys L) st).reserve_calls =
        (List.range sys.get_bcs.n_bcs).map (reserve_call sys.get_bcs)) := by
  induction ops generalizing st with
  | nil => exact hst
  | cons op rest ih =>
    rw [List.foldl_cons]
    apply ih
    rcases hst with ⟨hf, hc⟩ | ⟨hf, hc⟩
    · cases op with
      | build_petsc_sens_jacobian x =>
        right
        simp only [Mix1Solver_step]
        refine ⟨build_petsc_sens_jacobian_flag _ _ _ _ _ _, ?_⟩
        rw [build_petsc_sens_jacobian_reserve, hf, hc]
        simp
      | _ => exact Or.inl ⟨hf, hc⟩
    · right
      obtain ⟨h1, h2⟩ := Mix1Solver_step_of_flag effect TimeDependent sys L st op hf
      exact ⟨h1, by rw [h2, hc]⟩

/-- C17: `jacobian_matrix_first_assemble` is true after every call of
`build_petsc_sens_jacobian`; once true, no operation of `Mix1Solver` makes it false again or
calls a reserve hook; a call of `build_petsc_sens_jacobian` invokes the reserve hooks of the
boundaries exactly when the flag is false on entry, and then the hook of every boundary once;
so in a sequence of Jacobian assemblies, and in any sequence of operations started with the
flag false, the reserve hooks are invoked in the first assembly only, once per boundary. -/
theorem first_assemble_flag_monotone
    (effect : LocalArray α → CollaboratorCall → JacobianData α → JacobianData α)
    (TimeDependent : Bool) (sys : SystemShape) (L : LocalArray α) :
    (∀ (first_assemble : Bool) (x : LocalArray α),
      (build_petsc_sens_jacobian effect TimeDependent sys L first_assemble
        x).jacobian_matrix_first_assemble = true) ∧
    (∀ (first_assemble : Bool) (x : LocalArray α),
      (build_petsc_sens_jacobian effect TimeDependent sys L first_assemble x).calls.filter
          is_reserve_call =
        if first_assemble then []
        else (List.range sys.get_bcs.n_bcs).map (reserve_call sys.get_bcs)) ∧
    (∀ (st : AssemblyFlagState) (op : Mix1Operation α),
      st.jacobian_matrix_first_assemble = true →
        (Mix1Solver_step effect TimeDependent sys L st op).jacobian_matrix_first_assemble = true ∧
        (Mix1Solver_step effect TimeDependent sys L st op).reserve_calls = st.reserve_calls) ∧
    (∀ (x : LocalArray α) (xs : List (LocalArray α)),
      ∃ out rest, jacobian_assemblies effect TimeDependent sys L false (x :: xs) = out :: rest ∧
        out.calls.filter is_reserve_call =
          (List.range sys.get_bcs.n_bcs).map (reserve_call sys.get_bcs) ∧
        ∀ o ∈ rest, o.calls.filter is_reserve_call = [] ∧
          o.jacobian_matrix_first_assemble = true) ∧
    (∀ ops : List (Mix1Operation α),
      ((ops.foldl (Mix1Solver_step effect TimeDependent sys L)
          { jacobian_matrix_first_assemble := false,
            reserve_calls := [] }).jacobian_matrix_first_assemble = false ∧
        (ops.foldl (Mix1Solver_step effect TimeDependent sys L)
          { jacobian_matrix_first_assemble := false, reserve_calls := [] }).reserve_calls = []) ∨
      ((ops.foldl (Mix1Solver_step effect TimeDependent sys L)
          { jacobian_matrix_first_assemble := false,
            reserve_calls := [] }).jacobian_matrix_first_assemble = true ∧
        (ops.foldl (Mix1Solver_step effect TimeDependent sys L)
          { jacobian_matrix_first_assemble := false, reserve_calls := [] }).reserve_calls =
          (List.range sys.get_bcs.n_bcs).map (reserve_call sys.get_bcs))) := by
  refine ⟨build_petsc_sens_jacobian_flag effect TimeDependent sys L,
    build_petsc_sens_jacobian_reserve effect TimeDependent sys L,
    Mix1Solver_step_of_flag effect TimeDependent sys L, ?_, ?_⟩
  · intro x xs
    refine ⟨build_petsc_sens_jacobian effect TimeDependent sys L false x,
      jacobian_assemblies effect TimeDependent sys L true xs, ?_, ?_, ?_⟩
    · simp only [jacobian_assemblies]
      rw [build_petsc_sens_jacobian_flag]
    · rw [build_petsc_sens_jacobian_reserve]
      rfl
    · exact jacobian_assemblies_after_first effect TimeDependent sys L xs
  · intro ops
    exact Mix1Solver_run_invariant effect TimeDependent sys L ops _ (Or.inl ⟨rfl, rfl⟩)

/-- C17 on an example: on `two_boundaries_shape` a first assembly (flag false on entry) calls
the `Mix_` reserve hook of the spice electrode 0 and the plain reserve hook of boundary 1, and
a second assembly calls none. -/
theorem first_assemble_flag_example :
    (build_petsc_sens_jacobian (quadratic_jacobian ℚ) false two_boundaries_shape
        (fun _ => 1) false (fun _ => 0)).calls.filter is_reserve_call =
      [bc_Mix_DDM1_Jacobian_Reserve 0, bc_DDM1_Jacobian_Reserve 1] ∧
    (build_petsc_sens_jacobian (quadratic_jacobian ℚ) false two_boundaries_shape
        (fun _ => 1) true (fun _ => 0)).calls.filter is_reserve_call = [] := by
  constructor
  · rw [build_petsc_sens_jacobian_reserve]
    rfl
  · rw [build_petsc_sens_jacobian_reserve]
    rfl

/-! ### The predictor of `LTE_norm` -/

theorem LTE_predict_second_order (ss : SolverSpecify α) (p : Mix1Process α)
    (hty : ss.TS_type = TemporalScheme.BDF2) (hlow : ss.BDF2_LowerOrder = false) (i : Nat) :
    (LTE_predict ss p).1 i =
      cn ss.dt ss.dt_last ss.dt_last_last * p.x_n i +
      cn1 ss.dt ss.dt_last ss.dt_last_last * p.x_n1 i +
      cn2 ss.dt ss.dt_last ss.dt_last_last * p.x_n2 i ∧
    (LTE_predict ss p).2 i =
      ss.dt / (ss.dt + ss.dt_last + ss.dt_last_last) * p.x i +
      -ss.dt / (ss.dt + ss.dt_last + ss.dt_last_last) * (LTE_predict ss p).1 i := by
  unfold LTE_predict
  simp [hty, hlow, VecAXPY, VecZeroEntries, cn, cn1, cn2]

theorem LTE_predict_first_order (ss : SolverSpecify α) (p : Mix1Process α)
    (hty : ss.TS_type = TemporalScheme.BDF1 ∨
      (ss.TS_type = TemporalScheme.BDF2 ∧ ss.BDF2_LowerOrder = true)) (i : Nat) :
    (LTE_predict ss p).1 i =
      (1 + ss.dt / ss.dt_last) * p.x_n i + -ss.dt / ss.dt_last * p.x_n1 i ∧
    (LTE_predict ss p).2 i =
      ss.dt / (ss.dt + ss.dt_last) * p.x i +
      -ss.dt / (ss.dt + ss.dt_last) * (LTE_predict ss p).1 i := by
  unfold LTE_predict
  rcases hty with h | ⟨h, hlow⟩
  · simp [h, VecAXPY, VecZeroEntries]
  · simp [h, hlow, VecAXPY, VecZeroEntries]

theorem predictor_coefficients_lagrange (hn hn1 hn2 : α) (h1 : 0 < hn1)
    (h2 : 0 < hn2) (t : α) :
    cn hn hn1 hn2 + cn1 hn hn1 hn2 + cn2 hn hn1 hn2 = 1 ∧
    cn hn hn1 hn2 = lagrange_weight (t + hn) t (t - hn1) (t - hn1 - hn2) ∧
    cn1 hn hn1 hn2 = lagrange_weight (t + hn) (t - hn1) t (t - hn1 - hn2) ∧
    cn2 hn hn1 hn2 = lagrange_weight (t + hn) (t - hn1 - hn2) t (t - hn1) := by
  have e1 : hn1 ≠ 0 := ne_of_gt h1
  have e2 : hn2 ≠ 0 := ne_of_gt h2
  have e12 : hn1 + hn2 ≠ 0 := ne_of_gt (add_pos h1 h2)
  have d1 : t - (t - hn1) = hn1 := by ring
  have d2 : t - (t - hn1 - hn2) = hn1 + hn2 := by ring
  have d3 : t - hn1 - t = -hn1 := by ring
  have d4 : t - hn1 - (t - hn1 - hn2) = hn2 := by ring
  have d5 : t - hn1 - hn2 - t = -(hn1 + hn2) := by ring
  have d6 : t - hn1 - hn2 - (t - hn1) = -hn2 := by ring
  refine ⟨?_, ?_, ?_, ?_⟩
  · unfold cn cn1 cn2
    field_simp
    ring
  · unfold cn lagrange_weight
    rw [d1, d2]
    field_simp
    ring
  · unfold cn1 lagrange_weight
    rw [d3, d4, div_eq_div_iff (mul_ne_zero e1 e2) (mul_ne_zero (neg_ne_zero.mpr e1) e2)]
    ring
  · unfold cn2 lagrange_weight
    rw [d5, d6, div_eq_div_iff (mul_ne_zero e2 e12)
      (mul_ne_zero (neg_ne_zero.mpr e12) (neg_ne_zero.mpr e2))]
    ring

theorem second_order_exact (hn hn1 hn2 : α) (h1 : 0 < hn1) (h2 : 0 < hn2) (a b c t : α) :
    cn hn hn1 hn2 * (a + b * t + c * t ^ 2) +
      cn1 hn hn1 hn2 * (a + b * (t - hn1) + c * (t - hn1) ^ 2) +
      cn2 hn hn1 hn2 * (a + b * (t - hn1 - hn2) + c * (t - hn1 - hn2) ^ 2) =
      a + b * (t + hn) + c * (t + hn) ^ 2 := by
  have e1 : hn1 ≠ 0 := ne_of_gt h1
  have e2 : hn2 ≠ 0 := ne_of_gt h2
  have e12 : hn1 + hn2 ≠ 0 := ne_of_gt (add_pos h1 h2)
  unfold cn cn1 cn2
  field_simp
  ring

theorem first_order_exact (hn hn1 : α) (h1 : 0 < hn1) (a b t : α) :
    (1 + hn / hn1) * (a + b * t) + -hn / hn1 * (a + b * (t - hn1)) = a + b * (t + hn) := by
  have e1 : hn1 ≠ 0 := ne_of_gt h1
  field_simp
  ring

/-- C18: for positive previous step sizes `hn1`, `hn2` (and any `hn`, in particular every
positive one) the second-order predictor coefficients `cn`, `cn1`, `cn2` of
`LTE_norm` sum to 1 and are the Lagrange weights of the times `t`, `t-hn1`, `t-hn1-hn2`
evaluated at `t+hn`; so if `x_n`, `x_n1`, `x_n2` sample a polynomial of degree at most 2 at
these times, the predictor is that polynomial at `t+hn`, and the LTE vector before
normalisation is zero where the accepted solution equals it.  The first-order pair
`(1+hn/hn1, -hn/hn1)` sums to 1 and is exact for polynomials of degree at most 1. -/
theorem predictor_exact (ss : SolverSpecify α) (p : Mix1Process α)
    (h1 : 0 < ss.dt_last) (h2 : 0 < ss.dt_last_last) :
    (∀ t : α,
      cn ss.dt ss.dt_last ss.dt_last_last + cn1 ss.dt ss.dt_last ss.dt_last_last +
        cn2 ss.dt ss.dt_last ss.dt_last_last = 1 ∧
      cn ss.dt ss.dt_last ss.dt_last_last =
        lagrange_weight (t + ss.dt) t (t - ss.dt_last) (t - ss.dt_last - ss.dt_last_last) ∧
      cn1 ss.dt ss.dt_last ss.dt_last_last =
        lagrange_weight (t + ss.dt) (t - ss.dt_last) t (t - ss.dt_last - ss.dt_last_last) ∧
      cn2 ss.dt ss.dt_last ss.dt_last_last =
        lagrange_weight (t + ss.dt) (t - ss.dt_last - ss.dt_last_last) t (t - ss.dt_last)) ∧
    (ss.TS_type = TemporalScheme.BDF2 → ss.BDF2_LowerOrder = false →
      ∀ (a b c t : α) (i : Nat),
        p.x_n i = a + b * t + c * t ^ 2 →
        p.x_n1 i = a + b * (t - ss.dt_last) + c * (t - ss.dt_last) ^ 2 →
        p.x_n2 i = a + b * (t - ss.dt_last - ss.dt_last_last) +
          c * (t - ss.dt_last - ss.dt_last_last) ^ 2 →
        (LTE_predict ss p).1 i =
          cn ss.dt ss.dt_last ss.dt_last_last * p.x_n i +
          cn1 ss.dt ss.dt_last ss.dt_last_last * p.x_n1 i +
          cn2 ss.dt ss.dt_last ss.dt_last_last * p.x_n2 i ∧
        (LTE_predict ss p).1 i = a + b * (t + ss.dt) + c * (t + ss.dt) ^ 2 ∧
        (p.x i = a + b * (t + ss.dt) + c * (t + ss.dt) ^ 2 → (LTE_predict ss p).2 i = 0)) ∧
    ((1 + ss.dt / ss.dt_last) + -ss.dt / ss.dt_last = 1) ∧
    (ss.TS_type = TemporalScheme.BDF1 ∨
        (ss.TS_type = TemporalScheme.BDF2 ∧ ss.BDF2_LowerOrder = true) →
      ∀ (a b t : α) (i : Nat),
        p.x_n i = a + b * t →
        p.x_n1 i = a + b * (t - ss.dt_last) →
        (LTE_predict ss p).1 i = a + b * (t + ss.dt) ∧
        (p.x i = a + b * (t + ss.dt) → (LTE_predict ss p).2 i = 0)) := by
  have e1 : ss.dt_last ≠ 0 := ne_of_gt h1
  refine ⟨fun t => predictor_coefficients_lagrange ss.dt ss.dt_last ss.dt_last_last h1 h2 t,
    ?_, ?_, ?_⟩
  · intro hty hlow a b c t i hxn hxn1 hxn2
    obtain ⟨hxp, hlte⟩ := LTE_predict_second_order ss p hty hlow i
    have hval : (LTE_predict ss p).1 i = a + b * (t + ss.dt) + c * (t + ss.dt) ^ 2 := by
      rw [hxp, hxn, hxn1, hxn2]
      exact second_order_exact ss.dt ss.dt_last ss.dt_last_last h1 h2 a b c t
    refine ⟨hxp, hval, ?_⟩
    intro hx
    rw [hlte, hval, hx]
    ring
  · field_simp
  · intro hty a b t i hxn hxn1
    obtain ⟨hxp, hlte⟩ := LTE_predict_first_order ss p hty i
    have hval : (LTE_predict ss p).1 i = a + b * (t + ss.dt) := by
      rw [hxp, hxn, hxn1]
      exact first_order_exact ss.dt ss.dt_last h1 a b t
    refine ⟨hval, ?_⟩
    intro hx
    rw [hlte, hval, hx]
    ring

/-- C18 witness: with the uneven step sizes `hn = 1`, `hn1 = 1`, `hn2 = 2` the coefficients
are `8/3`, `-2`, `1/3`; on the history 17, 6, 2 of the polynomial `1 + 2*s + 3*s^2` sampled
at the times 2, 1, -1 the second-order predictor is `34`, its value at time 3, and the LTE
entry is 0 for the accepted solution 34.  With `hn = hn1 = 1` the first-order predictor on
the history 5, 3 of `1 + 2*s` is 7, and the LTE entry is 0 for the accepted solution 7. -/
theorem predictor_exact_witness :
    (0 : ℚ) < uneven_bdf2_settings.dt_last ∧ (0 : ℚ) < uneven_bdf2_settings.dt_last_last ∧
    cn uneven_bdf2_settings.dt uneven_bdf2_settings.dt_last
      uneven_bdf2_settings.dt_last_last = 8 / 3 ∧
    cn1 uneven_bdf2_settings.dt uneven_bdf2_settings.dt_last
      uneven_bdf2_settings.dt_last_last = -2 ∧
    cn2 uneven_bdf2_settings.dt uneven_bdf2_settings.dt_last
      uneven_bdf2_settings.dt_last_last = 1 / 3 ∧
    cn uneven_bdf2_settings.dt uneven_bdf2_settings.dt_last
        uneven_bdf2_settings.dt_last_last +
      cn1 uneven_bdf2_settings.dt uneven_bdf2_settings.dt_last
        uneven_bdf2_settings.dt_last_last +
      cn2 uneven_bdf2_settings.dt uneven_bdf2_settings.dt_last
        uneven_bdf2_settings.dt_last_last = 1 ∧
    quadratic_history_process.x_n 0 = 1 + 2 * 2 + 3 * (2 : ℚ) ^ 2 ∧
    quadratic_history_process.x_n1 0 = 1 + 2 * (2 - uneven_bdf2_settings.dt_last) +
      3 * (2 - uneven_bdf2_settings.dt_last) ^ 2 ∧
    quadratic_history_process.x_n2 0 =
      1 + 2 * (2 - uneven_bdf2_settings.dt_last - uneven_bdf2_settings.dt_last_last) +
      3 * (2 - uneven_bdf2_settings.dt_last - uneven_bdf2_settings.dt_last_last) ^ 2 ∧
    (LTE_predict uneven_bdf2_settings quadratic_history_process).1 0 =
      cn uneven_bdf2_settings.dt uneven_bdf2_settings.dt_last
          uneven_bdf2_settings.dt_last_last * quadratic_history_process.x_n 0 +
        cn1 uneven_bdf2_settings.dt uneven_bdf2_settings.dt_last
          uneven_bdf2_settings.dt_last_last * quadratic_history_process.x_n1 0 +
        cn2 uneven_bdf2_settings.dt uneven_bdf2_settings.dt_last
          uneven_bdf2_settings.dt_last_last * quadratic_history_process.x_n2 0 ∧
    (LTE_predict uneven_bdf2_settings quadratic_history_process).1 0 = 34 ∧
    (LTE_predict uneven_bdf2_settings quadratic_history_process).2 0 = 0 ∧
    (0 : ℚ) < lte_settings.dt_last ∧ (0 : ℚ) < lte_settings.dt_last_last ∧
    (LTE_predict lte_settings linear_history_process).1 0 = 7 ∧
    (LTE_predict lte_settings linear_history_process).2 0 = 0 := by
  have h1 : (0 : ℚ) < uneven_bdf2_settings.dt_last := by norm_num [uneven_bdf2_settings]
  have h2 : (0 : ℚ) < uneven_bdf2_settings.dt_last_last := by norm_num [uneven_bdf2_settings]
  have g1 : (0 : ℚ) < lte_settings.dt_last := by norm_num [lte_settings]
  have g2 : (0 : ℚ) < lte_settings.dt_last_last := by norm_num [lte_settings]
  have hxn : quadratic_history_process.x_n 0 = 1 + 2 * 2 + 3 * (2 : ℚ) ^ 2 := by
    norm_num [quadratic_history_process]
  have hxn1 : quadratic_history_process.x_n1 0 = 1 + 2 * (2 - uneven_bdf2_settings.dt_last) +
      3 * (2 - uneven_bdf2_settings.dt_last) ^ 2 := by
    norm_num [quadratic_history_process, uneven_bdf2_settings]
  have hxn2 : quadratic_history_process.x_n2 0 =
      1 + 2 * (2 - uneven_bdf2_settings.dt_last - uneven_bdf2_settings.dt_last_last) +
      3 * (2 - uneven_bdf2_settings.dt_last - uneven_bdf2_settings.dt_last_last) ^ 2 := by
    norm_num [quadratic_history_process, uneven_bdf2_settings]
  obtain ⟨hcoef, hsecond, _, _⟩ :=
    predictor_exact uneven_bdf2_settings quadratic_history_process h1 h2
  obtain ⟨hxp, hval, hlte⟩ := hsecond rfl rfl 1 2 3 2 0 hxn hxn1 hxn2
  have hval34 : (LTE_predict uneven_bdf2_settings quadratic_history_process).1 0 = 34 := by
    rw [hval]
    norm_num [uneven_bdf2_settings]
  have hlte0 : (LTE_predict uneven_bdf2_settings quadratic_history_process).2 0 = 0 := by
    apply hlte
    norm_num [quadratic_history_process, uneven_bdf2_settings]
  obtain ⟨_, _, _, hfirst⟩ := predictor_exact lte_settings linear_history_process g1 g2
  obtain ⟨hval1, hlte1⟩ := hfirst (Or.inl rfl) 1 2 2 0
    (by norm_num [linear_history_process])
    (by norm_num [linear_history_process, lte_settings])
  have hval7 : (LTE_predict lte_settings linear_history_process).1 0 = 7 := by
    rw [hval1]
    norm_num [lte_settings]
  have hlte10 : (LTE_predict lte_settings linear_history_process).2 0 = 0 := by
    apply hlte1
    norm_num [linear_history_process, lte_settings]
  refine ⟨h1, h2, ?_, ?_, ?_, (hcoef 2).1, hxn, hxn1, hxn2, hxp, hval34, hlte0, g1, g2,
    hval7, hlte10⟩
  · norm_num [cn, uneven_bdf2_settings]
  · norm_num [cn1, uneven_bdf2_settings]
  · norm_num [cn2, uneven_bdf2_settings]

/-! ### `FVM_PML_NodeData`: the complex cells -/

theorem DataStorage.complex_assign_same {κ ζ : Type} (ds : DataStorage κ ζ) (v offset : Nat)
    (z : ζ) : (ds.complex_assign v offset z).complex v offset = z := by
  simp [DataStorage.complex_assign, DataStorage.complex]

theorem DataStorage.complex_assign_other {κ ζ : Type} (ds : DataStorage κ ζ)
    (v v1 offset offset1 : Nat) (z : ζ) (hv : v1 ≠ v) :
    (ds.complex_assign v offset z).complex v1 offset1 = ds.complex v1 offset1 := by
  simp [DataStorage.complex_assign, DataStorage.complex, Function.update, hv]

/-- C19: `psi_ac()` indexes the complex storage with `_psi_` (value 0) and `OptE_complex()` with
`_OpE_complex_` (value 0), so for every node both address the same cell: a value written
through `psi_ac()` is read back by `OptE_complex()` and a value written through
`OptE_complex()` is read back by `psi_ac()`, while `OptH_complex()` (index 1) is unaffected by
either write; the complex enumerators below `ComplexDataCount = 2` are `_OpE_complex_` and
`_OpH_complex_` only, none being reserved for `psi_ac`. -/
theorem psi_ac_aliases_OptE_complex {κ ζ : Type} (nd : FVM_PML_NodeData κ ζ) (z : ζ) :
    PMLData._psi_.value = 0 ∧ PMLAuxComplexData._OpE_complex_.value = 0 ∧
    PMLAuxComplexData._OpH_complex_.value = 1 ∧
    PMLAuxComplexData.ComplexDataCount.value = 2 ∧
    FVM_PML_NodeData.n_complex = 2 ∧
    nd.psi_ac = nd.OptE_complex ∧
    (nd.psi_ac_assign z).OptE_complex = z ∧
    (nd.OptE_complex_assign z).psi_ac = z ∧
    nd.psi_ac_assign z = nd.OptE_complex_assign z ∧
    (nd.psi_ac_assign z).OptH_complex = nd.OptH_complex ∧
    (nd.OptE_complex_assign z).OptH_complex = nd.OptH_complex ∧
    (∀ e : PMLAuxComplexData, e.value < PMLAuxComplexData.ComplexDataCount.value →
      e = PMLAuxComplexData._OpE_complex_ ∨ e = PMLAuxComplexData._OpH_complex_) := by
  refine ⟨rfl, rfl, rfl, rfl, rfl, rfl, ?_, ?_, rfl, ?_, ?_, ?_⟩
  · exact DataStorage.complex_assign_same _ _ _ _
  · exact DataStorage.complex_assign_same _ _ _ _
  · exact DataStorage.complex_assign_other nd._data_storage PMLData._psi_.value
      PMLAuxComplexData._OpH_complex_.value nd._offset nd._offset z (by decide)
  · exact DataStorage.complex_assign_other nd._data_storage
      PMLAuxComplexData._OpE_complex_.value PMLAuxComplexData._OpH_complex_.value
      nd._offset nd._offset z (by decide)
  · intro e he
    cases e with
    | _OpE_complex_ => exact Or.inl rfl
    | _OpH_complex_ => exact Or.inr rfl
    | ComplexDataCount => exact absurd he (by decide)

end Solver

end Genius
